import Mathlib

/-!
# The command test harness of `cmd/mattermost/commands/cmdtestlib.go`

A shallow embedding of the argument builder (`execArgs`), of the output
normalisation done by `CheckCommand`, and of `SetConfig`, together with the
parts of the Go standard library they call (`unicode/utf8`, `unicode`,
`strings`, `strconv`/`fmt`, `path/filepath` for Unix).

Go strings are byte sequences.  A byte is a natural number below 256; the
definitions treat every larger number as an invalid byte, so each theorem
that is stated for all lists holds in particular for all Go strings.
Go's `int` is the 64 bit two's complement integer; additions wrap.
-/

namespace Cmdtestlib

/-- A Go string: its bytes, in order. -/
abbrev GoString := List Nat

/-- The bytes of an ASCII string literal of the source. -/
def lit (s : String) : GoString := s.toList.map Char.toNat

/-! ## `unicode/utf8` -/

namespace utf8

def RuneError : Nat := 0xFFFD
def RuneSelf : Nat := 0x80
def UTFMax : Nat := 4

/-- The table `first`: information about the first byte of an encoding.
`0xF0` (`as`) is ASCII, `0xF1` (`xx`) is invalid, otherwise the low three
bits are the size and the high four bits index `acceptRanges`. -/
def first (b : Nat) : Nat :=
  if b < 0x80 then 0xF0
  else if b < 0xC2 then 0xF1
  else if b < 0xE0 then 0x02
  else if b = 0xE0 then 0x13
  else if b < 0xED then 0x03
  else if b = 0xED then 0x23
  else if b < 0xF0 then 0x03
  else if b = 0xF0 then 0x34
  else if b < 0xF4 then 0x04
  else if b = 0xF4 then 0x44
  else 0xF1

/-- The table `acceptRanges`: the range of valid second bytes. -/
def acceptRanges (i : Nat) : Nat × Nat :=
  if i = 0 then (0x80, 0xBF)
  else if i = 1 then (0xA0, 0xBF)
  else if i = 2 then (0x80, 0x9F)
  else if i = 3 then (0x90, 0xBF)
  else if i = 4 then (0x80, 0x8F)
  else (0, 0)

/-- `utf8.DecodeRuneInString`: the first rune of `s` and its width in bytes;
`(RuneError, 0)` for the empty string, `(RuneError, 1)` for an invalid
encoding. -/
def DecodeRuneInString (s : GoString) : Nat × Nat :=
  match s with
  | [] => (RuneError, 0)
  | s0 :: t =>
    let x := first s0
    if 0xF0 ≤ x then
      (if x = 0xF0 then s0 else RuneError, 1)
    else
      let sz := x % 8
      let accept := acceptRanges (x / 16)
      if (s0 :: t).length < sz then (RuneError, 1)
      else
        let s1 := t.getD 0 0
        if s1 < accept.1 ∨ accept.2 < s1 then (RuneError, 1)
        else if sz ≤ 2 then (((s0 &&& 0x1F) <<< 6) ||| (s1 &&& 0x3F), 2)
        else
          let s2 := t.getD 1 0
          if s2 < 0x80 ∨ 0xBF < s2 then (RuneError, 1)
          else if sz ≤ 3 then
            (((s0 &&& 0x0F) <<< 12) ||| ((s1 &&& 0x3F) <<< 6) ||| (s2 &&& 0x3F), 3)
          else
            let s3 := t.getD 2 0
            if s3 < 0x80 ∨ 0xBF < s3 then (RuneError, 1)
            else
              (((s0 &&& 0x07) <<< 18) ||| ((s1 &&& 0x3F) <<< 12) |||
                ((s2 &&& 0x3F) <<< 6) ||| (s3 &&& 0x3F), 4)

/-- `utf8.RuneStart`: the byte is not a continuation byte. -/
def RuneStart (b : Nat) : Bool := b &&& 0xC0 != 0x80

/-- The backward scan of `DecodeLastRuneInString`:
`for start--; start >= lim; start-- { if RuneStart(s[start]) { break } }`.
The argument `k` is `start + 1` before the decrement; the result is
`start + 1` after the loop (so `0` stands for `start = -1`). -/
def scanBack (s : GoString) (lim : Nat) : Nat → Nat
  | 0 => 0
  | start + 1 =>
    if lim ≤ start then
      if RuneStart (s.getD start 0) then start + 1 else scanBack s lim start
    else start + 1

/-- `utf8.DecodeLastRuneInString`: the last rune of `s` and its width. -/
def DecodeLastRuneInString (s : GoString) : Nat × Nat :=
  let «end» := s.length
  if «end» = 0 then (RuneError, 0)
  else
    let start := «end» - 1
    let r := s.getD start 0
    if r < RuneSelf then (r, 1)
    else
      let lim := «end» - UTFMax
      let start := scanBack s lim start - 1
      let rs := DecodeRuneInString (s.drop start)
      if start + rs.2 ≠ «end» then (RuneError, 1) else rs

end utf8

/-! ## `unicode` -/

namespace unicode

/-- The 16 bit ranges of the table `White_Space` above Latin-1
(`lo`, `hi`; every stride is 1). -/
def White_Space : List (Nat × Nat) :=
  [(0x1680, 0x1680), (0x2000, 0x200a), (0x2028, 0x2029), (0x202f, 0x202f),
   (0x205f, 0x205f), (0x3000, 0x3000)]

/-- `unicode.IsSpace`. -/
def IsSpace (r : Nat) : Bool :=
  if r ≤ 0xFF then
    r = 0x09 || r = 0x0A || r = 0x0B || r = 0x0C || r = 0x0D || r = 0x20 ||
      r = 0x85 || r = 0xA0
  else
    White_Space.any fun rg => rg.1 ≤ r && r ≤ rg.2

end unicode

/-! ## `strings` -/

namespace strings

/-- `strings.indexFunc`, the loop `for i, r := range s`: the byte index of
the first rune `r` of `s` with `f r = truth`, `none` for Go's `-1`.  `i` is
the index of the first byte of `s` in the whole string; `fuel` bounds the
number of runes read. -/
def indexFunc (f : Nat → Bool) (truth : Bool) : Nat → Nat → GoString → Option Nat
  | 0, _, _ => none
  | fuel + 1, i, s =>
    match s with
    | [] => none
    | c :: t =>
      let rs := utf8.DecodeRuneInString (c :: t)
      if f rs.1 = truth then some i
      else indexFunc f truth fuel (i + rs.2) ((c :: t).drop rs.2)

/-- `strings.lastIndexFunc`: the byte index of the last rune `r` of `s` with
`f r = truth`, reading `s` backwards; `none` for Go's `-1`.  The argument is
the part `s[0:i]` not read yet. -/
def lastIndexFunc (f : Nat → Bool) (truth : Bool) : Nat → GoString → Option Nat
  | 0, _ => none
  | fuel + 1, s =>
    if s.length = 0 then none
    else
      let rs := utf8.DecodeLastRuneInString s
      let i := s.length - rs.2
      if f rs.1 = truth then some i
      else lastIndexFunc f truth fuel (s.take i)

/-- `strings.TrimLeftFunc`. -/
def TrimLeftFunc (s : GoString) (f : Nat → Bool) : GoString :=
  match indexFunc f false s.length 0 s with
  | none => []
  | some i => s.drop i

/-- `strings.TrimRightFunc`. -/
def TrimRightFunc (s : GoString) (f : Nat → Bool) : GoString :=
  match lastIndexFunc f false s.length s with
  | none => s.take 0
  | some i =>
    if utf8.RuneSelf ≤ s.getD i 0 then
      s.take (i + (utf8.DecodeRuneInString (s.drop i)).2)
    else s.take (i + 1)

/-- `strings.TrimFunc`. -/
def TrimFunc (s : GoString) (f : Nat → Bool) : GoString :=
  TrimRightFunc (TrimLeftFunc s f) f

/-- `strings.TrimSpace`: `TrimFunc(s, unicode.IsSpace)`.  (Later releases of
Go go through leading and trailing ASCII bytes first; the result is the
same.) -/
def TrimSpace (s : GoString) : GoString := TrimFunc s unicode.IsSpace

/-- `strings.HasSuffix`. -/
def HasSuffix (s suffix : GoString) : Bool :=
  suffix.length ≤ s.length && s.drop (s.length - suffix.length) == suffix

/-- `strings.TrimSuffix`. -/
def TrimSuffix (s suffix : GoString) : GoString :=
  if HasSuffix s suffix then s.take (s.length - suffix.length) else s

/-- `strings.Index`: the index of the first instance of `sep` in `s`,
`none` for Go's `-1`. -/
def Index : GoString → GoString → Option Nat
  | [], sep => if sep = [] then some 0 else none
  | c :: t, sep =>
    if sep.isPrefixOf (c :: t) then some 0
    else (Index t sep).map fun m => m + 1

/-- The loop of `strings.genSplit` (with `sepSave = 0`, `sep` not empty):
the argument counts the iterations `i < n` still allowed. -/
def genSplit (sep : GoString) : Nat → GoString → List GoString
  | 0, s => [s]
  | k + 1, s =>
    match Index s sep with
    | none => [s]
    | some m => s.take m :: genSplit sep k (s.drop (m + sep.length))

/-- `strings.SplitN(s, sep, n)` for `n ≥ 0` and a separator that is not
empty. -/
def SplitN (s sep : GoString) (n : Nat) : List GoString :=
  if n = 0 then [] else genSplit sep (n - 1) s

/-- `strings.Join`. -/
def Join : List GoString → GoString → GoString
  | [], _ => []
  | [a], _ => a
  | a :: b :: rest, sep => a ++ sep ++ Join (b :: rest) sep

end strings

/-! ## `strconv` and `fmt` -/

namespace strconv

/-- The decimal digits of `n`, most significant first; `fuel` bounds their
number. -/
def formatBits : Nat → Nat → GoString
  | 0, _ => []
  | fuel + 1, n =>
    if n < 10 then [48 + n] else formatBits fuel (n / 10) ++ [48 + n % 10]

/-- `strconv.FormatUint(n, 10)`. -/
def FormatUint (n : Nat) : GoString := formatBits (n + 1) n

/-- `strconv.FormatInt(i, 10)`. -/
def FormatInt (i : Int) : GoString :=
  if i < 0 then 45 :: FormatUint (-i).toNat else FormatUint i.toNat

end strconv

namespace fmt

/-- `fmt.Sprintf("%v-%v-%v", a, b, c)` for two strings and an `int`. -/
def Sprintf (a b : GoString) (c : Int) : GoString :=
  a ++ lit "-" ++ b ++ lit "-" ++ strconv.FormatInt c

end fmt

/-! ## `path/filepath` (Unix: the separator is `/`, there is no volume name) -/

namespace filepath

def Separator : Nat := 47

/-- `os.IsPathSeparator`. -/
def IsPathSeparator (c : Nat) : Bool := c == Separator

/-- The loop `for out.w > dotdot && !IsPathSeparator(out.index(out.w)) { out.w-- }`
of `Clean`, started at `out.w = w`; the result is the final `out.w`. -/
def backtrack (out : GoString) (dotdot : Nat) : Nat → Nat
  | 0 => 0
  | w + 1 =>
    if dotdot < w + 1 && !IsPathSeparator (out.getD (w + 1) 0) then backtrack out dotdot w
    else w + 1

/-- The main loop `for r < n` of `Clean`.  The list is `path[r:]`, the pair
is the buffer written so far (`out`, with `out.w` its length) and `dotdot`;
`fuel` bounds the number of iterations. -/
def cleanLoop (rooted : Bool) : Nat → GoString → GoString × Nat → GoString × Nat
  | 0, _, st => st
  | _ + 1, [], st => st
  | fuel + 1, c :: t, (out, dotdot) =>
    if IsPathSeparator c then
      -- empty path element
      cleanLoop rooted fuel t (out, dotdot)
    else if c = 46 ∧ (t = [] ∨ IsPathSeparator (t.headD 0)) then
      -- . element
      cleanLoop rooted fuel t (out, dotdot)
    else if c = 46 ∧ t.headD 0 = 46 ∧ (t.tail = [] ∨ IsPathSeparator (t.tail.headD 0)) then
      -- .. element: remove to last separator
      if dotdot < out.length then
        cleanLoop rooted fuel t.tail (out.take (backtrack out dotdot (out.length - 1)), dotdot)
      else if !rooted then
        let out1 := if 0 < out.length then out ++ [Separator] else out
        let out2 := out1 ++ [46, 46]
        cleanLoop rooted fuel t.tail (out2, out2.length)
      else cleanLoop rooted fuel t.tail (out, dotdot)
    else
      -- real path element: add slash if needed, copy element
      let out1 :=
        if (rooted && out.length != 1) || (!rooted && out.length != 0) then out ++ [Separator]
        else out
      cleanLoop rooted fuel ((c :: t).dropWhile fun b => !IsPathSeparator b)
        (out1 ++ (c :: t).takeWhile fun b => !IsPathSeparator b, dotdot)

/-- `filepath.Clean`. -/
def Clean (path : GoString) : GoString :=
  if path = [] then lit "."
  else
    let rooted := IsPathSeparator (path.headD 0)
    let st := cleanLoop rooted path.length (if rooted then path.drop 1 else path)
      (if rooted then ([Separator], 1) else ([], 0))
    if st.1.length = 0 then lit "." else st.1

/-- The scan `for i >= 0 && !IsPathSeparator(path[i]) { i-- }` of `Dir` and
`Base`; the argument and the result are `i + 1`. -/
def scanSep (path : GoString) : Nat → Nat
  | 0 => 0
  | i + 1 => if !IsPathSeparator (path.getD i 0) then scanSep path i else i + 1

/-- `filepath.Dir`. -/
def Dir (path : GoString) : GoString :=
  Clean (path.take (scanSep path path.length))

/-- The loop of `Base` that strips trailing slashes; the argument is
`len(path)`. -/
def stripSlashes (path : GoString) : Nat → GoString
  | 0 => path.take 0
  | n + 1 => if IsPathSeparator (path.getD n 0) then stripSlashes path n else path.take (n + 1)

/-- `filepath.Base`. -/
def Base (path : GoString) : GoString :=
  if path = [] then lit "."
  else
    let path := stripSlashes path path.length
    let path := path.drop (scanSep path path.length)
    if path = [] then [Separator] else path

/-- `filepath.Join`. -/
def Join : List GoString → GoString
  | [] => []
  | e :: rest =>
    if e ≠ [] then Clean (strings.Join (e :: rest) [Separator]) else Join rest

end filepath

/-! ## The harness -/

/-- Go's `int` on a 64 bit platform: the value of `x` as a 64 bit two's
complement integer.  Addition of `int`s wraps around. -/
def wrapInt (x : Int) : Int := (x + 2 ^ 63) % 2 ^ 64 - 2 ^ 63

/-- The table `coverprofileCounters`, a `map[string]int`: a key that is
absent reads as `0`. -/
abbrev Counters := GoString → Int

/-- The table `make(map[string]int)`. -/
def Counters.empty : Counters := fun _ => 0

/-- A `model.Config`, of which the harness touches `SqlSettings` only:
`other` stands for all its other fields. -/
structure Config (S O : Type) where
  SqlSettings : S
  other : O

/-- The struct `testHelper`, without the embedded `*api4.TestHelper`, which
none of the functions below reads. -/
structure testHelper (S O : Type) where
  config : Option (Config S O)
  tempDir : GoString
  configFilePath : GoString

/-- `testHelper.execArgs`.  `coverprofile` is the value of the flag
`test.coverprofile`, `name` is `t.Name()`, and the table
`coverprofileCounters` is passed in and returned. -/
def execArgs {S O : Type} (coverprofile : GoString) (h : testHelper S O) (name : GoString)
    (args : List GoString) (coverprofileCounters : Counters) : List GoString × Counters :=
  let ret := [lit "-test.v", lit "-test.run", lit "ExecCommand"]
  let (ret, coverprofileCounters) :=
    if coverprofile ≠ [] then
      let dir := filepath.Dir coverprofile
      let base := filepath.Base coverprofile
      let baseParts := strings.SplitN base (lit ".") 2
      let coverprofileCounters :=
        Function.update coverprofileCounters name (wrapInt (coverprofileCounters name + 1))
      let baseParts :=
        baseParts.set 0 (fmt.Sprintf (baseParts.getD 0 []) name (coverprofileCounters name))
      (ret ++ [lit "-test.coverprofile",
        filepath.Join [dir, strings.Join baseParts (lit ".")]], coverprofileCounters)
    else (ret, coverprofileCounters)
  let ret := ret ++ [lit "--", lit "--disableconfigwatch"]
  -- Unless the test passes a `--config` of its own, create a temporary one from the default
  -- configuration with the current test database applied.
  let hasConfig := args.any fun arg => arg == lit "--config"
  let ret := if !hasConfig then ret ++ [lit "--config", h.configFilePath] else ret
  (ret ++ args, coverprofileCounters)

/-- The value `CheckCommand` returns, as a function of the captured output:
`strings.TrimSpace(strings.TrimSuffix(strings.TrimSpace(string(output)), "PASS"))`. -/
def normalize (output : GoString) : GoString :=
  strings.TrimSpace (strings.TrimSuffix (strings.TrimSpace output) (lit "PASS"))

/-- `testHelper.CheckCommand`.  `executable` is the result of
`os.Executable()` (`none` for an error) and `run path args` the result of
`exec.Command(path, args...).CombinedOutput()`: the output and whether the
error is `nil`.  A failed `require.NoError` ends the test: `none`. -/
def CheckCommand {S O : Type} (executable : Option GoString)
    (run : GoString → List GoString → GoString × Bool) (coverprofile : GoString)
    (h : testHelper S O) (name : GoString) (args : List GoString)
    (coverprofileCounters : Counters) : Option GoString × Counters :=
  match executable with
  | none => (none, coverprofileCounters)
  | some path =>
    let (argv, coverprofileCounters) := execArgs coverprofile h name args coverprofileCounters
    let (output, ok) := run path argv
    if ok then (some (normalize output), coverprofileCounters) else (none, coverprofileCounters)

/-- The files of the machine: the content stored at each path. -/
abbrev FileSystem := GoString → Option GoString

/-- `ioutil.WriteFile(filename, data, 0600)`: it replaces the content stored
at `filename`, or fails (`none`) where the environment does not let the file
be written. -/
def WriteFile (writable : GoString → Bool) (fs : FileSystem) (filename data : GoString) :
    Option FileSystem :=
  if writable filename then some (Function.update fs filename (some data)) else none

/-- `*testlib.MainHelper`, of which the harness reads `Settings` (a pointer)
only. -/
structure MainHelper (S : Type) where
  Settings : Option S

/-- `testHelper.SetConfig`.  `mainHelper` is the package variable (`none`
for `nil`), `ToJson` the method `model.Config.ToJson`, `config` the pointer
passed in.  A nil dereference or a failed write panics: `none`. -/
def SetConfig {S O : Type} (mainHelper : Option (MainHelper S)) (ToJson : Config S O → GoString)
    (writable : GoString → Bool) (h : testHelper S O) (config : Option (Config S O))
    (fs : FileSystem) : Option (testHelper S O × FileSystem) :=
  match mainHelper, config with
  | some mh, some config =>
    match mh.Settings with
    | none => none
    | some settings =>
      let config := { config with SqlSettings := settings }
      let h := { h with config := some config }
      match WriteFile writable fs h.configFilePath (ToJson config) with
      | none => none
      | some fs => some (h, fs)
  | _, _ => none

/-- `Setup`, after `ioutil.TempDir` returned `dir` and `SetDefaults` built
`defaults`. -/
def Setup {S O : Type} (mainHelper : Option (MainHelper S)) (ToJson : Config S O → GoString)
    (writable : GoString → Bool) (dir : GoString) (defaults : Config S O) (fs : FileSystem) :
    Option (testHelper S O × FileSystem) :=
  let testHelper : testHelper S O :=
    { config := none, tempDir := dir, configFilePath := filepath.Join [dir, lit "config.json"] }
  SetConfig mainHelper ToJson writable testHelper (some defaults) fs

/-- The invariant `Setup` establishes, and which no method of the harness
changes: the configuration file is `config.json` in the temporary
directory. -/
def testHelper.Provisioned {S O : Type} (h : testHelper S O) : Prop :=
  h.configFilePath = filepath.Join [h.tempDir, lit "config.json"]

/-- One call of `execArgs`: the harness, the name of the running test and
the caller's arguments. -/
structure Invocation (S O : Type) where
  h : testHelper S O
  name : GoString
  args : List GoString

/-- A sequence of calls of `execArgs` in one process: each call works on the
table the calls before it left.  The result lists, for each call, the
arguments built and the table after the call. -/
def runInvocations {S O : Type} (coverprofile : GoString) :
    List (Invocation S O) → Counters → List (List GoString × Counters)
  | [], _ => []
  | inv :: rest, tbl =>
    execArgs coverprofile inv.h inv.name inv.args tbl ::
      runInvocations coverprofile rest (execArgs coverprofile inv.h inv.name inv.args tbl).2

/-- The argument that follows the first `flag` of an argument list. -/
def argAfter (flag : GoString) : List GoString → Option GoString
  | [] => none
  | [_] => none
  | a :: b :: rest => if a = flag then some b else argAfter flag (b :: rest)

/-! ## Sample harnesses -/

/-- A harness as `Setup` builds it in the directory `/tmp/h`. -/
def sampleHelper : testHelper Unit Unit :=
  { config := none, tempDir := lit "/tmp/h", configFilePath := lit "/tmp/h/config.json" }

/-- A harness whose configuration file holds nothing yet. -/
def plainHelper : testHelper Nat Nat :=
  { config := none, tempDir := lit "/tmp/h", configFilePath := lit "/tmp/h/config.json" }

/-! ## The specification's file name rule -/

/-- The file name `f` with `ins` put before its extension, as the
specification words it: before the last dot of `f`, at the end of `f` when it
has no dot. -/
def insertBeforeLastDot (f ins : GoString) : GoString :=
  if 46 ∈ f then
    ((f.reverse.dropWhile fun b => b != 46).tail).reverse ++ ins ++
      46 :: (f.reverse.takeWhile fun b => b != 46).reverse
  else f ++ ins

/-- The file name `f` with `ins` put before its first dot, at the end of `f`
when it has no dot. -/
def insertBeforeFirstDot (f ins : GoString) : GoString :=
  (f.takeWhile fun b => b != 46) ++ ins ++ f.dropWhile fun b => b != 46

/-! ## Auxiliary definitions for the proofs -/

namespace utf8

/-- The part of `DecodeRuneInString` that reads an encoding of `sz` bytes
whose second byte must lie in the range `accept`; `R2`, `R3` and `R4` build
the rune from the bytes. -/
def decodeWith (R2 : Nat → Nat → Nat) (R3 : Nat → Nat → Nat → Nat)
    (R4 : Nat → Nat → Nat → Nat → Nat) (sz : Nat) (accept : Nat × Nat) (s0 : Nat)
    (t : GoString) : Nat × Nat :=
  if (s0 :: t).length < sz then (RuneError, 1)
  else
    let s1 := t.getD 0 0
    if s1 < accept.1 ∨ accept.2 < s1 then (RuneError, 1)
    else if sz ≤ 2 then (R2 s0 s1, 2)
    else
      let s2 := t.getD 1 0
      if s2 < 0x80 ∨ 0xBF < s2 then (RuneError, 1)
      else if sz ≤ 3 then (R3 s0 s1 s2, 3)
      else
        let s3 := t.getD 2 0
        if s3 < 0x80 ∨ 0xBF < s3 then (RuneError, 1)
        else (R4 s0 s1 s2 s3, 4)

/-- The part of `DecodeRuneInString` for a byte that is not ASCII. -/
def decodeMulti (s0 : Nat) (t : GoString) : Nat × Nat :=
  decodeWith (fun s0 s1 => ((s0 &&& 0x1F) <<< 6) ||| (s1 &&& 0x3F))
    (fun s0 s1 s2 => ((s0 &&& 0x0F) <<< 12) ||| ((s1 &&& 0x3F) <<< 6) ||| (s2 &&& 0x3F))
    (fun s0 s1 s2 s3 => ((s0 &&& 0x07) <<< 18) ||| ((s1 &&& 0x3F) <<< 12) |||
                ((s2 &&& 0x3F) <<< 6) ||| (s3 &&& 0x3F))
    (first s0 % 8) (acceptRanges (first s0 / 16)) s0 t

end utf8

namespace strings

/-- The string is empty or starts with a byte that is not a continuation
byte. -/
def StartsRune (x : GoString) : Prop := ∀ a y, x = a :: y → a < 0x80 ∨ 0xBF < a

/-- What `TrimRightFunc` returns for the index `lastIndexFunc` found. -/
def trimRightAt (s : GoString) (o : Option Nat) : GoString :=
  match o with
  | none => s.take 0
  | some i =>
    if utf8.RuneSelf ≤ s.getD i 0 then
      s.take (i + (utf8.DecodeRuneInString (s.drop i)).2)
    else s.take (i + 1)

end strings

namespace strconv

/-- The number a string of decimal digits denotes. -/
def digitsValue (ds : GoString) : Nat := ds.foldl (fun a d => 10 * a + (d - 48)) 0

end strconv

namespace filepath

/-- The loop of `Clean` on `path[r:]`, run to its end. -/
def cleanRun (rooted : Bool) (s : GoString) (st : GoString × Nat) : GoString × Nat :=
  cleanLoop rooted s.length s st

/-- What `Clean` does to its buffer at a `..` element. -/
def popElem (rooted : Bool) (st : GoString × Nat) : GoString × Nat :=
  if st.2 < st.1.length then (st.1.take (backtrack st.1 st.2 (st.1.length - 1)), st.2)
  else if !rooted then
    ((if 0 < st.1.length then st.1 ++ [Separator] else st.1) ++ [46, 46],
      ((if 0 < st.1.length then st.1 ++ [Separator] else st.1) ++ [46, 46]).length)
  else st

/-- What `Clean` does to its buffer at a real path element `e`. -/
def pushElem (rooted : Bool) (e : GoString) (st : GoString × Nat) : GoString × Nat :=
  ((if (rooted && st.1.length != 1) || (!rooted && st.1.length != 0) then st.1 ++ [Separator]
    else st.1) ++ e, st.2)

/-- The string is empty or ends with a separator. -/
def EndsSep (P : GoString) : Prop := P = [] ∨ ∃ Q, P = Q ++ [47]

/-- A real path element: not empty, without separator, neither `.` nor `..`. -/
def RealElem (L : GoString) : Prop := L ≠ [] ∧ (∀ b ∈ L, b ≠ 47) ∧ L ≠ [46] ∧ L ≠ [46, 46]

/-- A path of real path elements with one separator between two of them. -/
inductive RealPath : GoString → Prop
  | single {E : GoString} : RealElem E → RealPath E
  | cons {E F : GoString} : RealElem E → RealPath F → RealPath (E ++ 47 :: F)

/-- What `Clean` has written once it has read `P`, a path that is empty or
ends with a separator, and stands before a real path element. -/
def cleanDir (P : GoString) : GoString :=
  (pushElem (IsPathSeparator (P.headD 0)) []
    (cleanRun (IsPathSeparator (P.headD 0))
      (if IsPathSeparator (P.headD 0) then P.drop 1 else P)
      (if IsPathSeparator (P.headD 0) then ([Separator], 1) else ([], 0)))).1

end filepath

/-- The test name holds none of `//`, `/./` and `/../`: read as a path, none
of its elements between two separators is empty, `.` or `..`. -/
def CleanName (name : GoString) : Prop :=
  ¬ lit "//" <:+: name ∧ ¬ lit "/./" <:+: name ∧ ¬ lit "/../" <:+: name

instance (name : GoString) : Decidable (CleanName name) := by
  unfold CleanName
  infer_instance

/-- The file name `execArgs` builds from the base name of the cover profile,
the test name and the counter. -/
def coverFile (base name : GoString) (c : Int) : GoString :=
  strings.Join
    ((strings.SplitN base (lit ".") 2).set 0
      (fmt.Sprintf ((strings.SplitN base (lit ".") 2).getD 0 []) name c))
    (lit ".")

/-- The path `execArgs` passes after `-test.coverprofile`. -/
def coverPath (coverprofile name : GoString) (c : Int) : GoString :=
  filepath.Join [filepath.Dir coverprofile, coverFile (filepath.Base coverprofile) name c]

/-- What `execArgs` puts before `--disableconfigwatch`. -/
def execHead (coverprofile name : GoString) (tbl : Counters) : List GoString :=
  [lit "-test.v", lit "-test.run", lit "ExecCommand"] ++
    (if coverprofile ≠ [] then
      [lit "-test.coverprofile", coverPath coverprofile name (wrapInt (tbl name + 1))]
     else []) ++ [lit "--"]

/-- Number of calls made under the test name `n` in a list of calls. -/
def callsOf {S O : Type} (n : GoString) (invs : List (Invocation S O)) : Nat :=
  invs.countP fun v => decide (v.name = n)

set_option maxRecDepth 100000

/-! ## Facts about `filepath.Clean` -/

namespace filepath

theorem isPathSeparator_iff (c : Nat) : IsPathSeparator c = true ↔ c = 47 := by
  simp [IsPathSeparator, Separator]

theorem length_dropWhile_le (p : Nat → Bool) (l : GoString) :
    (l.dropWhile p).length ≤ l.length := by
  induction l with
  | nil => simp
  | cons a t ih =>
    simp only [List.dropWhile_cons]
    split
    · simp only [List.length_cons]; omega
    · exact le_refl _

/-- The loop of `Clean` ends within `len(path[r:])` iterations: more fuel
changes nothing. -/
theorem cleanLoop_fuel (rooted : Bool) :
    ∀ (fuel : Nat) (s : GoString) (st : GoString × Nat), s.length ≤ fuel →
      cleanLoop rooted fuel s st = cleanLoop rooted s.length s st := by
  intro fuel
  induction fuel using Nat.strong_induction_on with
  | _ fuel ih =>
    intro s st hle
    match fuel, s, st with
    | 0, [], st => rfl
    | fuel + 1, [], st => simp [cleanLoop]
    | fuel + 1, c :: t, (out, dotdot) =>
      have hdw : ((c :: t).dropWhile fun b => !IsPathSeparator b).length ≤ (c :: t).length :=
        length_dropWhile_le _ _
      have key : ∀ (u : GoString) (st2 : GoString × Nat), u.length ≤ t.length →
          cleanLoop rooted fuel u st2 = cleanLoop rooted t.length u st2 := by
        intro u st2 hu
        simp only [List.length_cons] at hle
        rw [ih fuel (by omega) u st2 (by omega)]
        by_cases hft : t.length = fuel
        · rw [hft]; exact (ih fuel (by omega) u st2 (by omega)).symm
        · exact (ih t.length (by omega) u st2 hu).symm
      have htail : t.tail.length ≤ t.length := by simp
      have hreal : ¬ IsPathSeparator c = true →
          ((c :: t).dropWhile fun b => !IsPathSeparator b).length ≤ t.length := by
        intro h1
        have hc : (!IsPathSeparator c) = true := by simpa using h1
        simp only [List.dropWhile_cons, hc, if_true]
        exact length_dropWhile_le _ _
      simp only [cleanLoop, List.length_cons]
      split_ifs
      all_goals first
        | exact key _ _ (le_refl _)
        | exact key _ _ htail
        | exact key _ _ (hreal (by assumption))

theorem Clean_eq (path : GoString) (hne : path ≠ []) :
    Clean path =
      (if (cleanRun (IsPathSeparator (path.headD 0))
            (if IsPathSeparator (path.headD 0) then path.drop 1 else path)
            (if IsPathSeparator (path.headD 0) then ([Separator], 1) else ([], 0))).1.length = 0
        then lit "."
        else (cleanRun (IsPathSeparator (path.headD 0))
            (if IsPathSeparator (path.headD 0) then path.drop 1 else path)
            (if IsPathSeparator (path.headD 0) then ([Separator], 1) else ([], 0))).1) := by
  have hlen : (if IsPathSeparator (path.headD 0) then path.drop 1 else path).length
      ≤ path.length := by
    split_ifs <;> simp
  simp only [Clean, cleanRun, if_neg hne]
  rw [cleanLoop_fuel _ path.length _ _ hlen]

theorem Clean_ne_nil (path : GoString) : Clean path ≠ [] := by
  have key : ∀ x : GoString, (if x.length = 0 then lit "." else x) ≠ [] := by
    intro x
    by_cases hx : x.length = 0
    · rw [if_pos hx]; decide
    · rw [if_neg hx]; intro h; rw [h] at hx; exact hx rfl
  by_cases hne : path = []
  · subst hne; decide
  · rw [Clean_eq path hne]
    exact key _

theorem cleanRun_nil (rooted : Bool) (st : GoString × Nat) : cleanRun rooted [] st = st := rfl

theorem cleanRun_cons (rooted : Bool) (c : Nat) (t : GoString) (st : GoString × Nat) :
    cleanRun rooted (c :: t) st =
      if IsPathSeparator c then cleanRun rooted t st
      else if c = 46 ∧ (t = [] ∨ IsPathSeparator (t.headD 0)) then cleanRun rooted t st
      else if c = 46 ∧ t.headD 0 = 46 ∧ (t.tail = [] ∨ IsPathSeparator (t.tail.headD 0)) then
        cleanRun rooted t.tail (popElem rooted st)
      else cleanRun rooted ((c :: t).dropWhile fun b => !IsPathSeparator b)
        (pushElem rooted ((c :: t).takeWhile fun b => !IsPathSeparator b) st) := by
  obtain ⟨out, dotdot⟩ := st
  have htail : t.tail.length ≤ t.length := by simp
  have hreal : ¬ IsPathSeparator c = true →
      ((c :: t).dropWhile fun b => !IsPathSeparator b).length ≤ t.length := by
    intro h1
    have hc : (!IsPathSeparator c) = true := by simpa using h1
    simp only [List.dropWhile_cons, hc, if_true]
    exact length_dropWhile_le _ _
  simp only [cleanRun, List.length_cons, cleanLoop, popElem, pushElem]
  split_ifs
  all_goals first
    | rfl
    | exact cleanLoop_fuel _ _ _ _ htail
    | exact cleanLoop_fuel _ _ _ _ (hreal (by assumption))

theorem endsSep_tail {c : Nat} {t : GoString} (h : EndsSep (c :: t)) : EndsSep t := by
  rcases h with h | ⟨Q, hQ⟩
  · cases h
  · cases Q with
    | nil => left; simp at hQ; exact hQ.2
    | cons q Q => right; simp at hQ; exact ⟨Q, hQ.2⟩

theorem endsSep_ne {c : Nat} {t : GoString} (h : EndsSep (c :: t)) (hc : c ≠ 47) : t ≠ [] := by
  rcases h with h | ⟨Q, hQ⟩
  · cases h
  · cases Q with
    | nil => simp at hQ; exact absurd hQ.1 hc
    | cons q Q => simp at hQ; intro ht; rw [ht] at hQ; simp at hQ

theorem endsSep_dropWhile {P : GoString} (h : EndsSep P) :
    EndsSep (P.dropWhile fun b => !IsPathSeparator b) := by
  induction P with
  | nil => left; rfl
  | cons c t ih =>
    simp only [List.dropWhile_cons]
    split
    · exact ih (endsSep_tail h)
    · exact h

theorem takeWhile_append_endsSep {c : Nat} {t : GoString} (X : GoString)
    (h : EndsSep (c :: t)) :
    ((c :: t) ++ X).takeWhile (fun b => !IsPathSeparator b)
        = (c :: t).takeWhile (fun b => !IsPathSeparator b) ∧
      ((c :: t) ++ X).dropWhile (fun b => !IsPathSeparator b)
        = (c :: t).dropWhile (fun b => !IsPathSeparator b) ++ X := by
  induction t generalizing c with
  | nil =>
    have hc : c = 47 := by
      rcases h with h | ⟨Q, hQ⟩
      · cases h
      · cases Q with
        | nil => simp at hQ; exact hQ
        | cons q Q => simp at hQ
    subst hc
    simp [IsPathSeparator, Separator]
  | cons d t ih =>
    have ih2 := ih (endsSep_tail h)
    by_cases hc : IsPathSeparator c = true
    · simp [List.takeWhile_cons, List.dropWhile_cons, hc]
    · simp only [List.cons_append] at ih2 ⊢
      simp only [List.takeWhile_cons (a := c), List.dropWhile_cons (x := c), hc]
      simp only [Bool.not_false, if_true]
      exact ⟨by rw [ih2.1], ih2.2⟩

/-- The loop of `Clean` reads a path that ends with a separator to its end
before it looks at what follows. -/
theorem cleanRun_append (rooted : Bool) :
    ∀ (n : Nat) (P : GoString), P.length ≤ n → EndsSep P →
      ∀ (X : GoString) (st : GoString × Nat),
        cleanRun rooted (P ++ X) st = cleanRun rooted X (cleanRun rooted P st) := by
  intro n
  induction n with
  | zero =>
    intro P hP _ X st
    have : P = [] := List.length_eq_zero.mp (by omega)
    subst this
    simp [cleanRun_nil]
  | succ n ih =>
    intro P hP hE X st
    cases P with
    | nil => simp [cleanRun_nil]
    | cons c t =>
      have hlen : t.length ≤ n := by simp at hP; omega
      have hEt := endsSep_tail hE
      by_cases hc : IsPathSeparator c = true
      · rw [List.cons_append, cleanRun_cons, cleanRun_cons, if_pos hc, if_pos hc]
        exact ih t hlen hEt X st
      · have hc47 : c ≠ 47 := fun h => hc ((isPathSeparator_iff c).mpr h)
        have htne : t ≠ [] := endsSep_ne hE hc47
        obtain ⟨d, u, rfl⟩ := List.exists_cons_of_ne_nil htne
        have htw := takeWhile_append_endsSep X hE
        have hdl : ((c :: d :: u).dropWhile fun b => !IsPathSeparator b).length ≤ n := by
          have hc2 : (!IsPathSeparator c) = true := by simpa using hc
          simp only [List.dropWhile_cons (x := c), hc2, if_true]
          exact le_trans (length_dropWhile_le _ _) hlen
        by_cases hd : IsPathSeparator d = true
        · -- the element is the single byte `c`
          rw [List.cons_append, cleanRun_cons, cleanRun_cons (t := d :: u), if_neg hc, if_neg hc]
          have e1 : (d :: u ++ X).headD 0 = d := rfl
          have e2 : (d :: u).headD 0 = d := rfl
          have hd46 : d ≠ 46 := by
            rw [isPathSeparator_iff] at hd; omega
          simp only [List.cons_append, List.headD_cons, hd, or_true, and_true, hd46,
            false_and, and_false, if_false]
          by_cases h46 : c = 46
          · simp only [h46, if_true]
            exact ih (d :: u) hlen hEt X st
          · simp only [h46, if_false]
            rw [← List.cons_append, ← List.cons_append, htw.1, htw.2]
            exact ih _ hdl (endsSep_dropWhile hE) X _
        · have hd47 : d ≠ 47 := fun h => hd ((isPathSeparator_iff d).mpr h)
          have hune : u ≠ [] := endsSep_ne hEt hd47
          obtain ⟨e, v, rfl⟩ := List.exists_cons_of_ne_nil hune
          rw [List.cons_append, cleanRun_cons, cleanRun_cons (t := d :: e :: v),
            if_neg hc, if_neg hc]
          simp only [List.cons_append, List.headD_cons, List.tail_cons, hd, or_false,
            reduceCtorEq, false_or, Bool.false_eq_true]
          by_cases hdd : c = 46 ∧ d = 46 ∧ IsPathSeparator e = true
          · simp only [hdd.1, hdd.2.1, hdd.2.2, and_self, and_false, if_false, if_true]
            exact ih (e :: v) (by simp at hlen ⊢; omega) (endsSep_tail hEt) X _
          · have hdd2 : ¬ (c = 46 ∧ d = 46 ∧ IsPathSeparator e = true) := hdd
            simp only [and_false, if_false, hdd2]
            rw [← List.cons_append, ← List.cons_append, ← List.cons_append, htw.1, htw.2]
            exact ih _ hdl (endsSep_dropWhile hE) X _

theorem takeWhile_noSep (L : GoString) (h : ∀ b ∈ L, b ≠ 47) :
    L.takeWhile (fun b => !IsPathSeparator b) = L ∧
      L.dropWhile (fun b => !IsPathSeparator b) = [] := by
  induction L with
  | nil => simp
  | cons c t ih =>
    have hc : IsPathSeparator c = false := by
      have := h c (List.mem_cons_self _ _)
      simp [IsPathSeparator, Separator, this]
    have ih2 := ih (fun b hb => h b (List.mem_cons_of_mem _ hb))
    simp [List.takeWhile_cons, List.dropWhile_cons, hc, ih2.1, ih2.2]

theorem cleanRun_real (rooted : Bool) (L : GoString) (hL : RealElem L) (st : GoString × Nat) :
    cleanRun rooted L st = pushElem rooted L st := by
  obtain ⟨hne, hno, h1, h2⟩ := hL
  obtain ⟨c, t, rfl⟩ := List.exists_cons_of_ne_nil hne
  have hc : IsPathSeparator c = false := by
    have := hno c (List.mem_cons_self _ _)
    simp [IsPathSeparator, Separator, this]
  have hhead : ∀ u : GoString, (∀ b ∈ u, b ≠ 47) → IsPathSeparator (u.headD 0) = false := by
    intro u hu
    cases u with
    | nil => decide
    | cons d v =>
      have := hu d (List.mem_cons_self _ _)
      simp [IsPathSeparator, Separator, this]
  have ht : ∀ b ∈ t, b ≠ 47 := fun b hb => hno b (List.mem_cons_of_mem _ hb)
  have htt : ∀ b ∈ t.tail, b ≠ 47 := fun b hb => ht b (List.mem_of_mem_tail hb)
  have hdot : ¬ (c = 46 ∧ (t = [] ∨ IsPathSeparator (t.headD 0) = true)) := by
    rintro ⟨rfl, h | h⟩
    · subst h; exact h1 rfl
    · rw [hhead t ht] at h; exact Bool.false_ne_true h
  have hdotdot : ¬ (c = 46 ∧ t.headD 0 = 46 ∧
      (t.tail = [] ∨ IsPathSeparator (t.tail.headD 0) = true)) := by
    rintro ⟨rfl, hd, h | h⟩
    · cases t with
      | nil => simp at hd
      | cons d v =>
        simp at hd h
        subst hd; subst h
        exact h2 rfl
    · rw [hhead _ htt] at h; exact Bool.false_ne_true h
  have htw := takeWhile_noSep (c :: t) hno
  rw [cleanRun_cons, if_neg (by simp [hc]), if_neg hdot, if_neg hdotdot, htw.1, htw.2,
    cleanRun_nil]

/-- `Clean` keeps a last element that is a real path element as it is. -/
theorem Clean_append_real (P L : GoString) (hP : EndsSep P) (hL : RealElem L) :
    Clean (P ++ L) = cleanDir P ++ L := by
  have hne : P ++ L ≠ [] := by
    intro h; exact hL.1 (List.append_eq_nil.mp h).2
  have hpush : ∀ (r : Bool) (st : GoString × Nat),
      (if (pushElem r L st).1.length = 0 then lit "." else (pushElem r L st).1)
        = (pushElem r [] st).1 ++ L := by
    intro r st
    have hlen : (pushElem r L st).1.length ≠ 0 := by
      have := List.length_pos.mpr hL.1
      simp only [pushElem, List.length_append]; omega
    rw [if_neg hlen]
    simp [pushElem]
  rw [Clean_eq _ hne]
  cases P with
  | nil =>
    obtain ⟨c, t, rfl⟩ := List.exists_cons_of_ne_nil hL.1
    have hc : IsPathSeparator c = false := by
      have := hL.2.1 c (List.mem_cons_self _ _)
      simp [IsPathSeparator, Separator, this]
    simp only [List.nil_append, List.headD_cons, hc, Bool.false_eq_true, if_false]
    rw [cleanRun_real _ _ hL, hpush]
    simp [cleanDir, cleanRun_nil, IsPathSeparator, Separator]
  | cons c t =>
    have hEt := endsSep_tail hP
    simp only [List.cons_append, List.headD_cons, cleanDir]
    by_cases hc : IsPathSeparator c = true
    · simp only [hc, if_true, List.drop_succ_cons, List.drop_zero]
      rw [cleanRun_append _ t.length t (le_refl _) hEt, cleanRun_real _ _ hL, hpush]
    · simp only [hc, if_false, Bool.false_eq_true]
      rw [← List.cons_append, cleanRun_append _ (c :: t).length (c :: t) (le_refl _) hP,
        cleanRun_real _ _ hL, hpush]

theorem takeWhile_elem_sep (L X : GoString) (h : ∀ b ∈ L, b ≠ 47) :
    (L ++ 47 :: X).takeWhile (fun b => !IsPathSeparator b) = L ∧
      (L ++ 47 :: X).dropWhile (fun b => !IsPathSeparator b) = 47 :: X := by
  induction L with
  | nil => simp [IsPathSeparator, Separator]
  | cons c t ih =>
    have hc : IsPathSeparator c = false := by
      have := h c (List.mem_cons_self _ _)
      simp [IsPathSeparator, Separator, this]
    have ih2 := ih (fun b hb => h b (List.mem_cons_of_mem _ hb))
    simp [List.takeWhile_cons, List.dropWhile_cons, hc, ih2.1, ih2.2]

/-- The loop of `Clean` copies a real path element that a separator
follows and goes on behind the separator. -/
theorem cleanRun_elem_sep (rooted : Bool) (E X : GoString) (hE : RealElem E)
    (st : GoString × Nat) :
    cleanRun rooted (E ++ 47 :: X) st = cleanRun rooted X (pushElem rooted E st) := by
  obtain ⟨hne, hno, h1, h2⟩ := hE
  have htw := takeWhile_elem_sep E X hno
  have hsep : ∀ b : Nat, b ≠ 47 → IsPathSeparator b = false := by
    intro b hb; simp [IsPathSeparator, Separator, hb]
  have h47 : IsPathSeparator 47 = true := by decide
  have hfin : cleanRun rooted (47 :: X) (pushElem rooted E st)
      = cleanRun rooted X (pushElem rooted E st) := by
    rw [cleanRun_cons, if_pos h47]
  rcases E with _ | ⟨c, _ | ⟨d, t⟩⟩
  · exact absurd rfl hne
  · have hc := hno c (by simp)
    have hc46 : c ≠ 46 := fun e => h1 (by rw [e])
    have hdot : ¬ (c = 46 ∧ ((47 :: X) = [] ∨ IsPathSeparator ((47 :: X).headD 0) = true)) :=
      fun h => hc46 h.1
    have hdd : ¬ (c = 46 ∧ (47 :: X).headD 0 = 46 ∧
        ((47 :: X).tail = [] ∨ IsPathSeparator ((47 :: X).tail.headD 0) = true)) :=
      fun h => hc46 h.1
    rw [List.singleton_append, cleanRun_cons, if_neg (by rw [hsep c hc]; simp), if_neg hdot,
      if_neg hdd]
    rw [List.singleton_append] at htw
    rw [htw.1, htw.2, hfin]
  · have hc := hno c (by simp)
    have hd := hno d (by simp)
    have hdot : ¬ (c = 46 ∧ ((d :: t ++ 47 :: X) = [] ∨
        IsPathSeparator ((d :: t ++ 47 :: X).headD 0) = true)) := by
      rintro ⟨_, h | h⟩
      · cases h
      · simp [hsep d hd] at h
    have hdd : ¬ (c = 46 ∧ (d :: t ++ 47 :: X).headD 0 = 46 ∧
        ((d :: t ++ 47 :: X).tail = [] ∨
          IsPathSeparator ((d :: t ++ 47 :: X).tail.headD 0) = true)) := by
      rintro ⟨hc46, hd46, h⟩
      simp only [List.cons_append, List.headD_cons, List.tail_cons] at hd46 h
      cases t with
      | nil => exact h2 (by rw [hc46, hd46])
      | cons e u =>
        have he := hno e (by simp)
        rcases h with h | h
        · cases h
        · simp [hsep e he] at h
    rw [List.cons_append, cleanRun_cons, if_neg (by rw [hsep c hc]; simp), if_neg hdot,
      if_neg hdd]
    rw [List.cons_append] at htw
    rw [htw.1, htw.2, hfin]

theorem pushElem_eq (rooted : Bool) (E : GoString) (st : GoString × Nat) :
    pushElem rooted E st = ((pushElem rooted [] st).1 ++ E, st.2) := by
  simp [pushElem]

/-- Once a real path element is in the buffer, the next one is written
behind a separator. -/
theorem pushElem_twice (rooted : Bool) (E : GoString) (hE : E ≠ []) (st : GoString × Nat) :
    (pushElem rooted [] (pushElem rooted E st)).1 = (pushElem rooted [] st).1 ++ E ++ [47] := by
  have hlen : 0 < E.length := List.length_pos.mpr hE
  simp only [pushElem, List.append_nil, List.length_append]
  cases rooted
  · simp only [Bool.false_and, Bool.not_false, Bool.true_and, Bool.false_or]
    split_ifs with h1 h2 h2
    · simp [Separator]
    · exfalso; apply h2; simp only [List.length_append, List.length_singleton, bne_iff_ne]; omega
    · simp [Separator]
    · exfalso; apply h2; simp only [bne_iff_ne]; omega
  · simp only [Bool.true_and, Bool.not_true, Bool.false_and, Bool.or_false]
    split_ifs with h1 h2 h2
    · simp [Separator]
    · exfalso; apply h2; simp only [List.length_append, List.length_singleton, bne_iff_ne]; omega
    · simp [Separator]
    · exfalso; apply h2
      simp only [bne_iff_ne, ne_eq, Decidable.not_not] at h1
      simp only [bne_iff_ne]; omega

/-- The loop of `Clean` copies a path of real path elements as it is. -/
theorem cleanRun_realPath (rooted : Bool) (F : GoString) (hF : RealPath F) :
    ∀ st : GoString × Nat, cleanRun rooted F st = ((pushElem rooted [] st).1 ++ F, st.2) := by
  induction hF with
  | single hE =>
    intro st
    rw [cleanRun_real _ _ hE, pushElem_eq]
  | cons hE _ ih =>
    intro st
    rw [cleanRun_elem_sep _ _ _ hE, ih, pushElem_twice _ _ hE.1]
    simp [pushElem]

theorem realPath_ne_nil {F : GoString} (hF : RealPath F) : F ≠ [] := by
  cases hF with
  | single hE => exact hE.1
  | cons hE _ => intro h; exact hE.1 (List.append_eq_nil.mp h).1

theorem realPath_head {F : GoString} (hF : RealPath F) : IsPathSeparator (F.headD 0) = false := by
  have key : ∀ E X : GoString, RealElem E → IsPathSeparator ((E ++ X).headD 0) = false := by
    intro E X hE
    obtain ⟨c, t, rfl⟩ := List.exists_cons_of_ne_nil hE.1
    have := hE.2.1 c (List.mem_cons_self _ _)
    simp [IsPathSeparator, Separator, this]
  cases hF with
  | single hE => simpa using key _ [] hE
  | cons hE _ => exact key _ _ hE

/-- `Clean` keeps a path of real path elements at the end as it is. -/
theorem Clean_append_realPath (P F : GoString) (hP : EndsSep P) (hF : RealPath F) :
    Clean (P ++ F) = cleanDir P ++ F := by
  have hFne := realPath_ne_nil hF
  have hne : P ++ F ≠ [] := by
    intro h; exact hFne (List.append_eq_nil.mp h).2
  have hfin : ∀ (r : Bool) (st : GoString × Nat),
      (if ((pushElem r [] st).1 ++ F, st.2).1.length = 0 then lit "."
        else ((pushElem r [] st).1 ++ F, st.2).1) = (pushElem r [] st).1 ++ F := by
    intro r st
    have hlen : ((pushElem r [] st).1 ++ F, st.2).1.length ≠ 0 := by
      have := List.length_pos.mpr hFne
      simp only [List.length_append]; omega
    rw [if_neg hlen]
  rw [Clean_eq _ hne]
  cases P with
  | nil =>
    simp only [List.nil_append, realPath_head hF, Bool.false_eq_true, if_false]
    rw [cleanRun_realPath _ _ hF, hfin]
    simp [cleanDir, cleanRun_nil, IsPathSeparator, Separator]
  | cons c t =>
    have hEt := endsSep_tail hP
    simp only [List.cons_append, List.headD_cons, cleanDir]
    by_cases hc : IsPathSeparator c = true
    · simp only [hc, if_true, List.drop_succ_cons, List.drop_zero]
      rw [cleanRun_append _ t.length t (le_refl _) hEt, cleanRun_realPath _ _ hF, hfin]
    · simp only [hc, if_false, Bool.false_eq_true]
      rw [← List.cons_append, cleanRun_append _ (c :: t).length (c :: t) (le_refl _) hP,
        cleanRun_realPath _ _ hF, hfin]

end filepath

/-! ## The coverage file name -/

theorem lit_dot : lit "." = [46] := by decide

theorem lit_dash : lit "-" = [45] := by decide

namespace strings

theorem Index_dot (s : GoString) :
    Index s [46] = if 46 ∈ s then some (s.takeWhile fun b => b != 46).length else none := by
  induction s with
  | nil => simp [Index]
  | cons c t ih =>
    by_cases hc : c = 46
    · subst hc; simp [Index, List.isPrefixOf]
    · have hc2 : ¬ (46 = c) := fun h => hc h.symm
      simp only [Index, List.isPrefixOf, ih, List.mem_cons, hc2, false_or]
      have : (46 == c) = false := by simp [hc2]
      simp only [this, Bool.false_and, Bool.false_eq_true, if_false]
      by_cases hm : 46 ∈ t
      · simp [hm, List.takeWhile_cons, hc]
      · simp [hm]

theorem take_takeWhile_length (p : Nat → Bool) (s : GoString) :
    s.take (s.takeWhile p).length = s.takeWhile p ∧
      s.drop (s.takeWhile p).length = s.dropWhile p := by
  induction s with
  | nil => simp
  | cons c t ih =>
    by_cases hc : p c = true
    · simp [List.takeWhile_cons, List.dropWhile_cons, hc, ih.1, ih.2]
    · simp [List.takeWhile_cons, List.dropWhile_cons, hc]

theorem dropWhile_dot (s : GoString) (h : 46 ∈ s) :
    s.dropWhile (fun b => b != 46) = 46 :: (s.dropWhile fun b => b != 46).tail := by
  induction s with
  | nil => simp at h
  | cons c t ih =>
    by_cases hc : c = 46
    · subst hc; simp [List.dropWhile_cons]
    · have ht : 46 ∈ t := by
        rcases List.mem_cons.mp h with h | h
        · exact absurd h.symm hc
        · exact h
      simpa [List.dropWhile_cons, hc] using ih ht

theorem takeWhile_no_dot (s : GoString) (h : 46 ∉ s) :
    s.takeWhile (fun b => b != 46) = s ∧ s.dropWhile (fun b => b != 46) = [] := by
  induction s with
  | nil => simp
  | cons c t ih =>
    have hc : c ≠ 46 := fun e => h (e ▸ List.mem_cons_self _ _)
    have ih2 := ih (fun hm => h (List.mem_cons_of_mem _ hm))
    simp [List.takeWhile_cons, List.dropWhile_cons, hc, ih2.1, ih2.2]

/-- `SplitN(s, ".", 2)` cuts `s` at its first dot. -/
theorem SplitN_dot (s : GoString) :
    SplitN s (lit ".") 2 =
      if 46 ∈ s then [s.takeWhile fun b => b != 46, (s.dropWhile fun b => b != 46).tail]
      else [s] := by
  have h2 := take_takeWhile_length (fun b => b != 46) s
  rw [lit_dot]
  simp only [SplitN, genSplit, Index_dot]
  by_cases hm : 46 ∈ s
  · simp only [hm, if_true, List.length_singleton, ← List.drop_drop, h2.1, h2.2]
    simp
  · simp [hm]

end strings

/-- The file name is the base name with `-<name>-<counter>` put before its
first dot (at its end when it has none). -/
theorem coverFile_eq (base name : GoString) (c : Int) :
    coverFile base name c =
      (base.takeWhile fun b => b != 46) ++ [45] ++ name ++ [45] ++ strconv.FormatInt c ++
        base.dropWhile fun b => b != 46 := by
  unfold coverFile
  rw [strings.SplitN_dot]
  by_cases hm : 46 ∈ base
  · rw [if_pos hm]
    conv_rhs => rw [strings.dropWhile_dot base hm]
    simp [strings.Join, fmt.Sprintf, lit_dot, lit_dash]
  · rw [if_neg hm]
    have h := strings.takeWhile_no_dot base hm
    simp [strings.Join, fmt.Sprintf, lit_dash, h.1, h.2]

theorem execArgs_fst {S O : Type} (coverprofile : GoString) (h : testHelper S O)
    (name : GoString) (args : List GoString) (tbl : Counters) :
    (execArgs coverprofile h name args tbl).1 =
      [lit "-test.v", lit "-test.run", lit "ExecCommand"] ++
        (if coverprofile ≠ [] then
          [lit "-test.coverprofile", coverPath coverprofile name (wrapInt (tbl name + 1))]
         else []) ++
        [lit "--", lit "--disableconfigwatch"] ++
        (if (args.any fun arg => arg == lit "--config") then []
         else [lit "--config", h.configFilePath]) ++ args := by
  unfold execArgs coverPath coverFile
  by_cases hcp : coverprofile = [] <;>
    by_cases hc : (args.any fun arg => arg == lit "--config") = true <;>
    simp [hcp, hc]

theorem execArgs_snd {S O : Type} (coverprofile : GoString) (h : testHelper S O)
    (name : GoString) (args : List GoString) (tbl : Counters) :
    (execArgs coverprofile h name args tbl).2 =
      if coverprofile ≠ [] then Function.update tbl name (wrapInt (tbl name + 1)) else tbl := by
  unfold execArgs
  by_cases hcp : coverprofile = [] <;> simp [hcp]

/-! ## Decimal numbers -/

namespace strconv

theorem formatBits_fuel : ∀ (n fuel : Nat), n < fuel → formatBits fuel n = formatBits (n + 1) n := by
  intro n
  induction n using Nat.strong_induction_on with
  | _ n ih =>
    intro fuel hf
    obtain ⟨f, rfl⟩ : ∃ f, fuel = f + 1 := ⟨fuel - 1, by omega⟩
    by_cases h10 : n < 10
    · simp [formatBits, h10]
    · have hdiv : n / 10 < n := by omega
      simp only [formatBits, h10, if_false]
      rw [ih (n / 10) hdiv f (by omega), ih (n / 10) hdiv n hdiv]

theorem FormatUint_eq (n : Nat) :
    FormatUint n = if n < 10 then [48 + n] else FormatUint (n / 10) ++ [48 + n % 10] := by
  by_cases h10 : n < 10
  · simp [FormatUint, formatBits, h10]
  · have hdiv : n / 10 < n := by omega
    rw [if_neg h10]
    unfold FormatUint
    rw [show formatBits (n + 1) n =
      (if n < 10 then [48 + n] else formatBits n (n / 10) ++ [48 + n % 10]) from rfl,
      if_neg h10, formatBits_fuel (n / 10) n hdiv]

theorem digitsValue_FormatUint : ∀ n : Nat, digitsValue (FormatUint n) = n := by
  intro n
  induction n using Nat.strong_induction_on with
  | _ n ih =>
    rw [FormatUint_eq]
    by_cases h10 : n < 10
    · simp [h10, digitsValue]
    · have hdiv : n / 10 < n := by omega
      have := ih (n / 10) hdiv
      simp only [h10, if_false, digitsValue, List.foldl_append, List.foldl_cons,
        List.foldl_nil] at this ⊢
      rw [this]
      omega

theorem FormatUint_digits : ∀ n : Nat, ∀ b ∈ FormatUint n, 48 ≤ b ∧ b ≤ 57 := by
  intro n
  induction n using Nat.strong_induction_on with
  | _ n ih =>
    rw [FormatUint_eq]
    by_cases h10 : n < 10
    · simp only [h10, if_true, List.mem_singleton]
      intro b hb; omega
    · have hdiv : n / 10 < n := by omega
      simp only [h10, if_false, List.mem_append, List.mem_singleton]
      rintro b (hb | hb)
      · exact ih (n / 10) hdiv b hb
      · omega

theorem FormatUint_ne_nil (n : Nat) : FormatUint n ≠ [] := by
  rw [FormatUint_eq]
  split_ifs <;> simp

theorem FormatUint_injective {m n : Nat} (h : FormatUint m = FormatUint n) : m = n := by
  rw [← digitsValue_FormatUint m, ← digitsValue_FormatUint n, h]

/-- Every byte of a formatted `int` is a digit or the minus sign. -/
theorem FormatInt_bytes (i : Int) : ∀ b ∈ FormatInt i, b = 45 ∨ (48 ≤ b ∧ b ≤ 57) := by
  intro b hb
  unfold FormatInt at hb
  split_ifs at hb
  · rcases List.mem_cons.mp hb with h | h
    · exact Or.inl h
    · exact Or.inr (FormatUint_digits _ b h)
  · exact Or.inr (FormatUint_digits _ b hb)

theorem FormatInt_ne_nil (i : Int) : FormatInt i ≠ [] := by
  unfold FormatInt
  split_ifs
  · simp
  · exact FormatUint_ne_nil _

/-- A formatted `int` holds a digit. -/
theorem FormatInt_has_digit (i : Int) : ∃ b ∈ FormatInt i, 48 ≤ b ∧ b ≤ 57 := by
  unfold FormatInt
  split_ifs
  · obtain ⟨c, t, h⟩ := List.exists_cons_of_ne_nil (FormatUint_ne_nil (-i).toNat)
    exact ⟨c, List.mem_cons_of_mem _ (h ▸ List.mem_cons_self _ _),
      FormatUint_digits _ c (h ▸ List.mem_cons_self _ _)⟩
  · obtain ⟨c, t, h⟩ := List.exists_cons_of_ne_nil (FormatUint_ne_nil i.toNat)
    exact ⟨c, h ▸ List.mem_cons_self _ _, FormatUint_digits _ c (h ▸ List.mem_cons_self _ _)⟩

theorem FormatInt_injective {i j : Int} (h : FormatInt i = FormatInt j) : i = j := by
  unfold FormatInt at h
  have hhead : ∀ n : Nat, ∀ t : GoString, FormatUint n ≠ 45 :: t := by
    intro n t e
    have := FormatUint_digits n 45 (e ▸ List.mem_cons_self _ _)
    omega
  split_ifs at h with hi hj hj
  · have := FormatUint_injective (List.cons.inj h).2
    omega
  · exact absurd h.symm (hhead _ _)
  · exact absurd h (hhead _ _)
  · have := FormatUint_injective h
    omega

end strconv

/-! ## The shape of the coverage path -/

namespace filepath

theorem scanSep_le (p : GoString) : ∀ i : Nat, scanSep p i ≤ i := by
  intro i
  induction i with
  | zero => simp [scanSep]
  | succ i ih =>
    simp only [scanSep]
    split_ifs
    · omega
    · exact le_refl _

/-- After the scan of `Base` no separator is left behind the index found. -/
theorem scanSep_noSep (p : GoString) :
    ∀ i : Nat, i ≤ p.length → ∀ b ∈ (p.take i).drop (scanSep p i), b ≠ 47 := by
  intro i
  induction i with
  | zero => intro _ b hb; simp at hb
  | succ i ih =>
    intro hi b hb
    have hlt : i < p.length := by omega
    simp only [scanSep] at hb
    split_ifs at hb with hs
    · rw [List.take_succ, List.getElem?_eq_getElem hlt] at hb
      simp only [Option.toList_some] at hb
      rw [List.drop_append_of_le_length
        (by rw [List.length_take]; have := scanSep_le p i; omega)] at hb
      rcases List.mem_append.mp hb with hb | hb
      · exact ih (by omega) b hb
      · have hb2 : b = p[i] := by simpa using hb
        have hg : p.getD i 0 = p[i] := by
          simp [List.getD_eq_getElem?_getD, List.getElem?_eq_getElem hlt]
        rw [hg] at hs
        intro h47
        rw [hb2] at h47
        simp [IsPathSeparator, Separator, h47] at hs
    · rw [List.drop_of_length_le (by rw [List.length_take]; omega)] at hb
      simp at hb

/-- `Base` returns the separator alone or a name without separator. -/
theorem Base_cases (path : GoString) :
    Base path = [47] ∨ (Base path ≠ [] ∧ ∀ b ∈ Base path, b ≠ 47) := by
  unfold Base
  by_cases h1 : path = []
  · right; rw [if_pos h1, lit_dot]; constructor
    · simp
    · intro b hb; simp at hb; omega
  · rw [if_neg h1]
    simp only
    by_cases h2 : (stripSlashes path path.length).drop
        (scanSep (stripSlashes path path.length) (stripSlashes path path.length).length) = []
    · left; rw [if_pos h2]; rfl
    · right
      rw [if_neg h2]
      refine ⟨h2, ?_⟩
      have := scanSep_noSep (stripSlashes path path.length)
        (stripSlashes path path.length).length (le_refl _)
      rwa [List.take_length] at this

/-- A string splits at its last separator. -/
theorem exists_lastSep_split (s : GoString) :
    ∃ f1 f2, s = f1 ++ f2 ∧ EndsSep f1 ∧ ∀ b ∈ f2, b ≠ 47 := by
  induction s with
  | nil => exact ⟨[], [], rfl, Or.inl rfl, by simp⟩
  | cons a t ih =>
    obtain ⟨f1, f2, rfl, hE, hno⟩ := ih
    cases f1 with
    | nil =>
      by_cases ha : a = 47
      · subst ha
        exact ⟨[47], f2, rfl, Or.inr ⟨[], rfl⟩, hno⟩
      · refine ⟨[], a :: f2, rfl, Or.inl rfl, ?_⟩
        intro b hb
        rcases List.mem_cons.mp hb with h | h
        · exact h ▸ ha
        · exact hno b h
    | cons c u =>
      refine ⟨a :: c :: u, f2, rfl, ?_, hno⟩
      rcases hE with h | ⟨Q, hQ⟩
      · cases h
      · exact Or.inr ⟨a :: Q, by rw [hQ]; rfl⟩

theorem endsSep_append_sep (d f1 : GoString) (h : EndsSep f1) : EndsSep (d ++ [47] ++ f1) := by
  rcases h with h | ⟨Q, hQ⟩
  · subst h; exact Or.inr ⟨d, by simp⟩
  · subst hQ; exact Or.inr ⟨d ++ [47] ++ Q, by simp⟩

theorem Join_two (dir file : GoString) (hd : dir ≠ []) :
    Join [dir, file] = Clean (dir ++ [47] ++ file) := by
  simp [Join, hd, strings.Join, Separator]

end filepath

theorem dropWhile_subset (p : Nat → Bool) (l : GoString) : ∀ b ∈ l.dropWhile p, b ∈ l := by
  intro b hb
  exact (List.dropWhile_suffix p).subset hb

/-- A name that holds a dash and no separator is a real path element. -/
theorem realElem_of_dash (L : GoString) (hd : 45 ∈ L) (hno : ∀ b ∈ L, b ≠ 47) :
    filepath.RealElem L := by
  refine ⟨?_, hno, ?_, ?_⟩
  · intro h; rw [h] at hd; simp at hd
  · intro h; rw [h] at hd; simp at hd
  · intro h; rw [h] at hd; simp at hd

/-- For a fixed cover profile and test name, the coverage path is a fixed
string, then the counter in decimal, then a fixed string without separator. -/
theorem coverPath_shape (coverprofile name : GoString) :
    ∃ pre dw : GoString, (∀ b ∈ dw, b ≠ 47) ∧
      ∀ c : Int, coverPath coverprofile name c = pre ++ strconv.FormatInt c ++ dw := by
  have hdir : filepath.Dir coverprofile ≠ [] := filepath.Clean_ne_nil _
  obtain ⟨f1, f2, hsplit, hE, hno⟩ := filepath.exists_lastSep_split
    (((filepath.Base coverprofile).takeWhile fun b => b != 46) ++ [45] ++ name)
  have hdw : ∀ b ∈ (filepath.Base coverprofile).dropWhile (fun b => b != 46), b ≠ 47 := by
    rcases filepath.Base_cases coverprofile with h | ⟨_, h⟩
    · rw [h]; intro b hb; simp [List.dropWhile_cons] at hb
    · intro b hb; exact h b (dropWhile_subset _ _ b hb)
  refine ⟨filepath.cleanDir (filepath.Dir coverprofile ++ [47] ++ f1) ++ f2 ++ [45],
    (filepath.Base coverprofile).dropWhile (fun b => b != 46), hdw, ?_⟩
  intro c
  have hreal : filepath.RealElem (f2 ++ [45] ++ strconv.FormatInt c ++
      (filepath.Base coverprofile).dropWhile (fun b => b != 46)) := by
    apply realElem_of_dash
    · simp
    · intro b hb
      simp only [List.mem_append, List.mem_singleton] at hb
      rcases hb with ((hb | hb) | hb) | hb
      · exact hno b hb
      · omega
      · rcases strconv.FormatInt_bytes c b hb with h | h <;> omega
      · exact hdw b hb
  unfold coverPath
  rw [filepath.Join_two _ _ hdir, coverFile_eq]
  have hre : filepath.Dir coverprofile ++ [47] ++
      (((filepath.Base coverprofile).takeWhile fun b => b != 46) ++ [45] ++ name ++ [45] ++
        strconv.FormatInt c ++ (filepath.Base coverprofile).dropWhile fun b => b != 46)
      = (filepath.Dir coverprofile ++ [47] ++ f1) ++ (f2 ++ [45] ++ strconv.FormatInt c ++
        (filepath.Base coverprofile).dropWhile (fun b => b != 46)) := by
    have : ((filepath.Base coverprofile).takeWhile fun b => b != 46) ++ [45] ++ name ++ [45] ++
        strconv.FormatInt c ++ (filepath.Base coverprofile).dropWhile (fun b => b != 46)
        = (((filepath.Base coverprofile).takeWhile fun b => b != 46) ++ [45] ++ name) ++
          ([45] ++ strconv.FormatInt c ++
            (filepath.Base coverprofile).dropWhile (fun b => b != 46)) := by
      simp only [List.append_assoc]
    rw [this, hsplit]
    simp only [List.append_assoc]
  rw [hre, filepath.Clean_append_real _ _ (filepath.endsSep_append_sep _ _ hE) hreal]
  simp only [List.append_assoc]

/-- With the same cover profile and test name, different counters give
different coverage paths. -/
theorem coverPath_injective (coverprofile name : GoString) {c1 c2 : Int}
    (h : coverPath coverprofile name c1 = coverPath coverprofile name c2) : c1 = c2 := by
  obtain ⟨pre, dw, _, hshape⟩ := coverPath_shape coverprofile name
  rw [hshape c1, hshape c2] at h
  have h2 := List.append_cancel_right h
  exact strconv.FormatInt_injective (List.append_cancel_left h2)

/-- The coverage path holds a decimal digit. -/
theorem coverPath_has_digit (coverprofile name : GoString) (c : Int) :
    ∃ b ∈ coverPath coverprofile name c, 48 ≤ b ∧ b ≤ 57 := by
  obtain ⟨pre, dw, _, hshape⟩ := coverPath_shape coverprofile name
  obtain ⟨b, hb, hd⟩ := strconv.FormatInt_has_digit c
  refine ⟨b, ?_, hd⟩
  rw [hshape c]
  simp [hb]

/-! ## Facts about `utf8` -/

namespace utf8
theorem first_cases (b : Nat) :
    (first b = 0xF0 ∧ b < 0x80) ∨ (first b = 0xF1 ∧ 0x80 ≤ b) ∨
      (first b < 0xF0 ∧ 2 ≤ first b % 8 ∧ first b % 8 ≤ 4 ∧
        0x80 ≤ (acceptRanges (first b / 16)).1 ∧ (acceptRanges (first b / 16)).2 ≤ 0xBF ∧
        0xC2 ≤ b) := by
  unfold first
  by_cases h1 : b < 0x80
  · rw [if_pos h1]; exact Or.inl ⟨rfl, h1⟩
  rw [if_neg h1]
  by_cases h2 : b < 0xC2
  · rw [if_pos h2]; exact Or.inr (Or.inl ⟨rfl, by omega⟩)
  rw [if_neg h2]
  have hb : 0xC2 ≤ b := by omega
  by_cases h3 : b < 0xE0
  · rw [if_pos h3]
    exact Or.inr (Or.inr ⟨by decide, by decide, by decide, by decide, by decide, hb⟩)
  rw [if_neg h3]
  by_cases h4 : b = 0xE0
  · rw [if_pos h4]
    exact Or.inr (Or.inr ⟨by decide, by decide, by decide, by decide, by decide, hb⟩)
  rw [if_neg h4]
  by_cases h5 : b < 0xED
  · rw [if_pos h5]
    exact Or.inr (Or.inr ⟨by decide, by decide, by decide, by decide, by decide, hb⟩)
  rw [if_neg h5]
  by_cases h6 : b = 0xED
  · rw [if_pos h6]
    exact Or.inr (Or.inr ⟨by decide, by decide, by decide, by decide, by decide, hb⟩)
  rw [if_neg h6]
  by_cases h7 : b < 0xF0
  · rw [if_pos h7]
    exact Or.inr (Or.inr ⟨by decide, by decide, by decide, by decide, by decide, hb⟩)
  rw [if_neg h7]
  by_cases h8 : b = 0xF0
  · rw [if_pos h8]
    exact Or.inr (Or.inr ⟨by decide, by decide, by decide, by decide, by decide, hb⟩)
  rw [if_neg h8]
  by_cases h9 : b < 0xF4
  · rw [if_pos h9]
    exact Or.inr (Or.inr ⟨by decide, by decide, by decide, by decide, by decide, hb⟩)
  rw [if_neg h9]
  by_cases h10 : b = 0xF4
  · rw [if_pos h10]
    exact Or.inr (Or.inr ⟨by decide, by decide, by decide, by decide, by decide, hb⟩)
  rw [if_neg h10]
  exact Or.inr (Or.inl ⟨rfl, by omega⟩)

theorem DecodeRuneInString_cons (c : Nat) (t : GoString) :
    DecodeRuneInString (c :: t) =
      if 0xF0 ≤ first c then (if first c = 0xF0 then c else RuneError, 1)
      else decodeMulti c t := rfl

section
variable (R2 : Nat → Nat → Nat) (R3 : Nat → Nat → Nat → Nat) (R4 : Nat → Nat → Nat → Nat → Nat)
variable (sz : Nat) (accept : Nat × Nat) (s0 : Nat)

theorem decodeWith_width (t : GoString) (h2 : 2 ≤ sz) :
    1 ≤ (decodeWith R2 R3 R4 sz accept s0 t).2 ∧
      (decodeWith R2 R3 R4 sz accept s0 t).2 ≤ t.length + 1 := by
  unfold decodeWith
  simp only [List.length_cons]
  by_cases h1 : t.length + 1 < sz
  · rw [if_pos h1]; simp only []; omega
  rw [if_neg h1]
  by_cases ha : t.getD 0 0 < accept.1 ∨ accept.2 < t.getD 0 0
  · rw [if_pos ha]; simp only []; omega
  rw [if_neg ha]
  by_cases hs2 : sz ≤ 2
  · rw [if_pos hs2]; simp only []; omega
  rw [if_neg hs2]
  by_cases hb : t.getD 1 0 < 0x80 ∨ 0xBF < t.getD 1 0
  · rw [if_pos hb]; simp only []; omega
  rw [if_neg hb]
  by_cases hs3 : sz ≤ 3
  · rw [if_pos hs3]; simp only []; omega
  rw [if_neg hs3]
  by_cases hd : t.getD 2 0 < 0x80 ∨ 0xBF < t.getD 2 0
  · rw [if_pos hd]; simp only []; omega
  rw [if_neg hd]; simp only []; omega

theorem decodeWith_full (t : GoString) (h : 2 ≤ (decodeWith R2 R3 R4 sz accept s0 t).2) :
    sz ≤ t.length + 1 := by
  by_contra hneg
  unfold decodeWith at h
  rw [if_pos (by simp only [List.length_cons]; omega)] at h
  simp only [] at h
  omega

theorem decodeWith_congr (t u : GoString)
    (hl : (s0 :: t).length < sz ↔ (s0 :: u).length < sz)
    (e0 : t.getD 0 0 = u.getD 0 0) (e1 : 2 < sz → t.getD 1 0 = u.getD 1 0)
    (e2 : 3 < sz → t.getD 2 0 = u.getD 2 0) :
    decodeWith R2 R3 R4 sz accept s0 t = decodeWith R2 R3 R4 sz accept s0 u := by
  unfold decodeWith
  simp only [hl, e0]
  by_cases h2 : sz ≤ 2
  · simp only [h2, if_true]
  · simp only [h2, if_false, e1 (by omega)]
    by_cases h3 : sz ≤ 3
    · simp only [h3, if_true]
    · simp only [h3, if_false, e2 (by omega)]

/-- A result of width 1 from this part is `RuneError`. -/
theorem decodeWith_one (t : GoString) (h : (decodeWith R2 R3 R4 sz accept s0 t).2 < 2) :
    decodeWith R2 R3 R4 sz accept s0 t = (RuneError, 1) := by
  unfold decodeWith at h ⊢
  simp only [List.length_cons] at h ⊢
  by_cases h1 : t.length + 1 < sz
  · rw [if_pos h1]
  rw [if_neg h1] at h ⊢
  by_cases ha : t.getD 0 0 < accept.1 ∨ accept.2 < t.getD 0 0
  · rw [if_pos ha]
  rw [if_neg ha] at h ⊢
  by_cases hs2 : sz ≤ 2
  · rw [if_pos hs2] at h; simp only [] at h; omega
  rw [if_neg hs2] at h ⊢
  by_cases hb : t.getD 1 0 < 0x80 ∨ 0xBF < t.getD 1 0
  · rw [if_pos hb]
  rw [if_neg hb] at h ⊢
  by_cases hs3 : sz ≤ 3
  · rw [if_pos hs3] at h; simp only [] at h; omega
  rw [if_neg hs3] at h ⊢
  by_cases hd : t.getD 2 0 < 0x80 ∨ 0xBF < t.getD 2 0
  · rw [if_pos hd]
  rw [if_neg hd] at h; simp only [] at h; omega

/-- An encoding that was read in full is read the same way when more bytes
follow. -/
theorem decodeWith_append (t x : GoString) (h2 : 2 ≤ sz)
    (h : 2 ≤ (decodeWith R2 R3 R4 sz accept s0 t).2) :
    decodeWith R2 R3 R4 sz accept s0 (t ++ x) = decodeWith R2 R3 R4 sz accept s0 t := by
  have hfull := decodeWith_full R2 R3 R4 sz accept s0 t h
  apply decodeWith_congr
  · simp only [List.length_cons, List.length_append]; omega
  · exact List.getD_append _ _ _ _ (by omega)
  · intro h3; exact List.getD_append _ _ _ _ (by omega)
  · intro h3; exact List.getD_append _ _ _ _ (by omega)

/-- Reading a shorter string gives the same result or `RuneError`. -/
theorem decodeWith_short (t x : GoString) (h2 : 2 ≤ sz) :
    decodeWith R2 R3 R4 sz accept s0 t = decodeWith R2 R3 R4 sz accept s0 (t ++ x) ∨
      decodeWith R2 R3 R4 sz accept s0 t = (RuneError, 1) := by
  by_cases h : 2 ≤ (decodeWith R2 R3 R4 sz accept s0 t).2
  · exact Or.inl (decodeWith_append R2 R3 R4 sz accept s0 t x h2 h).symm
  · exact Or.inr (decodeWith_one R2 R3 R4 sz accept s0 t (by omega))

/-- A byte that is not a continuation byte, put behind the string, does not
change what is read at its start. -/
theorem decodeWith_start (t y : GoString) (a : Nat)
    (h2 : 2 ≤ sz) (h4 : sz ≤ 4) (hlo : 0x80 ≤ accept.1) (hhi : accept.2 ≤ 0xBF)
    (ha : a < 0x80 ∨ 0xBF < a) :
    decodeWith R2 R3 R4 sz accept s0 (t ++ a :: y) = decodeWith R2 R3 R4 sz accept s0 t := by
  by_cases hfull : sz ≤ t.length + 1
  · apply decodeWith_congr
    · simp only [List.length_cons, List.length_append]; omega
    · exact List.getD_append _ _ _ _ (by omega)
    · intro h3; exact List.getD_append _ _ _ _ (by omega)
    · intro h3; exact List.getD_append _ _ _ _ (by omega)
  · have hshort : decodeWith R2 R3 R4 sz accept s0 t = (RuneError, 1) := by
      unfold decodeWith
      rw [if_pos (by simp only [List.length_cons]; omega)]
    rw [hshort]
    rcases t with _ | ⟨b, _ | ⟨d, _ | ⟨e, rest⟩⟩⟩
    · unfold decodeWith
      simp only [List.nil_append, List.getD_cons_zero]
      split_ifs
      all_goals first
        | rfl
        | omega
    · unfold decodeWith
      simp only [List.cons_append, List.nil_append, List.getD_cons_zero, List.getD_cons_succ]
      simp only [List.length_cons, List.length_nil] at hfull
      split_ifs
      all_goals rfl
    · unfold decodeWith
      simp only [List.cons_append, List.nil_append, List.getD_cons_zero, List.getD_cons_succ]
      simp only [List.length_cons, List.length_nil] at hfull
      split_ifs
      all_goals first
        | rfl
        | omega
    · exact absurd (by simp only [List.length_cons]; omega) hfull

end

theorem DecodeRuneInString_ascii (c : Nat) (t : GoString) (h : c < 0x80) :
    DecodeRuneInString (c :: t) = (c, 1) := by
  have hf : first c = 0xF0 := by
    rcases first_cases c with h1 | h1 | h1 <;> omega
  rw [DecodeRuneInString_cons, if_pos (by omega), if_pos hf]

theorem DecodeRuneInString_width (s : GoString) (hs : s ≠ []) :
    1 ≤ (DecodeRuneInString s).2 ∧ (DecodeRuneInString s).2 ≤ s.length := by
  obtain ⟨c, t, rfl⟩ := List.exists_cons_of_ne_nil hs
  rw [DecodeRuneInString_cons]
  rcases first_cases c with h1 | h1 | h1
  · rw [if_pos (by omega)]; simp
  · rw [if_pos (by omega)]; simp
  · rw [if_neg (by omega)]
    exact decodeWith_width _ _ _ _ _ _ _ h1.2.1

/-- A result of width 1 at a byte that is not ASCII is `RuneError`. -/
theorem DecodeRuneInString_one (c : Nat) (t : GoString) (hc : 0x80 ≤ c)
    (h : (DecodeRuneInString (c :: t)).2 < 2) :
    DecodeRuneInString (c :: t) = (RuneError, 1) := by
  rw [DecodeRuneInString_cons] at h ⊢
  rcases first_cases c with h1 | h1 | h1
  · omega
  · rw [if_pos (by omega), if_neg (by omega)]
  · rw [if_neg (by omega)] at h ⊢
    exact decodeWith_one _ _ _ _ _ _ _ h

theorem DecodeRuneInString_single (c : Nat) (hc : 0x80 ≤ c) :
    DecodeRuneInString [c] = (RuneError, 1) := by
  apply DecodeRuneInString_one c [] hc
  have := (DecodeRuneInString_width [c] (by simp)).2
  simp only [List.length_singleton] at this
  omega

/-- An encoding of two or more bytes starts with a byte from `0xC2` on and
is read the same way when more bytes follow. -/
theorem DecodeRuneInString_multi (c : Nat) (t : GoString)
    (h : 2 ≤ (DecodeRuneInString (c :: t)).2) :
    0xC2 ≤ c ∧ ∀ x, DecodeRuneInString (c :: t ++ x) = DecodeRuneInString (c :: t) := by
  have h0 := h
  rw [DecodeRuneInString_cons] at h
  rcases first_cases c with h1 | h1 | h1
  · rw [if_pos (by omega)] at h; simp only [] at h; omega
  · rw [if_pos (by omega)] at h; simp only [] at h; omega
  · refine ⟨h1.2.2.2.2.2, ?_⟩
    intro x
    have e : ¬ 0xF0 ≤ first c := by omega
    rw [if_neg e] at h
    rw [List.cons_append, DecodeRuneInString_cons, DecodeRuneInString_cons]
    simp only [if_neg e]
    exact decodeWith_append _ _ _ _ _ _ _ _ h1.2.1 h

/-- The first rune of a string that is cut short is the same rune or
`RuneError`. -/
theorem DecodeRuneInString_short (c : Nat) (t x : GoString) :
    DecodeRuneInString (c :: t) = DecodeRuneInString (c :: t ++ x) ∨
      DecodeRuneInString (c :: t) = (RuneError, 1) := by
  rw [List.cons_append, DecodeRuneInString_cons, DecodeRuneInString_cons]
  rcases first_cases c with h1 | h1 | h1
  · have e : 0xF0 ≤ first c := by omega
    left; simp only [if_pos e]
  · have e : 0xF0 ≤ first c := by omega
    left; simp only [if_pos e]
  · have e : ¬ 0xF0 ≤ first c := by omega
    simp only [if_neg e]
    exact decodeWith_short _ _ _ _ _ _ _ _ h1.2.1

/-- A byte that is not a continuation byte, put behind a string that is not
empty, does not change the first rune. -/
theorem DecodeRuneInString_start (c : Nat) (t y : GoString) (a : Nat)
    (ha : a < 0x80 ∨ 0xBF < a) :
    DecodeRuneInString (c :: t ++ a :: y) = DecodeRuneInString (c :: t) := by
  rw [List.cons_append, DecodeRuneInString_cons, DecodeRuneInString_cons]
  rcases first_cases c with h1 | h1 | h1
  · have e : 0xF0 ≤ first c := by omega
    simp only [if_pos e]
  · have e : 0xF0 ≤ first c := by omega
    simp only [if_pos e]
  · have e : ¬ 0xF0 ≤ first c := by omega
    simp only [if_neg e]
    exact decodeWith_start _ _ _ _ _ _ _ _ _ h1.2.1 h1.2.2.1 h1.2.2.2.1 h1.2.2.2.2.1 ha

theorem scanBack_le (s : GoString) (lim : Nat) : ∀ k : Nat, scanBack s lim k ≤ k := by
  intro k
  induction k with
  | zero => simp [scanBack]
  | succ k ih =>
    simp only [scanBack]
    split_ifs
    · exact le_refl _
    · omega
    · exact le_refl _

theorem drop_length_sub_one (p : GoString) (hp : p ≠ []) :
    p.drop (p.length - 1) = [p.getD (p.length - 1) 0] := by
  have hlen : 0 < p.length := List.length_pos.mpr hp
  have h1 : p.length - 1 < p.length := by omega
  rw [List.drop_eq_getElem_cons h1, List.drop_of_length_le (by omega)]
  simp [List.getD_eq_getElem?_getD, List.getElem?_eq_getElem h1]

/-- The three ways `DecodeLastRuneInString` ends on a string that is not
empty: an ASCII byte, `RuneError` of width 1, or an encoding of two or more
bytes that `DecodeRuneInString` reads at the place where it starts. -/
theorem DecodeLastRuneInString_cases (p : GoString) (hp : p ≠ []) :
    (p.getD (p.length - 1) 0 < 0x80 ∧
        DecodeLastRuneInString p = (p.getD (p.length - 1) 0, 1)) ∨
      (0x80 ≤ p.getD (p.length - 1) 0 ∧ DecodeLastRuneInString p = (RuneError, 1)) ∨
      (0x80 ≤ p.getD (p.length - 1) 0 ∧ 2 ≤ (DecodeLastRuneInString p).2 ∧
        (DecodeLastRuneInString p).2 ≤ p.length ∧
        DecodeRuneInString (p.drop (p.length - (DecodeLastRuneInString p).2))
          = DecodeLastRuneInString p) := by
  have hlen : 0 < p.length := List.length_pos.mpr hp
  unfold DecodeLastRuneInString
  simp only
  rw [if_neg (by omega)]
  by_cases hr : p.getD (p.length - 1) 0 < RuneSelf
  · left
    rw [if_pos hr]
    exact ⟨hr, rfl⟩
  · right
    rw [if_neg hr]
    have hr2 : 0x80 ≤ p.getD (p.length - 1) 0 := by
      simp only [RuneSelf] at hr; omega
    have hsb := scanBack_le p (p.length - UTFMax) (p.length - 1)
    by_cases hne : scanBack p (p.length - UTFMax) (p.length - 1) - 1 +
        (DecodeRuneInString (p.drop
          (scanBack p (p.length - UTFMax) (p.length - 1) - 1))).2 ≠ p.length
    · left
      rw [if_pos hne]
      exact ⟨hr2, rfl⟩
    · rw [if_neg hne]
      have heq : scanBack p (p.length - UTFMax) (p.length - 1) - 1 +
        (DecodeRuneInString (p.drop
          (scanBack p (p.length - UTFMax) (p.length - 1) - 1))).2 = p.length := by
        by_contra h; exact hne h
      by_cases h2 : 2 ≤ (DecodeRuneInString (p.drop
          (scanBack p (p.length - UTFMax) (p.length - 1) - 1))).2
      · right
        refine ⟨hr2, h2, by omega, ?_⟩
        congr 2
        omega
      · left
        refine ⟨hr2, ?_⟩
        have hdne : p.drop (scanBack p (p.length - UTFMax) (p.length - 1) - 1) ≠ [] := by
          intro h
          have := List.drop_eq_nil_iff.mp h
          omega
        have hw := (DecodeRuneInString_width _ hdne).1
        have hstart : scanBack p (p.length - UTFMax) (p.length - 1) - 1 = p.length - 1 := by
          omega
        rw [hstart, drop_length_sub_one p hp]
        exact DecodeRuneInString_single _ hr2

end utf8

/-! ## Facts about `strings.TrimLeftFunc` and `strings.TrimRightFunc` -/

namespace strings

/-- The loop of `indexFunc` ends within `len(s)` iterations, and the index
it is started with is added to the result. -/
theorem indexFunc_shift (f : Nat → Bool) (truth : Bool) :
    ∀ (fuel : Nat) (s : GoString) (i : Nat), s.length ≤ fuel →
      indexFunc f truth fuel i s = (indexFunc f truth s.length 0 s).map fun j => j + i := by
  intro fuel
  induction fuel using Nat.strong_induction_on with
  | _ fuel ih =>
    intro s i hle
    match fuel, s with
    | 0, [] => rfl
    | fuel + 1, [] => rfl
    | fuel + 1, c :: t =>
      have hw := utf8.DecodeRuneInString_width (c :: t) (by simp)
      have hd : ((c :: t).drop (utf8.DecodeRuneInString (c :: t)).2).length ≤ t.length := by
        simp only [List.length_drop, List.length_cons]; omega
      simp only [List.length_cons] at hle
      simp only [indexFunc, List.length_cons]
      by_cases hf : f (utf8.DecodeRuneInString (c :: t)).1 = truth
      · simp [hf]
      · simp only [hf, if_false]
        rw [ih fuel (by omega) _ _ (by omega), ih t.length (by omega) _ _ hd]
        simp only [Option.map_map]
        congr 1
        funext j
        simp only [Function.comp]
        omega

theorem TrimLeftFunc_nil (f : Nat → Bool) : TrimLeftFunc [] f = [] := rfl

/-- `TrimLeftFunc` stops at the first rune that `f` rejects and otherwise
goes on behind the rune. -/
theorem TrimLeftFunc_cons (f : Nat → Bool) (c : Nat) (t : GoString) :
    TrimLeftFunc (c :: t) f =
      if f (utf8.DecodeRuneInString (c :: t)).1 = false then c :: t
      else TrimLeftFunc ((c :: t).drop (utf8.DecodeRuneInString (c :: t)).2) f := by
  have hw := utf8.DecodeRuneInString_width (c :: t) (by simp)
  have hd : ((c :: t).drop (utf8.DecodeRuneInString (c :: t)).2).length ≤ t.length := by
    simp only [List.length_drop, List.length_cons]; omega
  unfold TrimLeftFunc
  simp only [indexFunc, List.length_cons]
  by_cases hf : f (utf8.DecodeRuneInString (c :: t)).1 = false
  · simp [hf]
  · rw [if_neg hf, if_neg hf, indexFunc_shift f false t.length _ _ hd]
    cases indexFunc f false ((c :: t).drop (utf8.DecodeRuneInString (c :: t)).2).length 0
        ((c :: t).drop (utf8.DecodeRuneInString (c :: t)).2) with
    | none => rfl
    | some j =>
      simp only [Option.map_some', List.drop_drop]
      congr 1
      omega

/-- The result of `TrimLeftFunc` is empty or starts with a rune that `f`
rejects. -/
theorem TrimLeftFunc_head (f : Nat → Bool) :
    ∀ (n : Nat) (s : GoString), s.length ≤ n →
      TrimLeftFunc s f = [] ∨ f (utf8.DecodeRuneInString (TrimLeftFunc s f)).1 = false := by
  intro n
  induction n with
  | zero =>
    intro s hs
    have : s = [] := List.length_eq_zero.mp (by omega)
    subst this
    exact Or.inl rfl
  | succ n ih =>
    intro s hs
    cases s with
    | nil => exact Or.inl rfl
    | cons c t =>
      have hw := utf8.DecodeRuneInString_width (c :: t) (by simp)
      rw [TrimLeftFunc_cons]
      by_cases hf : f (utf8.DecodeRuneInString (c :: t)).1 = false
      · rw [if_pos hf]; exact Or.inr hf
      · rw [if_neg hf]
        apply ih
        simp only [List.length_drop, List.length_cons] at hs ⊢
        omega

/-- A string that is empty or starts with a rune that `f` rejects is left
as it is. -/
theorem TrimLeftFunc_id (f : Nat → Bool) (s : GoString)
    (h : s = [] ∨ f (utf8.DecodeRuneInString s).1 = false) : TrimLeftFunc s f = s := by
  cases s with
  | nil => rfl
  | cons c t =>
    rcases h with h | h
    · cases h
    · rw [TrimLeftFunc_cons, if_pos h]

/-- The result of `TrimLeftFunc` is the end of the string. -/
theorem TrimLeftFunc_suffix (f : Nat → Bool) :
    ∀ (n : Nat) (s : GoString), s.length ≤ n → ∃ pre, s = pre ++ TrimLeftFunc s f := by
  intro n
  induction n with
  | zero =>
    intro s hs
    have : s = [] := List.length_eq_zero.mp (by omega)
    subst this
    exact ⟨[], rfl⟩
  | succ n ih =>
    intro s hs
    cases s with
    | nil => exact ⟨[], rfl⟩
    | cons c t =>
      have hw := utf8.DecodeRuneInString_width (c :: t) (by simp)
      rw [TrimLeftFunc_cons]
      by_cases hf : f (utf8.DecodeRuneInString (c :: t)).1 = false
      · rw [if_pos hf]; exact ⟨[], rfl⟩
      · rw [if_neg hf]
        obtain ⟨pre, hpre⟩ := ih ((c :: t).drop (utf8.DecodeRuneInString (c :: t)).2) (by
          simp only [List.length_drop, List.length_cons] at hs ⊢
          omega)
        refine ⟨(c :: t).take (utf8.DecodeRuneInString (c :: t)).2 ++ pre, ?_⟩
        rw [List.append_assoc, ← hpre, List.take_append_drop]

theorem TrimRightFunc_eq (s : GoString) (f : Nat → Bool) :
    TrimRightFunc s f = trimRightAt s (lastIndexFunc f false s.length s) := rfl

theorem DecodeLastRuneInString_width (q : GoString) (hq : q ≠ []) :
    1 ≤ (utf8.DecodeLastRuneInString q).2 ∧ (utf8.DecodeLastRuneInString q).2 ≤ q.length := by
  have hlen : 0 < q.length := List.length_pos.mpr hq
  rcases utf8.DecodeLastRuneInString_cases q hq with h | h | h
  · rw [h.2]; simp only []; omega
  · rw [h.2]; simp only []; omega
  · omega

/-- The width `TrimRightFunc` reads forwards at the start of the last rune
is the width `DecodeLastRuneInString` found, whatever follows the rune. -/
theorem forward_width (q x : GoString) (hq : q ≠ []) (hx : StartsRune x) :
    (utf8.RuneSelf ≤ q.getD (q.length - (utf8.DecodeLastRuneInString q).2) 0 →
      (utf8.DecodeRuneInString
        (q.drop (q.length - (utf8.DecodeLastRuneInString q).2) ++ x)).2
        = (utf8.DecodeLastRuneInString q).2) ∧
    (¬ utf8.RuneSelf ≤ q.getD (q.length - (utf8.DecodeLastRuneInString q).2) 0 →
      (utf8.DecodeLastRuneInString q).2 = 1) := by
  have hlen : 0 < q.length := List.length_pos.mpr hq
  have hone : ∀ c : Nat, 0x80 ≤ c → (utf8.DecodeRuneInString ([c] ++ x)).2 = 1 := by
    intro c hc
    cases x with
    | nil => rw [List.append_nil, utf8.DecodeRuneInString_single c hc]
    | cons a y =>
      have := utf8.DecodeRuneInString_start c [] y a (hx a y rfl)
      rw [this, utf8.DecodeRuneInString_single c hc]
  rcases utf8.DecodeLastRuneInString_cases q hq with h | h | h
  · rw [h.2]
    simp only [utf8.RuneSelf]
    exact ⟨fun h2 => absurd h.1 (by omega), fun _ => trivial⟩
  · rw [h.2]
    simp only []
    refine ⟨fun _ => ?_, fun _ => trivial⟩
    rw [utf8.drop_length_sub_one q hq]
    exact hone _ h.1
  · obtain ⟨hlast, h2, hle, hdec⟩ := h
    have hdne : q.drop (q.length - (utf8.DecodeLastRuneInString q).2) ≠ [] := by
      intro e
      have := List.drop_eq_nil_iff.mp e
      omega
    obtain ⟨c, t, hct⟩ := List.exists_cons_of_ne_nil hdne
    have hm := utf8.DecodeRuneInString_multi c t (by rw [← hct, hdec]; exact h2)
    have hget : q.getD (q.length - (utf8.DecodeLastRuneInString q).2) 0 = c := by
      have h1 : q.length - (utf8.DecodeLastRuneInString q).2 < q.length := by omega
      have h3 := List.drop_eq_getElem_cons h1
      rw [hct] at h3
      simp only [List.getD_eq_getElem?_getD, List.getElem?_eq_getElem h1, Option.getD_some]
      exact (List.cons.inj h3).1.symm
    constructor
    · intro _
      rw [hct, hm.2 x, ← hct, hdec]
    · intro hno
      rw [hget] at hno
      simp only [utf8.RuneSelf] at hno
      omega

/-- A rune that `f` accepts at the end of the string starts with a byte that
is not a continuation byte, when `f` rejects `RuneError`. -/
theorem startsRune_trimmed (f : Nat → Bool) (hf : f utf8.RuneError = false) (q x : GoString)
    (hq : q ≠ []) (hacc : ¬ f (utf8.DecodeLastRuneInString q).1 = false) :
    StartsRune (q.drop (q.length - (utf8.DecodeLastRuneInString q).2) ++ x) := by
  have hlen : 0 < q.length := List.length_pos.mpr hq
  intro a y hay
  rcases utf8.DecodeLastRuneInString_cases q hq with h | h | h
  · rw [h.2] at hay
    simp only [] at hay
    rw [utf8.drop_length_sub_one q hq, List.singleton_append] at hay
    have := (List.cons.inj hay).1
    omega
  · rw [h.2] at hacc
    exact absurd hf hacc
  · obtain ⟨hlast, h2, hle, hdec⟩ := h
    have hdne : q.drop (q.length - (utf8.DecodeLastRuneInString q).2) ≠ [] := by
      intro e
      have := List.drop_eq_nil_iff.mp e
      omega
    obtain ⟨c, t, hct⟩ := List.exists_cons_of_ne_nil hdne
    have hm := utf8.DecodeRuneInString_multi c t (by rw [← hct, hdec]; exact h2)
    rw [hct, List.cons_append] at hay
    have := (List.cons.inj hay).1
    omega

theorem lastIndexFunc_fuel (f : Nat → Bool) (truth : Bool) :
    ∀ (fuel : Nat) (s : GoString), s.length ≤ fuel →
      lastIndexFunc f truth fuel s = lastIndexFunc f truth s.length s := by
  intro fuel
  induction fuel using Nat.strong_induction_on with
  | _ fuel ih =>
    intro s hle
    match fuel, s with
    | 0, [] => rfl
    | fuel + 1, [] => rfl
    | fuel + 1, c :: t =>
      have hw := DecodeLastRuneInString_width (c :: t) (by simp)
      simp only [List.length_cons] at hle hw
      have hlt : ((c :: t).take (t.length + 1 - (utf8.DecodeLastRuneInString (c :: t)).2)).length
          ≤ t.length := by
        rw [List.length_take]; omega
      simp only [lastIndexFunc, List.length_cons]
      rw [if_neg (Nat.succ_ne_zero _), if_neg (Nat.succ_ne_zero _)]
      by_cases hf : f (utf8.DecodeLastRuneInString (c :: t)).1 = truth
      · rw [if_pos hf, if_pos hf]
      · rw [if_neg hf, if_neg hf, ih fuel (by omega) _ (le_trans hlt (by omega)),
          ih t.length (by omega) _ hlt]

theorem lastIndexFunc_step (f : Nat → Bool) (truth : Bool) (s : GoString) (hs : s ≠ []) :
    lastIndexFunc f truth s.length s =
      if f (utf8.DecodeLastRuneInString s).1 = truth then
        some (s.length - (utf8.DecodeLastRuneInString s).2)
      else lastIndexFunc f truth (s.length - 1)
        (s.take (s.length - (utf8.DecodeLastRuneInString s).2)) := by
  obtain ⟨c, t, rfl⟩ := List.exists_cons_of_ne_nil hs
  simp only [List.length_cons, lastIndexFunc]
  rw [if_neg (Nat.succ_ne_zero _)]
  rfl

/-- At the index of a rune that `f` rejects at the end of `q`, what
`TrimRightFunc` returns is `q`, whatever follows `q`. -/
theorem trimRightAt_found (q x : GoString) (hq : q ≠ []) (hx : StartsRune x) :
    trimRightAt (q ++ x) (some (q.length - (utf8.DecodeLastRuneInString q).2)) = q := by
  have hw := DecodeLastRuneInString_width q hq
  have hfw := forward_width q x hq hx
  have hi : q.length - (utf8.DecodeLastRuneInString q).2 < q.length := by omega
  have hget : (q ++ x).getD (q.length - (utf8.DecodeLastRuneInString q).2) 0
      = q.getD (q.length - (utf8.DecodeLastRuneInString q).2) 0 :=
    List.getD_append _ _ _ _ hi
  have hdrop : (q ++ x).drop (q.length - (utf8.DecodeLastRuneInString q).2)
      = q.drop (q.length - (utf8.DecodeLastRuneInString q).2) ++ x :=
    List.drop_append_of_le_length (by omega)
  simp only [trimRightAt]
  rw [hget, hdrop]
  by_cases h : utf8.RuneSelf ≤ q.getD (q.length - (utf8.DecodeLastRuneInString q).2) 0
  · rw [if_pos h, hfw.1 h,
      show q.length - (utf8.DecodeLastRuneInString q).2 + (utf8.DecodeLastRuneInString q).2
        = q.length by omega]
    simp
  · rw [if_neg h]
    have h1 := hfw.2 h
    rw [show q.length - (utf8.DecodeLastRuneInString q).2 + 1 = q.length by omega]
    simp

/-- What follows the part of the string still to be read does not change
what `TrimRightFunc` returns. -/
theorem trimRightAt_append (f : Nat → Bool) (hf : f utf8.RuneError = false) :
    ∀ (fuel : Nat) (p : GoString), p.length ≤ fuel → ∀ x : GoString, StartsRune x →
      trimRightAt (p ++ x) (lastIndexFunc f false fuel p)
        = trimRightAt p (lastIndexFunc f false fuel p) := by
  intro fuel
  induction fuel with
  | zero =>
    intro p hp x _
    have : p = [] := List.length_eq_zero.mp (by omega)
    subst this
    simp [lastIndexFunc, trimRightAt]
  | succ fuel ih =>
    intro p hp x hx
    by_cases hpn : p = []
    · subst hpn
      simp [lastIndexFunc, trimRightAt]
    · have hw := DecodeLastRuneInString_width p hpn
      rw [lastIndexFunc_fuel f false (fuel + 1) p hp, lastIndexFunc_step f false p hpn]
      by_cases hacc : f (utf8.DecodeLastRuneInString p).1 = false
      · rw [if_pos hacc, trimRightAt_found p x hpn hx]
        have h0 := trimRightAt_found p [] hpn (by intro a y h; cases h)
        rw [List.append_nil] at h0
        exact h0.symm
      · rw [if_neg hacc]
        have hlen : (p.take (p.length - (utf8.DecodeLastRuneInString p).2)).length ≤ fuel := by
          rw [List.length_take]; omega
        have hlen1 : (p.take (p.length - (utf8.DecodeLastRuneInString p).2)).length
            ≤ p.length - 1 := by
          rw [List.length_take]; omega
        rw [lastIndexFunc_fuel f false (p.length - 1) _ hlen1,
          ← lastIndexFunc_fuel f false fuel _ hlen]
        have h1 := ih _ hlen (p.drop (p.length - (utf8.DecodeLastRuneInString p).2) ++ x)
          (startsRune_trimmed f hf p x hpn hacc)
        have h2 := ih _ hlen (p.drop (p.length - (utf8.DecodeLastRuneInString p).2) ++ [])
          (startsRune_trimmed f hf p [] hpn hacc)
        rw [← List.append_assoc, List.take_append_drop] at h1 h2
        rw [List.append_nil] at h2
        rw [h1, h2]

theorem TrimRightFunc_nil (f : Nat → Bool) : TrimRightFunc [] f = [] := rfl

/-- `TrimRightFunc` stops at the last rune when `f` rejects it and otherwise
goes on before the rune. -/
theorem TrimRightFunc_step (f : Nat → Bool) (hf : f utf8.RuneError = false) (s : GoString)
    (hs : s ≠ []) :
    TrimRightFunc s f =
      if f (utf8.DecodeLastRuneInString s).1 = false then s
      else TrimRightFunc (s.take (s.length - (utf8.DecodeLastRuneInString s).2)) f := by
  have hw := DecodeLastRuneInString_width s hs
  rw [TrimRightFunc_eq, lastIndexFunc_step f false s hs]
  by_cases hacc : f (utf8.DecodeLastRuneInString s).1 = false
  · rw [if_pos hacc, if_pos hacc]
    have h0 := trimRightAt_found s [] hs (by intro a y h; cases h)
    rw [List.append_nil] at h0
    exact h0
  · rw [if_neg hacc, if_neg hacc, TrimRightFunc_eq]
    have hlen1 : (s.take (s.length - (utf8.DecodeLastRuneInString s).2)).length
        ≤ s.length - 1 := by
      rw [List.length_take]; omega
    rw [lastIndexFunc_fuel f false (s.length - 1) _ hlen1]
    have h2 := trimRightAt_append f hf
      (s.take (s.length - (utf8.DecodeLastRuneInString s).2)).length
      (s.take (s.length - (utf8.DecodeLastRuneInString s).2)) (le_refl _)
      (s.drop (s.length - (utf8.DecodeLastRuneInString s).2) ++ [])
      (startsRune_trimmed f hf s [] hs hacc)
    rw [List.append_nil, List.take_append_drop] at h2
    exact h2

/-- The result of `TrimRightFunc` is empty or ends with a rune that `f`
rejects. -/
theorem TrimRightFunc_last (f : Nat → Bool) (hf : f utf8.RuneError = false) :
    ∀ (n : Nat) (s : GoString), s.length ≤ n →
      TrimRightFunc s f = [] ∨
        f (utf8.DecodeLastRuneInString (TrimRightFunc s f)).1 = false := by
  intro n
  induction n with
  | zero =>
    intro s hs
    have : s = [] := List.length_eq_zero.mp (by omega)
    subst this
    exact Or.inl rfl
  | succ n ih =>
    intro s hs
    by_cases hsn : s = []
    · subst hsn; exact Or.inl rfl
    · have hw := DecodeLastRuneInString_width s hsn
      rw [TrimRightFunc_step f hf s hsn]
      by_cases hacc : f (utf8.DecodeLastRuneInString s).1 = false
      · rw [if_pos hacc]; exact Or.inr hacc
      · rw [if_neg hacc]
        apply ih
        rw [List.length_take]; omega

/-- A string that is empty or ends with a rune that `f` rejects is left as
it is. -/
theorem TrimRightFunc_id (f : Nat → Bool) (hf : f utf8.RuneError = false) (s : GoString)
    (h : s = [] ∨ f (utf8.DecodeLastRuneInString s).1 = false) : TrimRightFunc s f = s := by
  by_cases hsn : s = []
  · subst hsn; rfl
  · rcases h with h | h
    · exact absurd h hsn
    · rw [TrimRightFunc_step f hf s hsn, if_pos h]

/-- The result of `TrimRightFunc` is the start of the string. -/
theorem TrimRightFunc_start (f : Nat → Bool) (hf : f utf8.RuneError = false) :
    ∀ (n : Nat) (s : GoString), s.length ≤ n → ∃ x, s = TrimRightFunc s f ++ x := by
  intro n
  induction n with
  | zero =>
    intro s hs
    have : s = [] := List.length_eq_zero.mp (by omega)
    subst this
    exact ⟨[], rfl⟩
  | succ n ih =>
    intro s hs
    by_cases hsn : s = []
    · subst hsn; exact ⟨[], rfl⟩
    · have hw := DecodeLastRuneInString_width s hsn
      rw [TrimRightFunc_step f hf s hsn]
      by_cases hacc : f (utf8.DecodeLastRuneInString s).1 = false
      · rw [if_pos hacc]; exact ⟨[], by simp⟩
      · rw [if_neg hacc]
        obtain ⟨x, hx⟩ := ih (s.take (s.length - (utf8.DecodeLastRuneInString s).2))
          (by rw [List.length_take]; omega)
        refine ⟨x ++ s.drop (s.length - (utf8.DecodeLastRuneInString s).2), ?_⟩
        rw [← List.append_assoc, ← hx, List.take_append_drop]

/-- `TrimFunc` is idempotent for every `f` that rejects `RuneError`. -/
theorem TrimFunc_idem (f : Nat → Bool) (hf : f utf8.RuneError = false) (s : GoString) :
    TrimFunc (TrimFunc s f) f = TrimFunc s f := by
  unfold TrimFunc
  have hlast := TrimRightFunc_last f hf _ (TrimLeftFunc s f) (le_refl _)
  have hhead := TrimLeftFunc_head f _ s (le_refl _)
  obtain ⟨x, hx⟩ := TrimRightFunc_start f hf _ (TrimLeftFunc s f) (le_refl _)
  have hleft : TrimLeftFunc (TrimRightFunc (TrimLeftFunc s f) f) f
      = TrimRightFunc (TrimLeftFunc s f) f := by
    apply TrimLeftFunc_id
    by_cases ht : TrimRightFunc (TrimLeftFunc s f) f = []
    · exact Or.inl ht
    · right
      obtain ⟨c, t, hct⟩ := List.exists_cons_of_ne_nil ht
      rw [hct] at hx ⊢
      rcases hhead with h | h
      · rw [h] at hx; cases hx
      · rw [hx] at h
        rcases utf8.DecodeRuneInString_short c t x with e | e
        · rw [e]; exact h
        · rw [e]; exact hf
  rw [hleft]
  exact TrimRightFunc_id f hf _ hlast

theorem TrimFunc_length_le (f : Nat → Bool) (hf : f utf8.RuneError = false) (s : GoString) :
    (TrimFunc s f).length ≤ s.length := by
  obtain ⟨x, hx⟩ := TrimRightFunc_start f hf _ (TrimLeftFunc s f) (le_refl _)
  obtain ⟨pre, hpre⟩ := TrimLeftFunc_suffix f _ s (le_refl _)
  have h1 := congrArg List.length hx
  have h2 := congrArg List.length hpre
  simp only [List.length_append] at h1 h2
  unfold TrimFunc
  omega

/-- A string that `TrimFunc` leaves as it is is left as it is by both of
its halves. -/
theorem TrimFunc_fixed (f : Nat → Bool) (hf : f utf8.RuneError = false) (s : GoString)
    (h : TrimFunc s f = s) : TrimLeftFunc s f = s ∧ TrimRightFunc s f = s := by
  obtain ⟨x, hx⟩ := TrimRightFunc_start f hf _ (TrimLeftFunc s f) (le_refl _)
  obtain ⟨pre, hpre⟩ := TrimLeftFunc_suffix f _ s (le_refl _)
  unfold TrimFunc at h
  rw [h] at hx
  have h1 := congrArg List.length hx
  have h2 := congrArg List.length hpre
  simp only [List.length_append] at h1 h2
  have hx0 : x = [] := List.length_eq_zero.mp (by omega)
  rw [hx0, List.append_nil] at hx
  rw [hx] at h
  exact ⟨hx, h⟩

theorem isSpace_RuneError : unicode.IsSpace utf8.RuneError = false := by decide

/-- `TrimSpace` is idempotent. -/
theorem TrimSpace_idem (s : GoString) : TrimSpace (TrimSpace s) = TrimSpace s :=
  TrimFunc_idem _ isSpace_RuneError s

theorem DecodeLastRuneInString_ascii (p : GoString) (a : Nat) (ha : a < 0x80) :
    utf8.DecodeLastRuneInString (p ++ [a]) = (a, 1) := by
  have hget : (p ++ [a]).getD ((p ++ [a]).length - 1) 0 = a := by
    simp [List.getD_eq_getElem?_getD]
  rcases utf8.DecodeLastRuneInString_cases (p ++ [a]) (by simp) with h | h | h
  · rw [h.2, hget]
  · rw [hget] at h; omega
  · rw [hget] at h; omega

/-- An ASCII byte that `f` accepts is cut off the end. -/
theorem TrimRightFunc_snoc_cut (f : Nat → Bool) (hf : f utf8.RuneError = false)
    (p : GoString) (a : Nat) (ha : a < 0x80) (hfa : f a = true) :
    TrimRightFunc (p ++ [a]) f = TrimRightFunc p f := by
  rw [TrimRightFunc_step f hf _ (by simp), DecodeLastRuneInString_ascii p a ha]
  simp [hfa]

/-- An ASCII byte that `f` rejects stops `TrimRightFunc`. -/
theorem TrimRightFunc_snoc_keep (f : Nat → Bool) (hf : f utf8.RuneError = false)
    (p : GoString) (a : Nat) (ha : a < 0x80) (hfa : f a = false) :
    TrimRightFunc (p ++ [a]) f = p ++ [a] := by
  rw [TrimRightFunc_step f hf _ (by simp), DecodeLastRuneInString_ascii p a ha]
  simp [hfa]

/-- A string that `TrimLeftFunc` leaves as it is is left as it is when a
string that starts with an ASCII byte follows. -/
theorem TrimLeftFunc_append_keep (f : Nat → Bool) (s y : GoString) (a : Nat) (hs : s ≠ [])
    (hfix : TrimLeftFunc s f = s) (ha : a < 0x80) :
    TrimLeftFunc (s ++ a :: y) f = s ++ a :: y := by
  obtain ⟨c, t, rfl⟩ := List.exists_cons_of_ne_nil hs
  have hhead := TrimLeftFunc_head f _ (c :: t) (le_refl _)
  rw [hfix] at hhead
  rcases hhead with h | h
  · cases h
  · rw [List.cons_append, TrimLeftFunc_cons, ← List.cons_append,
      utf8.DecodeRuneInString_start c t y a (Or.inl ha), if_pos h]

end strings

/-! ## Test names that `Clean` keeps -/

/-- A string whose elements, at its start and between separators, are real
path elements stays a path of real path elements when a dash and a string
without separator are put behind it. -/
theorem realPath_of_clean (b : GoString) (hb : ∀ x ∈ b, x ≠ 47) :
    ∀ (t E1 : GoString), (∀ x ∈ E1, x ≠ 47) →
      ¬ [47, 47] <:+: t → ¬ [47, 46, 47] <:+: t → ¬ [47, 46, 46, 47] <:+: t →
      (∀ r, E1 ++ t ≠ 47 :: r) → (∀ r, E1 ++ t ≠ 46 :: 47 :: r) →
      (∀ r, E1 ++ t ≠ 46 :: 46 :: 47 :: r) →
      filepath.RealPath (E1 ++ t ++ 45 :: b) := by
  intro t
  induction t with
  | nil =>
    intro E1 hE1 _ _ _ _ _ _
    apply filepath.RealPath.single
    apply realElem_of_dash
    · simp
    · intro x hx
      simp only [List.append_nil, List.mem_append, List.mem_cons] at hx
      rcases hx with hx | hx | hx
      · exact hE1 x hx
      · omega
      · exact hb x hx
  | cons c t ih =>
    intro E1 hE1 i1 i2 i3 s1 s2 s3
    have j1 : ¬ [47, 47] <:+: t := fun h => i1 (List.infix_cons h)
    have j2 : ¬ [47, 46, 47] <:+: t := fun h => i2 (List.infix_cons h)
    have j3 : ¬ [47, 46, 46, 47] <:+: t := fun h => i3 (List.infix_cons h)
    by_cases hc : c = 47
    · subst hc
      have hreal : filepath.RealElem E1 := by
        refine ⟨?_, hE1, ?_, ?_⟩
        · intro e; exact s1 t (by rw [e]; rfl)
        · intro e; exact s2 t (by rw [e]; rfl)
        · intro e; exact s3 t (by rw [e]; rfl)
      have hrest := ih [] (by simp) j1 j2 j3
        (by
          intro r e
          simp only [List.nil_append] at e
          exact i1 ⟨[], r, by rw [e]; rfl⟩)
        (by
          intro r e
          simp only [List.nil_append] at e
          exact i2 ⟨[], r, by rw [e]; rfl⟩)
        (by
          intro r e
          simp only [List.nil_append] at e
          exact i3 ⟨[], r, by rw [e]; rfl⟩)
      have := filepath.RealPath.cons hreal hrest
      simpa [List.append_assoc] using this
    · have := ih (E1 ++ [c])
        (by
          intro x hx
          rcases List.mem_append.mp hx with h | h
          · exact hE1 x h
          · have : x = c := by simpa using h
            rw [this]; exact hc)
        j1 j2 j3
        (by intro r e; exact s1 r (by simpa [List.append_assoc] using e))
        (by intro r e; exact s2 r (by simpa [List.append_assoc] using e))
        (by intro r e; exact s3 r (by simpa [List.append_assoc] using e))
      simpa [List.append_assoc] using this

theorem lit_seps : lit "//" = [47, 47] ∧ lit "/./" = [47, 46, 47] ∧
    lit "/../" = [47, 46, 46, 47] := by decide

/-- Between a name without separator that ends with a dash and a dash with
a string without separator behind it, a clean test name gives a path of
real path elements. -/
theorem realPath_of_cleanName (name tw b : GoString) (hn : CleanName name)
    (htw : ∀ x ∈ tw, x ≠ 47) (hb : ∀ x ∈ b, x ≠ 47) :
    filepath.RealPath ((tw ++ [45]) ++ name ++ 45 :: b) := by
  obtain ⟨i1, i2, i3⟩ := hn
  rw [lit_seps.1] at i1
  rw [lit_seps.2.1] at i2
  rw [lit_seps.2.2] at i3
  apply realPath_of_clean b hb name (tw ++ [45]) _ i1 i2 i3
  · intro r e
    rcases tw with _ | ⟨a, u⟩
    · simp at e
    · have := htw a (by simp)
      simp at e
      exact this e.1
  · intro r e
    rcases tw with _ | ⟨a, _ | ⟨a2, u⟩⟩
    · simp at e
    · simp at e
    · have := htw a2 (by simp)
      simp at e
      exact this e.2.1
  · intro r e
    rcases tw with _ | ⟨a, _ | ⟨a2, _ | ⟨a3, u⟩⟩⟩
    · simp at e
    · simp at e
    · simp at e
    · have := htw a3 (by simp)
      simp at e
      exact this e.2.2.1
  · intro x hx
    rcases List.mem_append.mp hx with h | h
    · exact htw x h
    · have : x = 45 := by simpa using h
      omega

theorem takeWhile_subset (p : Nat → Bool) (l : GoString) : ∀ b ∈ l.takeWhile p, b ∈ l := by
  intro b hb
  exact (List.takeWhile_prefix p).subset hb

/-- For a fixed cover profile, the coverage path of a clean test name is a
fixed string, the test name, a dash, the counter in decimal and a fixed
string without separator. -/
theorem coverPath_clean (coverprofile : GoString) :
    ∃ pre dw : GoString, (∀ b ∈ dw, b ≠ 47) ∧
      ∀ (name : GoString) (c : Int), CleanName name →
        coverPath coverprofile name c = pre ++ name ++ 45 :: (strconv.FormatInt c ++ dw) := by
  have hdir : filepath.Dir coverprofile ≠ [] := filepath.Clean_ne_nil _
  have hfmt : ∀ c : Int, ∀ x ∈ strconv.FormatInt c, x ≠ 47 := by
    intro c x hx
    rcases strconv.FormatInt_bytes c x hx with h | h <;> omega
  rcases filepath.Base_cases coverprofile with hbase | ⟨_, hbase⟩
  · refine ⟨filepath.cleanDir (filepath.Dir coverprofile ++ [47] ++ [47]) ++ [45], [],
      by simp, ?_⟩
    intro name c hn
    have hreal := realPath_of_cleanName name [] (strconv.FormatInt c ++ []) hn (by simp)
      (by simpa using hfmt c)
    unfold coverPath
    rw [filepath.Join_two _ _ hdir, coverFile_eq, hbase]
    have hre : filepath.Dir coverprofile ++ [47] ++
        (([47] : GoString).takeWhile (fun b => b != 46) ++ [45] ++ name ++ [45] ++
          strconv.FormatInt c ++ ([47] : GoString).dropWhile fun b => b != 46)
        = (filepath.Dir coverprofile ++ [47] ++ [47]) ++
          (([] ++ [45]) ++ name ++ 45 :: (strconv.FormatInt c ++ [])) := by
      simp [List.takeWhile_cons, List.dropWhile_cons]
    rw [hre, filepath.Clean_append_realPath _ _
      (Or.inr ⟨filepath.Dir coverprofile ++ [47], rfl⟩) hreal]
    simp
  · have htw : ∀ x ∈ (filepath.Base coverprofile).takeWhile (fun b => b != 46), x ≠ 47 :=
      fun x hx => hbase x (takeWhile_subset _ _ x hx)
    have hdw : ∀ x ∈ (filepath.Base coverprofile).dropWhile (fun b => b != 46), x ≠ 47 :=
      fun x hx => hbase x (dropWhile_subset _ _ x hx)
    refine ⟨filepath.cleanDir (filepath.Dir coverprofile ++ [47]) ++
      (filepath.Base coverprofile).takeWhile (fun b => b != 46) ++ [45],
      (filepath.Base coverprofile).dropWhile (fun b => b != 46), hdw, ?_⟩
    intro name c hn
    have hreal := realPath_of_cleanName name
      ((filepath.Base coverprofile).takeWhile (fun b => b != 46))
      (strconv.FormatInt c ++ (filepath.Base coverprofile).dropWhile (fun b => b != 46)) hn htw
      (by
        intro x hx
        rcases List.mem_append.mp hx with h | h
        · exact hfmt c x h
        · exact hdw x h)
    unfold coverPath
    rw [filepath.Join_two _ _ hdir, coverFile_eq]
    have hre : filepath.Dir coverprofile ++ [47] ++
        ((filepath.Base coverprofile).takeWhile (fun b => b != 46) ++ [45] ++ name ++ [45] ++
          strconv.FormatInt c ++ (filepath.Base coverprofile).dropWhile fun b => b != 46)
        = (filepath.Dir coverprofile ++ [47]) ++
          (((filepath.Base coverprofile).takeWhile (fun b => b != 46) ++ [45]) ++ name ++
            45 :: (strconv.FormatInt c ++
              (filepath.Base coverprofile).dropWhile (fun b => b != 46))) := by
      simp
    rw [hre, filepath.Clean_append_realPath _ _ (Or.inr ⟨filepath.Dir coverprofile, rfl⟩) hreal]
    simp

/-- Two strings that agree behind their last dash agree before it. -/
theorem append_dash_inj : ∀ (u v a b : GoString), 45 ∉ u → 45 ∉ v →
    a ++ 45 :: u = b ++ 45 :: v → a = b ∧ u = v := by
  have key : ∀ (u v A B : GoString), 45 ∉ u → 45 ∉ v →
      u ++ 45 :: A = v ++ 45 :: B → u = v ∧ A = B := by
    intro u
    induction u with
    | nil =>
      intro v A B _ hv h
      cases v with
      | nil => simpa using h
      | cons y v =>
        simp only [List.nil_append, List.cons_append, List.cons.injEq] at h
        exact absurd (h.1 ▸ List.mem_cons_self _ _) hv
    | cons x u ih =>
      intro v A B hu hv h
      cases v with
      | nil =>
        simp only [List.nil_append, List.cons_append, List.cons.injEq] at h
        exact absurd (h.1 ▸ List.mem_cons_self _ _) hu
      | cons y v =>
        simp only [List.cons_append, List.cons.injEq] at h
        have := ih v A B (fun hm => hu (List.mem_cons_of_mem _ hm))
          (fun hm => hv (List.mem_cons_of_mem _ hm)) h.2
        exact ⟨by rw [h.1, this.1], this.2⟩
  intro u v a b hu hv h
  have h2 := congrArg List.reverse h
  simp only [List.reverse_append, List.reverse_cons, List.append_assoc, List.singleton_append]
    at h2
  have := key u.reverse v.reverse a.reverse b.reverse (by simpa using hu) (by simpa using hv) h2
  exact ⟨List.reverse_injective this.2, List.reverse_injective this.1⟩

/-- For clean test names and counters that are not negative, the coverage
path determines the test name and the counter. -/
theorem coverPath_injective_pair (coverprofile : GoString) {n1 n2 : GoString} {c1 c2 : Int}
    (h1 : CleanName n1) (h2 : CleanName n2) (p1 : 0 ≤ c1) (p2 : 0 ≤ c2)
    (h : coverPath coverprofile n1 c1 = coverPath coverprofile n2 c2) : n1 = n2 ∧ c1 = c2 := by
  obtain ⟨pre, dw, _, hshape⟩ := coverPath_clean coverprofile
  rw [hshape n1 c1 h1, hshape n2 c2 h2] at h
  have hdig : ∀ c : Int, 0 ≤ c → 45 ∉ strconv.FormatInt c := by
    intro c hc hm
    unfold strconv.FormatInt at hm
    rw [if_neg (by omega)] at hm
    have := strconv.FormatUint_digits _ 45 hm
    omega
  have e : (n1 ++ 45 :: strconv.FormatInt c1) ++ dw = (n2 ++ 45 :: strconv.FormatInt c2) ++ dw := by
    simpa [List.append_assoc] using h
  have e2 := List.append_cancel_right e
  have := append_dash_inj _ _ _ _ (hdig c1 p1) (hdig c2 p2) e2
  exact ⟨this.1, strconv.FormatInt_injective this.2⟩

/-! ## The argument list -/

theorem wrapInt_id (x : Int) (h1 : -2 ^ 63 ≤ x) (h2 : x < 2 ^ 63) : wrapInt x = x := by
  unfold wrapInt
  norm_num at h1 h2 ⊢
  omega

/-- The table after a call with coverage: the counter of the test name is
one more, as an `int`; no other counter changes. -/
theorem execArgs_counter {S O : Type} (coverprofile : GoString) (hcp : coverprofile ≠ [])
    (h : testHelper S O) (name : GoString) (args : List GoString) (tbl : Counters)
    (m : GoString) :
    (execArgs coverprofile h name args tbl).2 m =
      if m = name then wrapInt (tbl name + 1) else tbl m := by
  rw [execArgs_snd, if_pos hcp]
  by_cases hm : m = name
  · rw [if_pos hm, hm, Function.update_same]
  · rw [if_neg hm, Function.update_noteq hm]

/-- With coverage, the argument after `-test.coverprofile` is the coverage
path for the counter the call left in the table. -/
theorem execArgs_coverPath {S O : Type} (coverprofile : GoString) (hcp : coverprofile ≠ [])
    (h : testHelper S O) (name : GoString) (args : List GoString) (tbl : Counters) :
    argAfter (lit "-test.coverprofile") (execArgs coverprofile h name args tbl).1 =
      some (coverPath coverprofile name ((execArgs coverprofile h name args tbl).2 name)) := by
  rw [execArgs_counter coverprofile hcp, if_pos rfl, execArgs_fst, if_pos hcp]
  have h1 : lit "-test.v" ≠ lit "-test.coverprofile" := by decide
  have h2 : lit "-test.run" ≠ lit "-test.coverprofile" := by decide
  have h3 : lit "ExecCommand" ≠ lit "-test.coverprofile" := by decide
  simp [argAfter, h1, h2, h3]

theorem config_no_digit : ∀ b ∈ lit "--config", ¬ (48 ≤ b ∧ b ≤ 57) := by decide

theorem watch_no_digit : ∀ b ∈ lit "--disableconfigwatch", ¬ (48 ≤ b ∧ b ≤ 57) := by decide

theorem coverPath_ne_config (coverprofile name : GoString) (c : Int) :
    coverPath coverprofile name c ≠ lit "--config" := by
  intro e
  obtain ⟨b, hb, hd⟩ := coverPath_has_digit coverprofile name c
  rw [e] at hb
  exact config_no_digit b hb hd

theorem coverPath_ne_watch (coverprofile name : GoString) (c : Int) :
    coverPath coverprofile name c ≠ lit "--disableconfigwatch" := by
  intro e
  obtain ⟨b, hb, hd⟩ := coverPath_has_digit coverprofile name c
  rw [e] at hb
  exact watch_no_digit b hb hd

/-- The configuration file of a harness that `Setup` built is not called
`--config`. -/
theorem provisioned_ne_config {S O : Type} (h : testHelper S O) (hh : h.Provisioned) :
    h.configFilePath ≠ lit "--config" := by
  unfold testHelper.Provisioned at hh
  rw [hh]
  by_cases hd : h.tempDir = []
  · rw [hd]; decide
  · rw [filepath.Join_two _ _ hd]
    have hreal : filepath.RealElem (lit "config.json") := by
      refine ⟨by decide, by decide, by decide, by decide⟩
    rw [filepath.Clean_append_real _ _ (Or.inr ⟨h.tempDir, rfl⟩) hreal]
    intro e
    have := congrArg List.length e
    rw [List.length_append, show (lit "config.json").length = 11 by decide,
      show (lit "--config").length = 8 by decide] at this
    omega

theorem execHead_no_config (coverprofile name : GoString) (tbl : Counters) :
    lit "--config" ∉ execHead coverprofile name tbl ∧
      lit "--disableconfigwatch" ∉ execHead coverprofile name tbl := by
  have a1 : lit "--config" ≠ lit "-test.v" := by decide
  have a2 : lit "--config" ≠ lit "-test.run" := by decide
  have a3 : lit "--config" ≠ lit "ExecCommand" := by decide
  have a4 : lit "--config" ≠ lit "-test.coverprofile" := by decide
  have a5 : lit "--config" ≠ lit "--" := by decide
  have b1 : lit "--disableconfigwatch" ≠ lit "-test.v" := by decide
  have b2 : lit "--disableconfigwatch" ≠ lit "-test.run" := by decide
  have b3 : lit "--disableconfigwatch" ≠ lit "ExecCommand" := by decide
  have b4 : lit "--disableconfigwatch" ≠ lit "-test.coverprofile" := by decide
  have b5 : lit "--disableconfigwatch" ≠ lit "--" := by decide
  have c1 := (coverPath_ne_config coverprofile name (wrapInt (tbl name + 1))).symm
  have c2 := (coverPath_ne_watch coverprofile name (wrapInt (tbl name + 1))).symm
  unfold execHead
  by_cases hcp : coverprofile = []
  · simp [hcp, a1, a2, a3, a5, b1, b2, b3, b5]
  · simp [hcp, a1, a2, a3, a4, a5, b1, b2, b3, b4, b5, c1, c2]

theorem execArgs_eq_head {S O : Type} (coverprofile : GoString) (h : testHelper S O)
    (name : GoString) (args : List GoString) (tbl : Counters) :
    (execArgs coverprofile h name args tbl).1 =
      execHead coverprofile name tbl ++ [lit "--disableconfigwatch"] ++
        (if (args.any fun arg => arg == lit "--config") then []
         else [lit "--config", h.configFilePath]) ++ args := by
  rw [execArgs_fst]
  simp [execHead]

theorem any_config_iff (args : List GoString) :
    (args.any fun arg => arg == lit "--config") = true ↔ lit "--config" ∈ args := by
  simp [List.any_eq_true]

/-! ## The invariant of the harness -/

/-- `SetConfig` changes neither `tempDir` nor `configFilePath`. -/
theorem SetConfig_paths {S O : Type} (mainHelper : Option (MainHelper S))
    (ToJson : Config S O → GoString) (writable : GoString → Bool) (h h' : testHelper S O)
    (config : Option (Config S O)) (fs fs' : FileSystem)
    (hok : SetConfig mainHelper ToJson writable h config fs = some (h', fs')) :
    h'.tempDir = h.tempDir ∧ h'.configFilePath = h.configFilePath := by
  unfold SetConfig at hok
  cases mainHelper with
  | none => simp at hok
  | some mh =>
    cases config with
    | none => simp at hok
    | some c =>
      simp only at hok
      cases hs : mh.Settings with
      | none => rw [hs] at hok; simp at hok
      | some settings =>
        rw [hs] at hok
        simp only [WriteFile] at hok
        by_cases hw : writable h.configFilePath = true
        · rw [if_pos hw] at hok
          simp only [Option.some.injEq, Prod.mk.injEq] at hok
          rw [← hok.1]
          exact ⟨rfl, rfl⟩
        · rw [if_neg hw] at hok
          simp at hok

/-- The harness `Setup` returns has its configuration file at `config.json`
in its temporary directory. -/
theorem Setup_provisioned {S O : Type} (mainHelper : Option (MainHelper S))
    (ToJson : Config S O → GoString) (writable : GoString → Bool) (dir : GoString)
    (defaults : Config S O) (fs fs' : FileSystem) (h : testHelper S O)
    (hok : Setup mainHelper ToJson writable dir defaults fs = some (h, fs')) :
    h.Provisioned := by
  unfold Setup at hok
  have := SetConfig_paths _ _ _ _ _ _ _ _ hok
  unfold testHelper.Provisioned
  rw [this.1, this.2]

/-- `SetConfig` keeps the invariant. -/
theorem SetConfig_provisioned {S O : Type} (mainHelper : Option (MainHelper S))
    (ToJson : Config S O → GoString) (writable : GoString → Bool) (h h' : testHelper S O)
    (config : Option (Config S O)) (fs fs' : FileSystem) (hh : h.Provisioned)
    (hok : SetConfig mainHelper ToJson writable h config fs = some (h', fs')) :
    h'.Provisioned := by
  have := SetConfig_paths _ _ _ _ _ _ _ _ hok
  unfold testHelper.Provisioned at hh ⊢
  rw [this.1, this.2]
  exact hh

/-- When the executable is found and the command ends without error,
`CheckCommand` returns the normalized output of the command run with the
arguments `execArgs` built. -/
theorem CheckCommand_ok {S O : Type} (path : GoString)
    (run : GoString → List GoString → GoString × Bool) (coverprofile : GoString)
    (h : testHelper S O) (name : GoString) (args : List GoString) (tbl : Counters)
    (hrun : (run path (execArgs coverprofile h name args tbl).1).2 = true) :
    (CheckCommand (some path) run coverprofile h name args tbl).1 =
      some (normalize (run path (execArgs coverprofile h name args tbl).1).1) := by
  simp [CheckCommand, hrun]

/-! ## The claims about the argument list -/

theorem sampleHelper_provisioned : sampleHelper.Provisioned := by
  unfold testHelper.Provisioned sampleHelper
  decide

/-- Claim C1: for every harness `h` (a `testHelper` in the state `Setup`
leaves it in, with its configuration file provisioned at `config.json` in
its temporary directory) and all caller arguments of which none equals
`--config`, the argument list `execArgs` returns holds `--config` exactly
once, directly followed by the provisioned path `h.configFilePath`; the pair
stands directly behind `--disableconfigwatch` and directly before the
caller's arguments. -/
theorem execArgs_injects_config {S O : Type} (coverprofile : GoString) (h : testHelper S O)
    (name : GoString) (args : List GoString) (tbl : Counters) (hh : h.Provisioned)
    (hargs : lit "--config" ∉ args) :
    (execArgs coverprofile h name args tbl).1.count (lit "--config") = 1 ∧
      ∃ pre : List GoString, lit "--config" ∉ pre ∧
        (execArgs coverprofile h name args tbl).1 =
          pre ++ [lit "--disableconfigwatch", lit "--config", h.configFilePath] ++ args := by
  have hany : ¬ (args.any fun arg => arg == lit "--config") = true := by
    rw [any_config_iff]; exact hargs
  have hhead := (execHead_no_config coverprofile name tbl).1
  have hpath := provisioned_ne_config h hh
  have hw : lit "--disableconfigwatch" ≠ lit "--config" := by decide
  have heq : (execArgs coverprofile h name args tbl).1 =
      execHead coverprofile name tbl ++
        [lit "--disableconfigwatch", lit "--config", h.configFilePath] ++ args := by
    rw [execArgs_eq_head, if_neg hany]
    simp
  refine ⟨?_, execHead coverprofile name tbl, hhead, heq⟩
  rw [heq, List.count_append, List.count_append, List.count_eq_zero_of_not_mem hhead,
    List.count_eq_zero_of_not_mem hargs]
  simp [List.count_cons, hw, hpath]

theorem execArgs_injects_config_witness :
    sampleHelper.Provisioned ∧ lit "--config" ∉ [lit "version"] ∧
      (execArgs (lit "cover.out") sampleHelper (lit "TestVersion") [lit "version"]
        Counters.empty).1.count (lit "--config") = 1 ∧
      ∃ pre : List GoString, lit "--config" ∉ pre ∧
        (execArgs (lit "cover.out") sampleHelper (lit "TestVersion") [lit "version"]
          Counters.empty).1 =
          pre ++ [lit "--disableconfigwatch", lit "--config", sampleHelper.configFilePath] ++
            [lit "version"] :=
  ⟨sampleHelper_provisioned, by decide,
    execArgs_injects_config (lit "cover.out") sampleHelper (lit "TestVersion") [lit "version"]
      Counters.empty sampleHelper_provisioned (by decide)⟩

/-- Claim C2: when a caller argument equals `--config`, at any position,
`execArgs` injects no configuration flag: what follows the first
`--disableconfigwatch` of the result is exactly the caller's arguments, and
the result holds `--config` as often as the caller's arguments do. -/
theorem execArgs_keeps_caller_config {S O : Type} (coverprofile : GoString)
    (h : testHelper S O) (name : GoString) (args : List GoString) (tbl : Counters)
    (hargs : lit "--config" ∈ args) :
    (∃ pre : List GoString, lit "--disableconfigwatch" ∉ pre ∧
        (execArgs coverprofile h name args tbl).1 = pre ++ [lit "--disableconfigwatch"] ++ args) ∧
      (execArgs coverprofile h name args tbl).1.count (lit "--config") =
        args.count (lit "--config") := by
  have hany : (args.any fun arg => arg == lit "--config") = true := by
    rw [any_config_iff]; exact hargs
  have hhead := execHead_no_config coverprofile name tbl
  have hw : lit "--disableconfigwatch" ≠ lit "--config" := by decide
  have heq : (execArgs coverprofile h name args tbl).1 =
      execHead coverprofile name tbl ++ [lit "--disableconfigwatch"] ++ args := by
    rw [execArgs_eq_head, if_pos hany]
    simp
  refine ⟨⟨execHead coverprofile name tbl, hhead.2, heq⟩, ?_⟩
  rw [heq, List.count_append, List.count_append, List.count_eq_zero_of_not_mem hhead.1]
  simp [List.count_cons, hw]

theorem execArgs_keeps_caller_config_witness :
    lit "--config" ∈ [lit "version", lit "--config", lit "mine.json"] ∧
      (∃ pre : List GoString, lit "--disableconfigwatch" ∉ pre ∧
        (execArgs (lit "cover.out") sampleHelper (lit "TestVersion")
          [lit "version", lit "--config", lit "mine.json"] Counters.empty).1 =
          pre ++ [lit "--disableconfigwatch"] ++
            [lit "version", lit "--config", lit "mine.json"]) ∧
      (execArgs (lit "cover.out") sampleHelper (lit "TestVersion")
          [lit "version", lit "--config", lit "mine.json"] Counters.empty).1.count
            (lit "--config") =
        [lit "version", lit "--config", lit "mine.json"].count (lit "--config") :=
  ⟨by decide,
    execArgs_keeps_caller_config (lit "cover.out") sampleHelper (lit "TestVersion")
      [lit "version", lit "--config", lit "mine.json"] Counters.empty (by decide)⟩

/-- Claim C3: the argument list has the layout of the subprocess argument
contract: `-test.v`, `-test.run`, `ExecCommand`; then the pair
`-test.coverprofile`, path exactly when the cover profile flag is not empty;
then `--` directly followed by `--disableconfigwatch`; then nothing or the
pair `--config`, `h.configFilePath`; and at the end the caller's arguments as
they are. -/
theorem execArgs_layout {S O : Type} (coverprofile : GoString) (h : testHelper S O)
    (name : GoString) (args : List GoString) (tbl : Counters) :
    ∃ cov mid : List GoString,
      (execArgs coverprofile h name args tbl).1 =
        [lit "-test.v", lit "-test.run", lit "ExecCommand"] ++ cov ++
          [lit "--", lit "--disableconfigwatch"] ++ mid ++ args ∧
      (coverprofile = [] → cov = []) ∧
      (coverprofile ≠ [] → ∃ path, cov = [lit "-test.coverprofile", path]) ∧
      (mid = [] ∨ mid = [lit "--config", h.configFilePath]) := by
  refine ⟨if coverprofile ≠ [] then
      [lit "-test.coverprofile", coverPath coverprofile name (wrapInt (tbl name + 1))]
    else [],
    if (args.any fun arg => arg == lit "--config") then []
    else [lit "--config", h.configFilePath], execArgs_fst coverprofile h name args tbl, ?_, ?_, ?_⟩
  · intro hcp; rw [if_neg (not_not.mpr hcp)]
  · intro hcp; rw [if_pos hcp]; exact ⟨_, rfl⟩
  · by_cases hany : (args.any fun arg => arg == lit "--config") = true
    · left; rw [if_pos hany]
    · right; rw [if_neg hany]

/-- Claim C6, as stated, fails: called with the arguments `--config a
--config b`, `execArgs` returns a list that holds `--config` twice. -/
theorem execArgs_two_configs :
    (execArgs [] sampleHelper (lit "TestVersion")
      [lit "--config", lit "a", lit "--config", lit "b"] Counters.empty).1.count
        (lit "--config") = 2 := by
  decide

/-- Claim C6, amended: for every harness `h` (in the state `Setup` leaves
it in) the result of `execArgs` never lacks a `--config` and `execArgs`
never adds one to the caller's: the result holds `--config` once when the
caller's arguments hold none, and then `h.configFilePath` follows it
directly; otherwise it holds `--config` as often as the caller's arguments
do, all of them in the caller's arguments, which end the result as they
are. -/
theorem execArgs_config_count {S O : Type} (coverprofile : GoString) (h : testHelper S O)
    (name : GoString) (args : List GoString) (tbl : Counters) (hh : h.Provisioned) :
    (execArgs coverprofile h name args tbl).1.count (lit "--config") =
        max 1 (args.count (lit "--config")) ∧
      (args.count (lit "--config") = 0 →
        ∃ pre : List GoString, lit "--config" ∉ pre ∧
          (execArgs coverprofile h name args tbl).1 =
            pre ++ [lit "--config", h.configFilePath] ++ args) ∧
      (args.count (lit "--config") ≠ 0 →
        ∃ pre : List GoString, lit "--config" ∉ pre ∧
          (execArgs coverprofile h name args tbl).1 = pre ++ args) := by
  have hhead := execHead_no_config coverprofile name tbl
  have hpath := provisioned_ne_config h hh
  have hw : lit "--disableconfigwatch" ≠ lit "--config" := by decide
  have hpre : lit "--config" ∉ execHead coverprofile name tbl ++ [lit "--disableconfigwatch"] := by
    intro hm
    rcases List.mem_append.mp hm with hm | hm
    · exact hhead.1 hm
    · have e : lit "--config" = lit "--disableconfigwatch" := by simpa using hm
      exact hw e.symm
  by_cases hargs : lit "--config" ∈ args
  · have hany : (args.any fun arg => arg == lit "--config") = true := by
      rw [any_config_iff]; exact hargs
    have hpos : 0 < args.count (lit "--config") := List.count_pos_iff.mpr hargs
    have heq : (execArgs coverprofile h name args tbl).1 =
        (execHead coverprofile name tbl ++ [lit "--disableconfigwatch"]) ++ args := by
      rw [execArgs_eq_head, if_pos hany]
      simp
    refine ⟨?_, fun h0 => absurd h0 (by omega), fun _ => ⟨_, hpre, heq⟩⟩
    rw [heq, List.count_append, List.count_eq_zero_of_not_mem hpre]
    omega
  · have hany : ¬ (args.any fun arg => arg == lit "--config") = true := by
      rw [any_config_iff]; exact hargs
    have hzero : args.count (lit "--config") = 0 := List.count_eq_zero_of_not_mem hargs
    have heq : (execArgs coverprofile h name args tbl).1 =
        (execHead coverprofile name tbl ++ [lit "--disableconfigwatch"]) ++
          [lit "--config", h.configFilePath] ++ args := by
      rw [execArgs_eq_head, if_neg hany]
    refine ⟨?_, fun _ => ⟨_, hpre, heq⟩, fun h0 => absurd hzero h0⟩
    rw [heq, List.count_append, List.count_append, List.count_eq_zero_of_not_mem hpre, hzero]
    simp [List.count_cons, hpath]

theorem execArgs_config_count_witness :
    sampleHelper.Provisioned ∧
      ((execArgs [] sampleHelper (lit "TestVersion")
        [lit "--config", lit "a", lit "--config", lit "b"] Counters.empty).1.count
          (lit "--config") =
        max 1 ([lit "--config", lit "a", lit "--config", lit "b"].count (lit "--config")) ∧
      ([lit "--config", lit "a", lit "--config", lit "b"].count (lit "--config") = 0 →
        ∃ pre : List GoString, lit "--config" ∉ pre ∧
          (execArgs [] sampleHelper (lit "TestVersion")
            [lit "--config", lit "a", lit "--config", lit "b"] Counters.empty).1 =
            pre ++ [lit "--config", sampleHelper.configFilePath] ++
              [lit "--config", lit "a", lit "--config", lit "b"]) ∧
      ([lit "--config", lit "a", lit "--config", lit "b"].count (lit "--config") ≠ 0 →
        ∃ pre : List GoString, lit "--config" ∉ pre ∧
          (execArgs [] sampleHelper (lit "TestVersion")
            [lit "--config", lit "a", lit "--config", lit "b"] Counters.empty).1 =
            pre ++ [lit "--config", lit "a", lit "--config", lit "b"])) :=
  ⟨sampleHelper_provisioned,
    execArgs_config_count [] sampleHelper (lit "TestVersion")
      [lit "--config", lit "a", lit "--config", lit "b"] Counters.empty
      sampleHelper_provisioned⟩

/-! ## The claims about the output normalisation -/

theorem lit_PASS : lit "PASS" = [80, 65, 83, 83] := by decide

theorem lit_marker : lit "\nPASS\n" = [10, 80, 65, 83, 83, 10] := by decide

theorem TrimSpace_length_le (s : GoString) : (strings.TrimSpace s).length ≤ s.length :=
  strings.TrimFunc_length_le _ strings.isSpace_RuneError s

theorem normalize_trimmed (x : GoString) : strings.TrimSpace (normalize x) = normalize x :=
  strings.TrimSpace_idem _

/-- Claim C4, as stated, fails: the output `PASS`, newline, `PASS`, newline
(a command that prints `PASS` itself, then the marker of the runner)
normalizes to `PASS`, which normalizes to the empty string. -/
theorem normalize_not_idempotent :
    normalize (lit "PASS\nPASS\n") = lit "PASS" ∧ normalize (lit "PASS") = [] ∧
      normalize (normalize (lit "PASS\nPASS\n")) ≠ normalize (lit "PASS\nPASS\n") := by
  decide

/-- Claim C4, amended: normalizing a second time changes nothing exactly
when the normalized output does not itself end with the marker `PASS`;
when it does, the second normalization cuts that marker off as well. -/
theorem normalize_idempotent_iff (x : GoString) :
    normalize (normalize x) = normalize x ↔
      strings.HasSuffix (normalize x) (lit "PASS") = false := by
  have hfix := normalize_trimmed x
  have hnn : normalize (normalize x) =
      strings.TrimSpace (strings.TrimSuffix (normalize x) (lit "PASS")) := by
    have e : ∀ y : GoString, normalize y =
        strings.TrimSpace (strings.TrimSuffix (strings.TrimSpace y) (lit "PASS")) := fun _ => rfl
    rw [e (normalize x), hfix]
  rw [hnn]
  constructor
  · intro h
    by_contra hs
    have hs2 : strings.HasSuffix (normalize x) (lit "PASS") = true := by
      simpa using hs
    have hlen : (lit "PASS").length ≤ (normalize x).length := by
      unfold strings.HasSuffix at hs2
      simp only [Bool.and_eq_true, decide_eq_true_eq] at hs2
      exact hs2.1
    unfold strings.TrimSuffix at h
    rw [if_pos hs2] at h
    have h1 := TrimSpace_length_le ((normalize x).take ((normalize x).length - (lit "PASS").length))
    rw [h, List.length_take] at h1
    rw [show (lit "PASS").length = 4 by decide] at hlen h1
    omega
  · intro h
    unfold strings.TrimSuffix
    rw [if_neg (by rw [h]; simp), hfix]

/-- For an output `s` that neither half of `TrimSpace` changes, normalizing
`s`, a newline, the marker `PASS` and a newline gives `s`. -/
theorem normalize_marker_of_fixed (s : GoString)
    (hL : strings.TrimLeftFunc s unicode.IsSpace = s)
    (hR : strings.TrimRightFunc s unicode.IsSpace = s) :
    normalize (s ++ lit "\nPASS\n") = s := by
  by_cases hs : s = []
  · subst hs; decide
  · have hf := strings.isSpace_RuneError
    have step1 : strings.TrimSpace (s ++ [10, 80, 65, 83, 83, 10]) = s ++ [10, 80, 65, 83, 83] := by
      unfold strings.TrimSpace strings.TrimFunc
      rw [strings.TrimLeftFunc_append_keep _ s _ 10 hs hL (by decide)]
      rw [show s ++ [10, 80, 65, 83, 83, 10] = (s ++ [10, 80, 65, 83, 83]) ++ [10] by simp,
        strings.TrimRightFunc_snoc_cut _ hf _ 10 (by decide) (by decide),
        show s ++ [10, 80, 65, 83, 83] = (s ++ [10, 80, 65, 83]) ++ [83] by simp,
        strings.TrimRightFunc_snoc_keep _ hf _ 83 (by decide) (by decide)]
    have step2 : strings.TrimSuffix (s ++ [10, 80, 65, 83, 83]) [80, 65, 83, 83] = s ++ [10] := by
      have e : s ++ [10, 80, 65, 83, 83] = (s ++ [10]) ++ [80, 65, 83, 83] := by simp
      have hl : (s ++ [10, 80, 65, 83, 83]).length - ([80, 65, 83, 83] : GoString).length
          = (s ++ [10]).length := by
        simp
      unfold strings.TrimSuffix strings.HasSuffix
      rw [hl, e, List.drop_left, List.take_left]
      simp
    have step3 : strings.TrimSpace (s ++ [10]) = s := by
      unfold strings.TrimSpace strings.TrimFunc
      rw [strings.TrimLeftFunc_append_keep _ s [] 10 hs hL (by decide),
        strings.TrimRightFunc_snoc_cut _ hf _ 10 (by decide) (by decide), hR]
    unfold normalize
    rw [lit_marker, lit_PASS, step1, step2, step3]

/-- The same for an output that `TrimSpace` leaves as it is. -/
theorem normalize_marker_of_trimmed (s : GoString) (h : strings.TrimSpace s = s) :
    normalize (s ++ lit "\nPASS\n") = s := by
  have := strings.TrimFunc_fixed _ strings.isSpace_RuneError s h
  exact normalize_marker_of_fixed s this.1 this.2

/-- Claim C8: for an output `s` without white space at its start and at its
end (`s` is empty, or neither its first nor its last rune is white space),
normalizing `s`, a newline, the marker `PASS` and a newline gives `s`. -/
theorem normalize_strips_marker (s : GoString)
    (hfirst : s ≠ [] → unicode.IsSpace (utf8.DecodeRuneInString s).1 = false)
    (hlast : s ≠ [] → unicode.IsSpace (utf8.DecodeLastRuneInString s).1 = false) :
    normalize (s ++ lit "\nPASS\n") = s := by
  apply normalize_marker_of_fixed
  · by_cases hs : s = []
    · subst hs; rfl
    · exact strings.TrimLeftFunc_id _ _ (Or.inr (hfirst hs))
  · by_cases hs : s = []
    · subst hs; rfl
    · exact strings.TrimRightFunc_id _ strings.isSpace_RuneError _ (Or.inr (hlast hs))

theorem normalize_strips_marker_witness :
    (lit "OK" ≠ [] → unicode.IsSpace (utf8.DecodeRuneInString (lit "OK")).1 = false) ∧
      (lit "OK" ≠ [] → unicode.IsSpace (utf8.DecodeLastRuneInString (lit "OK")).1 = false) ∧
      normalize (lit "OK" ++ lit "\nPASS\n") = lit "OK" :=
  ⟨fun _ => by decide, fun _ => by decide,
    normalize_strips_marker (lit "OK") (fun _ => by decide) (fun _ => by decide)⟩

/-! ## The claim about `SetConfig` -/

/-- `SetConfig` succeeds whenever the shared settings are there and the
configuration file can be written. -/
theorem SetConfig_succeeds {S O : Type} (mh : MainHelper S) (settings : S)
    (ToJson : Config S O → GoString) (writable : GoString → Bool) (h : testHelper S O)
    (c : Config S O) (fs : FileSystem) (hs : mh.Settings = some settings)
    (hw : writable h.configFilePath = true) :
    SetConfig (some mh) ToJson writable h (some c) fs =
      some ({ h with config := some { c with SqlSettings := settings } },
        Function.update fs h.configFilePath
          (some (ToJson { c with SqlSettings := settings }))) := by
  simp [SetConfig, hs, WriteFile, hw]

/-- Claim C9: after `SetConfig` has succeeded, the configuration of the
harness has the shared settings `*mainHelper.Settings` as its `SqlSettings`
and the other fields of the configuration passed in, the file at
`h.configFilePath` holds the JSON of exactly that configuration, and
`tempDir` and `configFilePath` are as before. -/
theorem SetConfig_applies_shared_settings {S O : Type} (mainHelper : Option (MainHelper S))
    (ToJson : Config S O → GoString) (writable : GoString → Bool) (h h' : testHelper S O)
    (c : Config S O) (fs fs' : FileSystem)
    (hok : SetConfig mainHelper ToJson writable h (some c) fs = some (h', fs')) :
    ∃ (mh : MainHelper S) (settings : S), mainHelper = some mh ∧ mh.Settings = some settings ∧
      h'.config = some { SqlSettings := settings, other := c.other } ∧
      fs' h.configFilePath = some (ToJson { SqlSettings := settings, other := c.other }) ∧
      h'.tempDir = h.tempDir ∧ h'.configFilePath = h.configFilePath := by
  unfold SetConfig at hok
  cases mainHelper with
  | none => simp at hok
  | some mh =>
    simp only at hok
    cases hs : mh.Settings with
    | none => rw [hs] at hok; simp at hok
    | some settings =>
      rw [hs] at hok
      simp only [WriteFile] at hok
      by_cases hw : writable h.configFilePath = true
      · rw [if_pos hw] at hok
        simp only [Option.some.injEq, Prod.mk.injEq] at hok
        obtain ⟨e1, e2⟩ := hok
        refine ⟨mh, settings, rfl, hs, ?_, ?_, ?_, ?_⟩
        · rw [← e1]
        · rw [← e2, Function.update_same]
        · rw [← e1]
        · rw [← e1]
      · rw [if_neg hw] at hok
        simp at hok

theorem SetConfig_applies_shared_settings_witness :
    SetConfig (some ⟨some 7⟩) (fun c : Config Nat Nat => [c.SqlSettings, c.other])
        (fun _ => true) plainHelper (some ⟨0, 5⟩) (fun _ => none) =
      some ({ plainHelper with config := some ⟨7, 5⟩ },
        Function.update (fun _ => none) plainHelper.configFilePath (some [7, 5])) ∧
    ∃ (mh : MainHelper Nat) (settings : Nat), some ⟨some 7⟩ = some mh ∧
      mh.Settings = some settings ∧
      ({ plainHelper with config := some ⟨7, 5⟩ } : testHelper Nat Nat).config =
        some { SqlSettings := settings, other := (⟨0, 5⟩ : Config Nat Nat).other } ∧
      (Function.update (fun _ => none) plainHelper.configFilePath (some [7, 5]) : FileSystem)
          plainHelper.configFilePath =
        some ((fun c : Config Nat Nat => [c.SqlSettings, c.other])
          { SqlSettings := settings, other := (⟨0, 5⟩ : Config Nat Nat).other }) ∧
      ({ plainHelper with config := some ⟨7, 5⟩ } : testHelper Nat Nat).tempDir =
        plainHelper.tempDir ∧
      ({ plainHelper with config := some ⟨7, 5⟩ } : testHelper Nat Nat).configFilePath =
        plainHelper.configFilePath :=
  ⟨rfl,
    SetConfig_applies_shared_settings (some ⟨some 7⟩)
      (fun c : Config Nat Nat => [c.SqlSettings, c.other]) (fun _ => true) plainHelper
      { plainHelper with config := some ⟨7, 5⟩ } ⟨0, 5⟩ (fun _ => none)
      (Function.update (fun _ => none) plainHelper.configFilePath (some [7, 5])) rfl⟩

/-! ## The claims about the coverage file -/

theorem takeWhile_before_dot (u v : GoString) (hu : 46 ∉ u) :
    (u ++ 46 :: v).takeWhile (fun b => b != 46) = u ∧
      (u ++ 46 :: v).dropWhile (fun b => b != 46) = 46 :: v := by
  induction u with
  | nil => simp
  | cons c t ih =>
    have hc : c ≠ 46 := fun e => hu (e ▸ List.mem_cons_self _ _)
    have ih2 := ih (fun hm => hu (List.mem_cons_of_mem _ hm))
    simp [List.takeWhile_cons, List.dropWhile_cons, hc, ih2.1, ih2.2]

/-- For a file name with at most one dot, the first dot is the last dot. -/
theorem insertBeforeFirstDot_eq_last (f ins : GoString) (h : f.count 46 ≤ 1) :
    insertBeforeFirstDot f ins = insertBeforeLastDot f ins := by
  unfold insertBeforeFirstDot insertBeforeLastDot
  by_cases hm : 46 ∈ f
  · rw [if_pos hm]
    obtain ⟨a, b, rfl⟩ := List.append_of_mem hm
    have hc : (a ++ 46 :: b).count 46 = a.count 46 + (b.count 46 + 1) := by
      rw [List.count_append, List.count_cons_self]
    have ha : 46 ∉ a := fun hm => by
      have := List.count_pos_iff.mpr hm
      omega
    have hb : 46 ∉ b := fun hm => by
      have := List.count_pos_iff.mpr hm
      omega
    have h1 := takeWhile_before_dot a b ha
    have hrev : (a ++ 46 :: b).reverse = b.reverse ++ 46 :: a.reverse := by simp
    have h2 := takeWhile_before_dot b.reverse a.reverse (by simpa using hb)
    rw [h1.1, h1.2, hrev, h2.1, h2.2]
    simp
  · rw [if_neg hm]
    have := strings.takeWhile_no_dot f hm
    rw [this.1, this.2]
    simp

/-- Claim C7, as stated, fails: for the cover profile `out/cover.tar.gz`
and the first call of test `T`, `execArgs` passes `out/cover-T-1.tar.gz`,
not `out/cover.tar-T-1.gz`, the name with `-T-1` before the last dot. -/
theorem coverprofile_path_not_last_dot :
    argAfter (lit "-test.coverprofile")
        (execArgs (lit "out/cover.tar.gz") sampleHelper (lit "T") [] Counters.empty).1 =
      some (lit "out/cover-T-1.tar.gz") ∧
    filepath.Join [filepath.Dir (lit "out/cover.tar.gz"),
        insertBeforeLastDot (filepath.Base (lit "out/cover.tar.gz"))
          (lit "-" ++ lit "T" ++ lit "-" ++ strconv.FormatInt
            ((execArgs (lit "out/cover.tar.gz") sampleHelper (lit "T") []
              Counters.empty).2 (lit "T")))] =
      lit "out/cover.tar-T-1.gz" ∧
    argAfter (lit "-test.coverprofile")
        (execArgs (lit "out/cover.tar.gz") sampleHelper (lit "T") [] Counters.empty).1 ≠
      some (filepath.Join [filepath.Dir (lit "out/cover.tar.gz"),
        insertBeforeLastDot (filepath.Base (lit "out/cover.tar.gz"))
          (lit "-" ++ lit "T" ++ lit "-" ++ strconv.FormatInt
            ((execArgs (lit "out/cover.tar.gz") sampleHelper (lit "T") []
              Counters.empty).2 (lit "T")))]) := by
  decide

/-- Claim C7, amended: with coverage, the path after `-test.coverprofile` is
the directory of the cover profile joined with its file name in which
`-<name>-<counter>` stands before the first dot (at the end when the file
name has no dot), where the counter is the decimal value of the counter of
the test name after the increment of this call; for a file name with at
most one dot that is the place before its extension. -/
theorem coverprofile_path_first_dot {S O : Type} (coverprofile : GoString)
    (hcp : coverprofile ≠ []) (h : testHelper S O) (name : GoString) (args : List GoString)
    (tbl : Counters) :
    argAfter (lit "-test.coverprofile") (execArgs coverprofile h name args tbl).1 =
        some (filepath.Join [filepath.Dir coverprofile,
          insertBeforeFirstDot (filepath.Base coverprofile)
            (lit "-" ++ name ++ lit "-" ++
              strconv.FormatInt ((execArgs coverprofile h name args tbl).2 name))]) ∧
      (execArgs coverprofile h name args tbl).2 name = wrapInt (tbl name + 1) ∧
      ((filepath.Base coverprofile).count 46 ≤ 1 →
        argAfter (lit "-test.coverprofile") (execArgs coverprofile h name args tbl).1 =
          some (filepath.Join [filepath.Dir coverprofile,
            insertBeforeLastDot (filepath.Base coverprofile)
              (lit "-" ++ name ++ lit "-" ++
                strconv.FormatInt ((execArgs coverprofile h name args tbl).2 name))])) := by
  have hpath := execArgs_coverPath coverprofile hcp h name args tbl
  have hfirst : coverPath coverprofile name ((execArgs coverprofile h name args tbl).2 name) =
      filepath.Join [filepath.Dir coverprofile,
          insertBeforeFirstDot (filepath.Base coverprofile)
            (lit "-" ++ name ++ lit "-" ++
              strconv.FormatInt ((execArgs coverprofile h name args tbl).2 name))] := by
    unfold coverPath insertBeforeFirstDot
    rw [coverFile_eq, lit_dash]
    simp only [List.append_assoc]
  refine ⟨by rw [hpath, hfirst], ?_, ?_⟩
  · rw [execArgs_counter coverprofile hcp, if_pos rfl]
  · intro hdots
    rw [hpath, hfirst, insertBeforeFirstDot_eq_last _ _ hdots]

theorem coverprofile_path_first_dot_witness :
    lit "out/cover.out" ≠ [] ∧
    (argAfter (lit "-test.coverprofile")
        (execArgs (lit "out/cover.out") sampleHelper (lit "T") [] Counters.empty).1 =
        some (filepath.Join [filepath.Dir (lit "out/cover.out"),
          insertBeforeFirstDot (filepath.Base (lit "out/cover.out"))
            (lit "-" ++ lit "T" ++ lit "-" ++
              strconv.FormatInt ((execArgs (lit "out/cover.out") sampleHelper (lit "T") []
                Counters.empty).2 (lit "T")))]) ∧
      (execArgs (lit "out/cover.out") sampleHelper (lit "T") [] Counters.empty).2 (lit "T") =
        wrapInt (Counters.empty (lit "T") + 1) ∧
      ((filepath.Base (lit "out/cover.out")).count 46 ≤ 1 →
        argAfter (lit "-test.coverprofile")
          (execArgs (lit "out/cover.out") sampleHelper (lit "T") [] Counters.empty).1 =
          some (filepath.Join [filepath.Dir (lit "out/cover.out"),
            insertBeforeLastDot (filepath.Base (lit "out/cover.out"))
              (lit "-" ++ lit "T" ++ lit "-" ++
                strconv.FormatInt ((execArgs (lit "out/cover.out") sampleHelper (lit "T") []
                  Counters.empty).2 (lit "T")))]))) :=
  ⟨by decide,
    coverprofile_path_first_dot (lit "out/cover.out") (by decide) sampleHelper (lit "T") []
      Counters.empty⟩

/-- The example of claim C7: `out/cover.out` and the first call of test `T`
give `out/cover-T-1.out`. -/
theorem coverprofile_path_example :
    argAfter (lit "-test.coverprofile")
        (execArgs (lit "out/cover.out") sampleHelper (lit "T") [] Counters.empty).1 =
      some (lit "out/cover-T-1.out") := by
  decide

/-! ## Sequences of calls -/

theorem runInvocations_cons {S O : Type} (coverprofile : GoString) (inv : Invocation S O)
    (rest : List (Invocation S O)) (tbl : Counters) :
    runInvocations coverprofile (inv :: rest) tbl =
      execArgs coverprofile inv.h inv.name inv.args tbl ::
        runInvocations coverprofile rest
          (execArgs coverprofile inv.h inv.name inv.args tbl).2 := rfl

/-- The counter of `m` after a call with coverage, while it cannot
overflow. -/
theorem execArgs_counter_step {S O : Type} (coverprofile : GoString) (hcp : coverprofile ≠ [])
    (h : testHelper S O) (name : GoString) (args : List GoString) (tbl : Counters)
    (m : GoString) (hlo : -2 ^ 63 ≤ tbl m + 1) (hhi : tbl m + 1 < 2 ^ 63) :
    (execArgs coverprofile h name args tbl).2 m = if m = name then tbl m + 1 else tbl m := by
  rw [execArgs_counter coverprofile hcp]
  by_cases hm : m = name
  · rw [if_pos hm, if_pos hm, ← hm, wrapInt_id _ hlo hhi]
  · rw [if_neg hm, if_neg hm]

/-- With coverage, the argument after `-test.coverprofile` of every call of
a sequence is the coverage path for the test name of the call and the
counter the call left in the table. -/
theorem runInvocations_coverPath {S O : Type} (coverprofile : GoString)
    (hcp : coverprofile ≠ []) :
    ∀ (invs : List (Invocation S O)) (tbl : Counters) (k : Nat) (y : Invocation S O)
      (r : List GoString × Counters), invs[k]? = some y →
      (runInvocations coverprofile invs tbl)[k]? = some r →
      argAfter (lit "-test.coverprofile") r.1 = some (coverPath coverprofile y.name (r.2 y.name)) := by
  intro invs
  induction invs with
  | nil => intro tbl k y r hy; simp at hy
  | cons inv rest ih =>
    intro tbl k y r hy hr
    rw [runInvocations_cons] at hr
    cases k with
    | zero =>
      simp only [List.getElem?_cons_zero, Option.some.injEq] at hy hr
      subst hy; subst hr
      exact execArgs_coverPath coverprofile hcp _ _ _ _
    | succ k =>
      simp only [List.getElem?_cons_succ] at hy hr
      exact ih _ k y r hy hr

/-- While the counter of a test name cannot overflow, it never decreases
along a sequence of calls, it grows by at most one with each call, and it
grows with each call made under that name. -/
theorem runInvocations_counter {S O : Type} (coverprofile : GoString)
    (hcp : coverprofile ≠ []) (n : GoString) :
    ∀ (invs : List (Invocation S O)) (tbl : Counters) (k : Nat) (y : Invocation S O)
      (r : List GoString × Counters), -2 ^ 63 ≤ tbl n → tbl n + invs.length < 2 ^ 63 →
      invs[k]? = some y → (runInvocations coverprofile invs tbl)[k]? = some r →
      tbl n ≤ r.2 n ∧ r.2 n ≤ tbl n + (k + 1) ∧ (y.name = n → tbl n < r.2 n) := by
  intro invs
  induction invs with
  | nil => intro tbl k y r _ _ hy; simp at hy
  | cons inv rest ih =>
    intro tbl k y r hlo hhi hy hr
    rw [runInvocations_cons] at hr
    simp only [List.length_cons, Nat.cast_add, Nat.cast_one] at hhi
    have hval := execArgs_counter_step coverprofile hcp inv.h inv.name inv.args tbl n
      (by omega) (by omega)
    cases k with
    | zero =>
      simp only [List.getElem?_cons_zero, Option.some.injEq] at hy hr
      subst hy; subst hr
      by_cases hn : n = inv.name
      · rw [hval, if_pos hn]
        refine ⟨by omega, by simp, fun _ => by omega⟩
      · rw [hval, if_neg hn]
        refine ⟨le_refl _, by simp, fun e => absurd e.symm hn⟩
    | succ k =>
      simp only [List.getElem?_cons_succ] at hy hr
      have hbound : tbl n ≤ (execArgs coverprofile inv.h inv.name inv.args tbl).2 n ∧
          (execArgs coverprofile inv.h inv.name inv.args tbl).2 n ≤ tbl n + 1 := by
        by_cases hn : n = inv.name
        · rw [hval, if_pos hn]; omega
        · rw [hval, if_neg hn]; omega
      have := ih (execArgs coverprofile inv.h inv.name inv.args tbl).2 k y r (by omega)
        (by omega) hy hr
      refine ⟨by omega, ?_, fun e => by have := this.2.2 e; omega⟩
      have h2 := this.2.1
      push_cast
      omega

/-- While the counter of a test name cannot overflow, a later call under
that name leaves a larger counter than an earlier one, and the two coverage
paths differ. -/
theorem runInvocations_same_name {S O : Type} (coverprofile : GoString)
    (hcp : coverprofile ≠ []) :
    ∀ (invs : List (Invocation S O)) (tbl : Counters) (i j : Nat) (x y : Invocation S O)
      (ri rj : List GoString × Counters), i < j → invs[i]? = some x → invs[j]? = some y →
      x.name = y.name → -2 ^ 63 ≤ tbl x.name → tbl x.name + invs.length < 2 ^ 63 →
      (runInvocations coverprofile invs tbl)[i]? = some ri →
      (runInvocations coverprofile invs tbl)[j]? = some rj →
      ri.2 x.name < rj.2 x.name ∧
        argAfter (lit "-test.coverprofile") ri.1 ≠ argAfter (lit "-test.coverprofile") rj.1 := by
  intro invs
  induction invs with
  | nil => intro tbl i j x y ri rj _ hx; simp at hx
  | cons inv rest ih =>
    intro tbl i j x y ri rj hij hx hy hname hlo hhi hri hrj
    have hpi := runInvocations_coverPath coverprofile hcp _ tbl i x ri hx hri
    have hpj := runInvocations_coverPath coverprofile hcp _ tbl j y rj hy hrj
    have hmain : ri.2 x.name < rj.2 x.name := by
      rw [runInvocations_cons] at hri hrj
      simp only [List.length_cons, Nat.cast_add, Nat.cast_one] at hhi
      have hval := execArgs_counter_step coverprofile hcp inv.h inv.name inv.args tbl x.name
        (by omega) (by omega)
      have hbound : tbl x.name ≤ (execArgs coverprofile inv.h inv.name inv.args tbl).2 x.name ∧
          (execArgs coverprofile inv.h inv.name inv.args tbl).2 x.name ≤ tbl x.name + 1 := by
        by_cases hn : x.name = inv.name
        · rw [hval, if_pos hn]; omega
        · rw [hval, if_neg hn]; omega
      obtain ⟨j, rfl⟩ : ∃ j', j = j' + 1 := ⟨j - 1, by omega⟩
      simp only [List.getElem?_cons_succ] at hy hrj
      cases i with
      | zero =>
        simp only [List.getElem?_cons_zero, Option.some.injEq] at hx hri
        subst hx; subst hri
        have := runInvocations_counter coverprofile hcp inv.name rest
          (execArgs coverprofile inv.h inv.name inv.args tbl).2 j y rj (by omega) (by omega)
          hy hrj
        exact this.2.2 hname.symm
      | succ i =>
        simp only [List.getElem?_cons_succ] at hx hri
        exact (ih (execArgs coverprofile inv.h inv.name inv.args tbl).2 i j x y ri rj
          (by omega) hx hy hname (by omega) (by omega) hri hrj).1
    refine ⟨hmain, ?_⟩
    rw [hpi, hpj, ← hname]
    intro e
    have := coverPath_injective coverprofile x.name (Option.some.inj e)
    omega

theorem wrapInt_add (x y : Int) : wrapInt (wrapInt x + y) = wrapInt (x + y) := by
  unfold wrapInt
  norm_num
  omega

/-- In a sequence of calls that are all the same, the counter of the test
name after call `k` is the counter at the start plus `k + 1`, as an `int`. -/
theorem runInvocations_replicate {S O : Type} (coverprofile : GoString)
    (hcp : coverprofile ≠ []) (inv : Invocation S O) :
    ∀ (n : Nat) (tbl : Counters) (k : Nat), k < n →
      ∃ r : List GoString × Counters,
        (runInvocations coverprofile (List.replicate n inv) tbl)[k]? = some r ∧
        r.2 inv.name = wrapInt (tbl inv.name + (k + 1)) ∧
        argAfter (lit "-test.coverprofile") r.1 =
          some (coverPath coverprofile inv.name (r.2 inv.name)) := by
  intro n
  induction n with
  | zero => intro tbl k hk; omega
  | succ n ih =>
    intro tbl k hk
    rw [List.replicate_succ, runInvocations_cons]
    cases k with
    | zero =>
      refine ⟨execArgs coverprofile inv.h inv.name inv.args tbl, by simp, ?_,
        execArgs_coverPath coverprofile hcp _ _ _ _⟩
      rw [execArgs_counter coverprofile hcp, if_pos rfl]
      simp
    | succ k =>
      obtain ⟨r, h1, h2, h3⟩ := ih (execArgs coverprofile inv.h inv.name inv.args tbl).2 k
        (by omega)
      refine ⟨r, by simpa using h1, ?_, h3⟩
      rw [h2, execArgs_counter coverprofile hcp, if_pos rfl, wrapInt_add]
      congr 1
      push_cast
      ring

theorem wrapInt_idem (x : Int) : wrapInt (wrapInt x) = wrapInt x := by
  have := wrapInt_add x 0
  simpa using this

/-- After call `k` of a sequence the counter of a test name is, as an
`int`, its value at the start plus the number `m` of calls made under that
name so far. -/
theorem runInvocations_counter_wrap {S O : Type} (coverprofile : GoString)
    (hcp : coverprofile ≠ []) (n : GoString) :
    ∀ (invs : List (Invocation S O)) (tbl : Counters) (k : Nat) (y : Invocation S O)
      (r : List GoString × Counters), invs[k]? = some y →
      (runInvocations coverprofile invs tbl)[k]? = some r →
      ∃ m : Nat, m ≤ k + 1 ∧ (y.name = n → 1 ≤ m) ∧
        wrapInt (r.2 n) = wrapInt (tbl n + m) := by
  intro invs
  induction invs with
  | nil => intro tbl k y r hy; simp at hy
  | cons inv rest ih =>
    intro tbl k y r hy hr
    rw [runInvocations_cons] at hr
    have hstep := execArgs_counter coverprofile hcp inv.h inv.name inv.args tbl n
    cases k with
    | zero =>
      simp only [List.getElem?_cons_zero, Option.some.injEq] at hy hr
      subst hy; subst hr
      by_cases hn : n = inv.name
      · refine ⟨1, by omega, fun _ => le_refl _, ?_⟩
        rw [hstep, if_pos hn, ← hn, wrapInt_idem]
        simp
      · refine ⟨0, by omega, fun e => absurd e.symm hn, ?_⟩
        rw [hstep, if_neg hn]
        simp
    | succ k =>
      simp only [List.getElem?_cons_succ] at hy hr
      obtain ⟨m, hm1, hm2, hm3⟩ :=
        ih (execArgs coverprofile inv.h inv.name inv.args tbl).2 k y r hy hr
      by_cases hn : n = inv.name
      · refine ⟨m + 1, by omega, fun _ => by omega, ?_⟩
        rw [hm3, hstep, if_pos hn, ← hn, wrapInt_add]
        congr 1
        push_cast
        ring
      · refine ⟨m, by omega, hm2, ?_⟩
        rw [hm3, hstep, if_neg hn]

theorem wrapInt_shift_ne (x : Int) (m : Nat) (h1 : 1 ≤ m) (h2 : m < 2 ^ 64) :
    wrapInt x ≠ wrapInt (x + m) := by
  unfold wrapInt
  have h3 : ((m : Nat) : Int) < 2 ^ 64 := by exact_mod_cast h2
  have h4 : (1 : Int) ≤ m := by exact_mod_cast h1
  norm_num at h3 ⊢
  omega

/-- In a sequence of at most 2^64 calls, two calls made under the same
test name leave different counters for that name, whatever the table at the
start. -/
theorem runInvocations_counter_ne {S O : Type} (coverprofile : GoString)
    (hcp : coverprofile ≠ []) :
    ∀ (invs : List (Invocation S O)) (tbl : Counters) (i j : Nat) (x y : Invocation S O)
      (ri rj : List GoString × Counters), i < j → invs[i]? = some x → invs[j]? = some y →
      x.name = y.name → invs.length ≤ 2 ^ 64 →
      (runInvocations coverprofile invs tbl)[i]? = some ri →
      (runInvocations coverprofile invs tbl)[j]? = some rj →
      ri.2 x.name ≠ rj.2 x.name := by
  intro invs
  induction invs with
  | nil => intro tbl i j x y ri rj _ hx; simp at hx
  | cons inv rest ih =>
    intro tbl i j x y ri rj hij hx hy hname hlen hri hrj
    have hjlen : j < (inv :: rest).length := by
      by_contra hge
      rw [List.getElem?_eq_none (by omega)] at hy
      cases hy
    rw [runInvocations_cons] at hri hrj
    simp only [List.length_cons] at hlen hjlen
    obtain ⟨j, rfl⟩ : ∃ j', j = j' + 1 := ⟨j - 1, by omega⟩
    simp only [List.getElem?_cons_succ] at hy hrj
    cases i with
    | zero =>
      simp only [List.getElem?_cons_zero, Option.some.injEq] at hx hri
      subst hx; subst hri
      obtain ⟨m, hm1, hm2, hm3⟩ := runInvocations_counter_wrap coverprofile hcp inv.name rest
        (execArgs coverprofile inv.h inv.name inv.args tbl).2 j y rj hy hrj
      have hm := hm2 hname.symm
      intro e
      rw [← e] at hm3
      exact wrapInt_shift_ne _ m hm (by omega) hm3
    | succ i =>
      simp only [List.getElem?_cons_succ] at hx hri
      exact ih (execArgs coverprofile inv.h inv.name inv.args tbl).2 i j x y ri rj
        (by omega) hx hy hname (by omega) hri hrj

/-- Without the bound on the number of calls the coverage paths repeat: in
a sequence of 2^64 + 1 calls under the test name `T`, started from the empty
table, the first and the last call get the same coverage path. -/
theorem coverage_path_repeats :
    ∃ r0 r1 : List GoString × Counters,
      (runInvocations (lit "cover.out")
        (List.replicate (2 ^ 64 + 1) (⟨sampleHelper, lit "T", []⟩ : Invocation Unit Unit))
        Counters.empty)[0]? = some r0 ∧
      (runInvocations (lit "cover.out")
        (List.replicate (2 ^ 64 + 1) (⟨sampleHelper, lit "T", []⟩ : Invocation Unit Unit))
        Counters.empty)[2 ^ 64]? = some r1 ∧
      argAfter (lit "-test.coverprofile") r0.1 = some (lit "cover-T-1.out") ∧
      argAfter (lit "-test.coverprofile") r1.1 = some (lit "cover-T-1.out") := by
  have hcp : lit "cover.out" ≠ [] := by decide
  obtain ⟨r0, a1, a2, a3⟩ := runInvocations_replicate (lit "cover.out") hcp
    (⟨sampleHelper, lit "T", []⟩ : Invocation Unit Unit) (2 ^ 64 + 1) Counters.empty 0
    (by norm_num)
  obtain ⟨r1, b1, b2, b3⟩ := runInvocations_replicate (lit "cover.out") hcp
    (⟨sampleHelper, lit "T", []⟩ : Invocation Unit Unit) (2 ^ 64 + 1) Counters.empty (2 ^ 64)
    (by norm_num)
  have hpath : coverPath (lit "cover.out") (lit "T") 1 = lit "cover-T-1.out" := by decide
  have e0 : r0.2 (lit "T") = 1 := by
    rw [a2]
    simp only [Counters.empty]
    decide
  have e1 : r1.2 (lit "T") = 1 := by
    rw [b2]
    simp only [Counters.empty]
    norm_num [wrapInt]
  refine ⟨r0, r1, a1, b1, ?_, ?_⟩
  · rw [a3]
    simp only [e0, hpath]
  · rw [b3]
    simp only [e1, hpath]

/-- Claim C5, as stated, fails once the counter overflows. In a sequence of
2^64 + 1 calls under the test name `T`, started from the empty table, the
first and the last call get the same coverage path `cover-T-1.out`. And
started with the counter of `T` at 2^63 - 2, two calls under `T` leave the
counters 2^63 - 1 and then -2^63, which is not larger. -/
theorem coverage_counter_overflows :
    (∃ r0 r1 : List GoString × Counters,
      (runInvocations (lit "cover.out")
        (List.replicate (2 ^ 64 + 1) (⟨sampleHelper, lit "T", []⟩ : Invocation Unit Unit))
        Counters.empty)[0]? = some r0 ∧
      (runInvocations (lit "cover.out")
        (List.replicate (2 ^ 64 + 1) (⟨sampleHelper, lit "T", []⟩ : Invocation Unit Unit))
        Counters.empty)[2 ^ 64]? = some r1 ∧
      argAfter (lit "-test.coverprofile") r0.1 = some (lit "cover-T-1.out") ∧
      argAfter (lit "-test.coverprofile") r1.1 = some (lit "cover-T-1.out")) ∧
    ((runInvocations (lit "cover.out")
        [⟨sampleHelper, lit "T", []⟩, ⟨sampleHelper, lit "T", []⟩]
        (Function.update Counters.empty (lit "T") 9223372036854775806)).map
      fun r => (r.2 (lit "T"), argAfter (lit "-test.coverprofile") r.1)) =
      [(9223372036854775807, some (lit "cover-T-9223372036854775807.out")),
       (-9223372036854775808, some (lit "cover-T--9223372036854775808.out"))] ∧
    ¬ ((execArgs (lit "cover.out") sampleHelper (lit "T") []
          (Function.update Counters.empty (lit "T") 9223372036854775806)).2 (lit "T") <
        (execArgs (lit "cover.out") sampleHelper (lit "T") []
          (execArgs (lit "cover.out") sampleHelper (lit "T") []
            (Function.update Counters.empty (lit "T") 9223372036854775806)).2).2 (lit "T")) :=
  ⟨coverage_path_repeats, by decide, by decide⟩

/-- Claim C5, amended: with coverage, in any sequence of at most 2^64 calls
started from any table, two calls made with the same test name get different
coverage paths, because the counter of the name differs after the two calls;
it is strictly larger after the later call whenever the counter at the start
is a valid `int` that the calls of the sequence cannot make overflow. -/
theorem coverage_paths_differ_same_test {S O : Type} (coverprofile : GoString)
    (hcp : coverprofile ≠ []) (invs : List (Invocation S O)) (tbl : Counters) (i j : Nat)
    (x y : Invocation S O) (ri rj : List GoString × Counters) (hij : i < j)
    (hx : invs[i]? = some x) (hy : invs[j]? = some y) (hname : x.name = y.name)
    (hlen : invs.length ≤ 2 ^ 64)
    (hri : (runInvocations coverprofile invs tbl)[i]? = some ri)
    (hrj : (runInvocations coverprofile invs tbl)[j]? = some rj) :
    (∃ pi pj : GoString, argAfter (lit "-test.coverprofile") ri.1 = some pi ∧
        argAfter (lit "-test.coverprofile") rj.1 = some pj ∧ pi ≠ pj) ∧
      ri.2 x.name ≠ rj.2 x.name ∧
      (-2 ^ 63 ≤ tbl x.name → tbl x.name + invs.length < 2 ^ 63 →
        ri.2 x.name < rj.2 x.name) := by
  have hne := runInvocations_counter_ne coverprofile hcp invs tbl i j x y ri rj hij hx hy
    hname hlen hri hrj
  have hpi := runInvocations_coverPath coverprofile hcp invs tbl i x ri hx hri
  have hpj := runInvocations_coverPath coverprofile hcp invs tbl j y rj hy hrj
  refine ⟨⟨_, _, hpi, hpj, ?_⟩, hne, fun hlo hhi =>
    (runInvocations_same_name coverprofile hcp invs tbl i j x y ri rj hij hx hy
      hname hlo hhi hri hrj).1⟩
  rw [← hname]
  intro e
  exact hne (coverPath_injective coverprofile x.name e)

theorem coverage_paths_differ_same_test_witness :
    lit "cover.out" ≠ [] ∧ (0 : Nat) < 1 ∧
    ([⟨sampleHelper, lit "T", []⟩, ⟨sampleHelper, lit "T", [lit "version"]⟩] :
        List (Invocation Unit Unit))[0]? = some ⟨sampleHelper, lit "T", []⟩ ∧
    ([⟨sampleHelper, lit "T", []⟩, ⟨sampleHelper, lit "T", [lit "version"]⟩] :
        List (Invocation Unit Unit))[1]? = some ⟨sampleHelper, lit "T", [lit "version"]⟩ ∧
    ([⟨sampleHelper, lit "T", []⟩, ⟨sampleHelper, lit "T", [lit "version"]⟩] :
        List (Invocation Unit Unit)).length ≤ 2 ^ 64 ∧
    ((∃ pi pj : GoString,
        argAfter (lit "-test.coverprofile")
          (execArgs (lit "cover.out") sampleHelper (lit "T") [] Counters.empty).1 = some pi ∧
        argAfter (lit "-test.coverprofile")
          (execArgs (lit "cover.out") sampleHelper (lit "T") [lit "version"]
            (execArgs (lit "cover.out") sampleHelper (lit "T") [] Counters.empty).2).1
          = some pj ∧ pi ≠ pj) ∧
      (execArgs (lit "cover.out") sampleHelper (lit "T") [] Counters.empty).2 (lit "T") ≠
        (execArgs (lit "cover.out") sampleHelper (lit "T") [lit "version"]
          (execArgs (lit "cover.out") sampleHelper (lit "T") [] Counters.empty).2).2 (lit "T") ∧
      (-2 ^ 63 ≤ Counters.empty (lit "T") →
        Counters.empty (lit "T") + (2 : Nat) < 2 ^ 63 →
        (execArgs (lit "cover.out") sampleHelper (lit "T") [] Counters.empty).2 (lit "T") <
          (execArgs (lit "cover.out") sampleHelper (lit "T") [lit "version"]
            (execArgs (lit "cover.out") sampleHelper (lit "T") [] Counters.empty).2).2
            (lit "T"))) :=
  ⟨by decide, by decide, rfl, rfl, by norm_num,
    coverage_paths_differ_same_test (lit "cover.out") (by decide)
      [⟨sampleHelper, lit "T", []⟩, ⟨sampleHelper, lit "T", [lit "version"]⟩] Counters.empty
      0 1 ⟨sampleHelper, lit "T", []⟩ ⟨sampleHelper, lit "T", [lit "version"]⟩
      (execArgs (lit "cover.out") sampleHelper (lit "T") [] Counters.empty)
      (execArgs (lit "cover.out") sampleHelper (lit "T") [lit "version"]
        (execArgs (lit "cover.out") sampleHelper (lit "T") [] Counters.empty).2)
      (by decide) rfl rfl rfl (by norm_num) rfl rfl⟩

theorem callsOf_cons {S O : Type} (n : GoString) (inv : Invocation S O)
    (rest : List (Invocation S O)) :
    callsOf n (inv :: rest) = callsOf n rest + if inv.name = n then 1 else 0 := by
  unfold callsOf
  rw [List.countP_cons]
  simp

theorem callsOf_take_le {S O : Type} (n : GoString) (invs : List (Invocation S O))
    {a b : Nat} (h : a ≤ b) : callsOf n (invs.take a) ≤ callsOf n (invs.take b) :=
  List.Sublist.countP_le _ (List.take_sublist_take_left invs h)

theorem callsOf_pos {S O : Type} (invs : List (Invocation S O)) (i : Nat) (x : Invocation S O)
    (hx : invs[i]? = some x) : 1 ≤ callsOf x.name (invs.take (i + 1)) := by
  have e : (invs.take (i + 1))[i]? = some x := by
    rw [List.getElem?_take]
    simp [hx]
  have hm : x ∈ invs.take (i + 1) := List.getElem?_mem e
  unfold callsOf
  exact List.countP_pos_iff.mpr ⟨x, hm, by simp⟩

theorem callsOf_add_le {S O : Type} {n1 n2 : GoString} (hne : n1 ≠ n2) :
    ∀ invs : List (Invocation S O), callsOf n1 invs + callsOf n2 invs ≤ invs.length := by
  intro invs
  induction invs with
  | nil => simp [callsOf]
  | cons inv rest ih =>
    rw [callsOf_cons, callsOf_cons, List.length_cons]
    by_cases h1 : inv.name = n1
    · have h2 : inv.name ≠ n2 := fun e => hne (h1.symm.trans e)
      rw [if_pos h1, if_neg h2]
      omega
    · by_cases h2 : inv.name = n2
      · rw [if_neg h1, if_pos h2]; omega
      · rw [if_neg h1, if_neg h2]; omega

/-- After call `k` of a sequence the counter of a test name is, as an
`int`, its value at the start plus the number of calls made under that name
so far. -/
theorem runInvocations_counter_calls {S O : Type} (coverprofile : GoString)
    (hcp : coverprofile ≠ []) (n : GoString) :
    ∀ (invs : List (Invocation S O)) (tbl : Counters) (k : Nat)
      (r : List GoString × Counters),
      (runInvocations coverprofile invs tbl)[k]? = some r →
      wrapInt (r.2 n) = wrapInt (tbl n + callsOf n (invs.take (k + 1))) := by
  intro invs
  induction invs with
  | nil => intro tbl k r hr; simp [runInvocations] at hr
  | cons inv rest ih =>
    intro tbl k r hr
    rw [runInvocations_cons] at hr
    have hstep := execArgs_counter coverprofile hcp inv.h inv.name inv.args tbl n
    rw [List.take_succ_cons, callsOf_cons]
    cases k with
    | zero =>
      simp only [List.getElem?_cons_zero, Option.some.injEq] at hr
      subst hr
      have h0 : callsOf n (List.take 0 rest) = 0 := by simp [callsOf]
      rw [h0, hstep]
      by_cases hn : n = inv.name
      · rw [if_pos hn, if_pos hn.symm, ← hn, wrapInt_idem]
        simp
      · rw [if_neg hn, if_neg (fun e => hn e.symm)]
        simp
    | succ k =>
      simp only [List.getElem?_cons_succ] at hr
      rw [ih (execArgs coverprofile inv.h inv.name inv.args tbl).2 k r hr, hstep]
      by_cases hn : n = inv.name
      · rw [if_pos hn, if_pos hn.symm, ← hn, wrapInt_add]
        congr 1
        push_cast
        ring
      · rw [if_neg hn, if_neg (fun e => hn e.symm)]
        simp

theorem wrapInt_range (x : Int) : -2 ^ 63 ≤ wrapInt x ∧ wrapInt x < 2 ^ 63 := by
  unfold wrapInt
  norm_num
  omega

/-- A counter that is a valid `int` at the start is one after every call. -/
theorem runInvocations_counter_range {S O : Type} (coverprofile : GoString)
    (hcp : coverprofile ≠ []) (n : GoString) :
    ∀ (invs : List (Invocation S O)) (tbl : Counters) (k : Nat)
      (r : List GoString × Counters), -2 ^ 63 ≤ tbl n → tbl n < 2 ^ 63 →
      (runInvocations coverprofile invs tbl)[k]? = some r →
      -2 ^ 63 ≤ r.2 n ∧ r.2 n < 2 ^ 63 := by
  intro invs
  induction invs with
  | nil => intro tbl k r _ _ hr; simp [runInvocations] at hr
  | cons inv rest ih =>
    intro tbl k r hlo hhi hr
    rw [runInvocations_cons] at hr
    have hstep := execArgs_counter coverprofile hcp inv.h inv.name inv.args tbl n
    have hnext : -2 ^ 63 ≤ (execArgs coverprofile inv.h inv.name inv.args tbl).2 n ∧
        (execArgs coverprofile inv.h inv.name inv.args tbl).2 n < 2 ^ 63 := by
      rw [hstep]
      by_cases hn : n = inv.name
      · rw [if_pos hn]; exact wrapInt_range _
      · rw [if_neg hn]; exact ⟨hlo, hhi⟩
    cases k with
    | zero =>
      simp only [List.getElem?_cons_zero, Option.some.injEq] at hr
      subst hr
      exact hnext
    | succ k =>
      simp only [List.getElem?_cons_succ] at hr
      exact ih _ k r hnext.1 hnext.2 hr

/-- Started from the empty table, the counter of the test name of call `k`
is, after that call, the number of calls made under the name so far, as an
`int`. -/
theorem runInvocations_counter_empty {S O : Type} (coverprofile : GoString)
    (hcp : coverprofile ≠ []) (invs : List (Invocation S O)) (k : Nat)
    (r : List GoString × Counters) (n : GoString)
    (hr : (runInvocations coverprofile invs Counters.empty)[k]? = some r) :
    r.2 n = wrapInt (callsOf n (invs.take (k + 1))) := by
  have h1 := runInvocations_counter_calls coverprofile hcp n invs Counters.empty k r hr
  have h2 := runInvocations_counter_range coverprofile hcp n invs Counters.empty k r
    (by simp [Counters.empty]) (by simp [Counters.empty]) hr
  rw [wrapInt_id _ h2.1 h2.2] at h1
  rw [h1]
  simp [Counters.empty]

/-- For clean test names, two coverage paths are the same only for the same
test name and counter, or for opposite counters (one name is then the other
followed by a dash). -/
theorem coverPath_pair_cases (coverprofile : GoString) {n1 n2 : GoString} {c1 c2 : Int}
    (h1 : CleanName n1) (h2 : CleanName n2)
    (h : coverPath coverprofile n1 c1 = coverPath coverprofile n2 c2) :
    (n1 = n2 ∧ c1 = c2) ∨ c1 + c2 = 0 := by
  obtain ⟨pre, dw, _, hshape⟩ := coverPath_clean coverprofile
  rw [hshape n1 c1 h1, hshape n2 c2 h2] at h
  have hdig : ∀ n : Nat, 45 ∉ strconv.FormatUint n := by
    intro n hm
    have := strconv.FormatUint_digits _ 45 hm
    omega
  have e : (n1 ++ 45 :: strconv.FormatInt c1) ++ dw = (n2 ++ 45 :: strconv.FormatInt c2) ++ dw := by
    simpa [List.append_assoc] using h
  have e2 := List.append_cancel_right e
  unfold strconv.FormatInt at e2
  by_cases p1 : c1 < 0 <;> by_cases p2 : c2 < 0
  · rw [if_pos p1, if_pos p2] at e2
    have e3 : (n1 ++ [45]) ++ 45 :: strconv.FormatUint (-c1).toNat =
        (n2 ++ [45]) ++ 45 :: strconv.FormatUint (-c2).toNat := by
      simpa [List.append_assoc] using e2
    have := append_dash_inj _ _ _ _ (hdig _) (hdig _) e3
    have hn := List.append_cancel_right this.1
    have hc := strconv.FormatUint_injective this.2
    exact Or.inl ⟨hn, by omega⟩
  · rw [if_pos p1, if_neg p2] at e2
    have e3 : (n1 ++ [45]) ++ 45 :: strconv.FormatUint (-c1).toNat =
        n2 ++ 45 :: strconv.FormatUint c2.toNat := by
      simpa [List.append_assoc] using e2
    have := append_dash_inj _ _ _ _ (hdig _) (hdig _) e3
    have hc := strconv.FormatUint_injective this.2
    exact Or.inr (by omega)
  · rw [if_neg p1, if_pos p2] at e2
    have e3 : n1 ++ 45 :: strconv.FormatUint c1.toNat =
        (n2 ++ [45]) ++ 45 :: strconv.FormatUint (-c2).toNat := by
      simpa [List.append_assoc] using e2
    have := append_dash_inj _ _ _ _ (hdig _) (hdig _) e3
    have hc := strconv.FormatUint_injective this.2
    exact Or.inr (by omega)
  · rw [if_neg p1, if_neg p2] at e2
    have := append_dash_inj _ _ _ _ (hdig _) (hdig _) e2
    have hc := strconv.FormatUint_injective this.2
    exact Or.inl ⟨this.1, by omega⟩

theorem wrapInt_sum_ne (a b : Nat) (ha : 1 ≤ a) (hb : 1 ≤ b) (hab : a + b < 2 ^ 64) :
    wrapInt a + wrapInt b ≠ 0 := by
  unfold wrapInt
  have h1 : ((a : Nat) : Int) + b < 2 ^ 64 := by exact_mod_cast hab
  have h2 : (1 : Int) ≤ a := by exact_mod_cast ha
  have h3 : (1 : Int) ≤ b := by exact_mod_cast hb
  norm_num at h1 ⊢
  omega

/-- At exactly 2^64 calls two clean test names collide: after one call under
`A-` and 2^64 - 1 calls under `A`, the counter of `A` is -1, and the first
and the last call both get the coverage path `cover-A--1.out`. -/
theorem coverage_path_dash_collision :
    ∃ r0 r1 : List GoString × Counters,
      (runInvocations (lit "cover.out")
        ((⟨sampleHelper, lit "A-", []⟩ : Invocation Unit Unit) ::
          List.replicate (2 ^ 64 - 1) ⟨sampleHelper, lit "A", []⟩)
        Counters.empty)[0]? = some r0 ∧
      (runInvocations (lit "cover.out")
        ((⟨sampleHelper, lit "A-", []⟩ : Invocation Unit Unit) ::
          List.replicate (2 ^ 64 - 1) ⟨sampleHelper, lit "A", []⟩)
        Counters.empty)[2 ^ 64 - 1]? = some r1 ∧
      argAfter (lit "-test.coverprofile") r0.1 = some (lit "cover-A--1.out") ∧
      argAfter (lit "-test.coverprofile") r1.1 = some (lit "cover-A--1.out") := by
  have hcp : lit "cover.out" ≠ [] := by decide
  obtain ⟨r1, b1, b2, b3⟩ := runInvocations_replicate (lit "cover.out") hcp
    (⟨sampleHelper, lit "A", []⟩ : Invocation Unit Unit) (2 ^ 64 - 1)
    (execArgs (lit "cover.out") sampleHelper (lit "A-") [] Counters.empty).2 (2 ^ 64 - 2)
    (by norm_num)
  have htbl : (execArgs (lit "cover.out") sampleHelper (lit "A-") [] Counters.empty).2
      (lit "A") = 0 := by decide
  have e1 : r1.2 (lit "A") = -1 := by
    rw [b2]
    simp only [htbl]
    norm_num [wrapInt]
  have hpath : coverPath (lit "cover.out") (lit "A") (-1) = lit "cover-A--1.out" := by decide
  have h0 : argAfter (lit "-test.coverprofile")
      (execArgs (lit "cover.out") sampleHelper (lit "A-") [] Counters.empty).1 =
      some (lit "cover-A--1.out") := by decide
  have hsucc : (runInvocations (lit "cover.out")
        ((⟨sampleHelper, lit "A-", []⟩ : Invocation Unit Unit) ::
          List.replicate (2 ^ 64 - 1) ⟨sampleHelper, lit "A", []⟩)
        Counters.empty)[2 ^ 64 - 2 + 1]? = some r1 := by
    rw [runInvocations_cons, List.getElem?_cons_succ]
    exact b1
  rw [show (2 ^ 64 - 2 + 1 : Nat) = 2 ^ 64 - 1 from by norm_num] at hsucc
  refine ⟨execArgs (lit "cover.out") sampleHelper (lit "A-") [] Counters.empty, r1, ?_, hsucc,
    h0, ?_⟩
  · rw [runInvocations_cons, List.getElem?_cons_zero]
  · rw [b3]
    simp only [e1, hpath]

/-- Claim C10, as stated, fails. `Join` cleans the path, so the first calls
of the tests named `A/./b` and `A/b` get the same coverage path. And the
counter overflows: after one call under `A-` and 2^64 - 1 calls under `A`,
the first and the last call both get `cover-A--1.out`. -/
theorem coverage_paths_collide :
    ((runInvocations (lit "cover.out")
        [⟨sampleHelper, lit "A/./b", []⟩, ⟨sampleHelper, lit "A/b", []⟩] Counters.empty).map
      fun r => argAfter (lit "-test.coverprofile") r.1) =
      [some (lit "cover-A/b-1.out"), some (lit "cover-A/b-1.out")] ∧
    ∃ r0 r1 : List GoString × Counters,
      (runInvocations (lit "cover.out")
        ((⟨sampleHelper, lit "A-", []⟩ : Invocation Unit Unit) ::
          List.replicate (2 ^ 64 - 1) ⟨sampleHelper, lit "A", []⟩)
        Counters.empty)[0]? = some r0 ∧
      (runInvocations (lit "cover.out")
        ((⟨sampleHelper, lit "A-", []⟩ : Invocation Unit Unit) ::
          List.replicate (2 ^ 64 - 1) ⟨sampleHelper, lit "A", []⟩)
        Counters.empty)[2 ^ 64 - 1]? = some r1 ∧
      argAfter (lit "-test.coverprofile") r0.1 = some (lit "cover-A--1.out") ∧
      argAfter (lit "-test.coverprofile") r1.1 = some (lit "cover-A--1.out") :=
  ⟨by decide, coverage_path_dash_collision⟩

/-- Claim C10, amended: started from the empty table, with coverage, in
every sequence of fewer than 2^64 calls under test names that hold none of
`//`, `/./` and `/../`, any two distinct calls get different coverage paths:
their pairs of test name and counter differ, and no two pairs that occur
give the same path. -/
theorem coverage_paths_unique {S O : Type} (coverprofile : GoString)
    (hcp : coverprofile ≠ []) (invs : List (Invocation S O)) (i j : Nat)
    (x y : Invocation S O) (ri rj : List GoString × Counters) (hij : i < j)
    (hx : invs[i]? = some x) (hy : invs[j]? = some y)
    (hclean : ∀ inv ∈ invs, CleanName inv.name) (hlen : invs.length < 2 ^ 64)
    (hri : (runInvocations coverprofile invs Counters.empty)[i]? = some ri)
    (hrj : (runInvocations coverprofile invs Counters.empty)[j]? = some rj) :
    (x.name, ri.2 x.name) ≠ (y.name, rj.2 y.name) ∧
      ∃ pi pj : GoString, argAfter (lit "-test.coverprofile") ri.1 = some pi ∧
        argAfter (lit "-test.coverprofile") rj.1 = some pj ∧ pi ≠ pj := by
  have hpi := runInvocations_coverPath coverprofile hcp invs Counters.empty i x ri hx hri
  have hpj := runInvocations_coverPath coverprofile hcp invs Counters.empty j y rj hy hrj
  by_cases hname : x.name = y.name
  · have hne := runInvocations_counter_ne coverprofile hcp invs Counters.empty i j x y ri rj
      hij hx hy hname (le_of_lt hlen) hri hrj
    refine ⟨?_, _, _, hpi, hpj, ?_⟩
    · intro e
      have := (Prod.mk.inj e).2
      rw [← hname] at this
      exact hne this
    · rw [← hname]
      intro e
      exact hne (coverPath_injective coverprofile x.name e)
  · refine ⟨fun e => hname (Prod.mk.inj e).1, _, _, hpi, hpj, ?_⟩
    intro e
    have hxm : x ∈ invs := List.getElem?_mem hx
    have hym : y ∈ invs := List.getElem?_mem hy
    rcases coverPath_pair_cases coverprofile (hclean x hxm) (hclean y hym) e with h | h
    · exact hname h.1
    · rw [runInvocations_counter_empty coverprofile hcp invs i ri x.name hri,
        runInvocations_counter_empty coverprofile hcp invs j rj y.name hrj] at h
      have ha := callsOf_pos invs i x hx
      have hb := callsOf_pos invs j y hy
      have hmono := callsOf_take_le x.name invs (show i + 1 ≤ j + 1 by omega)
      have hsum := callsOf_add_le hname (invs.take (j + 1))
      have hl : (invs.take (j + 1)).length ≤ invs.length := by
        rw [List.length_take]
        exact Nat.min_le_right _ _
      exact wrapInt_sum_ne _ _ ha hb (by omega) h

theorem coverage_paths_unique_witness :
    lit "cover.out" ≠ [] ∧ (0 : Nat) < 1 ∧
    (∀ inv ∈ ([⟨sampleHelper, lit "TestA/sub", []⟩, ⟨sampleHelper, lit "TestB", []⟩] :
        List (Invocation Unit Unit)), CleanName inv.name) ∧
    ([⟨sampleHelper, lit "TestA/sub", []⟩, ⟨sampleHelper, lit "TestB", []⟩] :
        List (Invocation Unit Unit)).length < 2 ^ 64 ∧
    ((lit "TestA/sub", (execArgs (lit "cover.out") sampleHelper (lit "TestA/sub") []
          Counters.empty).2 (lit "TestA/sub")) ≠
        (lit "TestB", (execArgs (lit "cover.out") sampleHelper (lit "TestB") []
          (execArgs (lit "cover.out") sampleHelper (lit "TestA/sub") []
            Counters.empty).2).2 (lit "TestB")) ∧
      ∃ pi pj : GoString,
        argAfter (lit "-test.coverprofile")
          (execArgs (lit "cover.out") sampleHelper (lit "TestA/sub") [] Counters.empty).1
          = some pi ∧
        argAfter (lit "-test.coverprofile")
          (execArgs (lit "cover.out") sampleHelper (lit "TestB") []
            (execArgs (lit "cover.out") sampleHelper (lit "TestA/sub") []
              Counters.empty).2).1 = some pj ∧ pi ≠ pj) :=
  ⟨by decide, by decide, by decide, by norm_num,
    coverage_paths_unique (lit "cover.out") (by decide)
      [⟨sampleHelper, lit "TestA/sub", []⟩, ⟨sampleHelper, lit "TestB", []⟩] 0 1
      ⟨sampleHelper, lit "TestA/sub", []⟩ ⟨sampleHelper, lit "TestB", []⟩
      (execArgs (lit "cover.out") sampleHelper (lit "TestA/sub") [] Counters.empty)
      (execArgs (lit "cover.out") sampleHelper (lit "TestB") []
        (execArgs (lit "cover.out") sampleHelper (lit "TestA/sub") [] Counters.empty).2)
      (by decide) rfl rfl (by decide) (by norm_num) rfl rfl⟩

end Cmdtestlib
